import Mathlib

/-!
# boltutils: nested buckets and sortable encodings

A shallow embedding of the Go package `boltutils` (files `time.go`,
`natural.go` and `deep.go`) and proofs about it. Definitions come first, in
the order time encoding, natural sort encoding, nested buckets; theorems
follow in the same order.
-/

namespace Boltutils

/-! ## Sortable timestamp encoding (time.go)

Bytes are natural numbers below 256; a byte slice is a list of them. A Go
runtime panic (index or slice bound out of range) is the result `none`. -/

/-- Conversion `byte(v)` of an unsigned integer: the low 8 bits. -/
def byte (v : Nat) : Nat := v % 256

/-- Conversion `uint16(x)` of a signed integer: reduction modulo 2^16. -/
def uint16 (x : Int) : Nat := (x % 65536).toNat

/-- Conversion `uint64(x)` of a signed 64-bit integer: reduction modulo 2^64. -/
def uint64 (x : Int) : Nat := (x % 18446744073709551616).toNat

/-- Conversion `int64(v)` (here `time.Duration(v)`) of an unsigned 64-bit
integer: values from 2^63 on wrap to the negative range. -/
def int64 (v : Nat) : Int :=
  if v % 18446744073709551616 < 9223372036854775808 then ((v % 18446744073709551616 : Nat) : Int)
  else ((v % 18446744073709551616 : Nat) : Int) - 18446744073709551616

/-- Constant `yearShift = math.MaxInt16 + 1`. -/
def yearShift : Int := 32767 + 1

/-- Constant `TimeBytesLen`. -/
def TimeBytesLen : Nat := 9

/-- A `time.Time` seen in UTC: an instant, held as the number of nanoseconds
from 0001-01-01T00:00:00Z (the zero `time.Time`), negative before it. The
location is not kept: `t.UTC()` keeps the instant and every function here
reads the time in UTC. Go counts the seconds of an instant in 64 bits; the
instants of the years -32767 to 32767 are far inside that range, and the
number here is not bounded. -/
structure Time where
  ns : Int
deriving DecidableEq, Repr

/-- Nanoseconds in a day. -/
def nsPerDay : Int := 86400 * 1000000000

/-- Days from 0001-01-01 to the first of January of `year` in the proleptic
Gregorian calendar, the calendar of Go's `time` package. -/
def daysBeforeYear (year : Int) : Int :=
  365 * (year - 1) + (year - 1) / 4 - (year - 1) / 100 + (year - 1) / 400

/-- Year of the day numbered `day` from 0001-01-01, by the cycle cutting of
Go's `time` package: 400-year cycles, then 100-year, 4-year and single
years, the last cycle of each kind being one day longer. -/
def yearOfDay (day : Int) : Int :=
  let n400 := day / 146097
  let d1 := day - 146097 * n400
  let n100 := d1 / 36524
  let n100 := n100 - n100 / 4
  let d2 := d1 - 36524 * n100
  let n4 := d2 / 1461
  let d3 := d2 - 1461 * n4
  let n1 := d3 / 365
  let n1 := n1 - n1 / 4
  1 + 400 * n400 + 100 * n100 + 4 * n4 + n1

/-- Method `t.Year()` in UTC. -/
def Time.Year (t : Time) : Int := yearOfDay (t.ns / nsPerDay)

/-- Call `time.Date(year, 1, 1, 0, 0, 0, 0, time.UTC)`: the start of `year`. -/
def Date (year : Int) : Time := ⟨daysBeforeYear year * nsPerDay⟩

/-- Method `t.Sub(u)`: the duration `t - u` in nanoseconds, saturated to the
range of a signed 64-bit integer. -/
def Time.Sub (t u : Time) : Int :=
  let d := t.ns - u.ns
  if d < -9223372036854775808 then -9223372036854775808
  else if 9223372036854775807 < d then 9223372036854775807
  else d

/-- Method `t.Add(d)`. -/
def Time.Add (t : Time) (d : Int) : Time := ⟨t.ns + d⟩

/-- Call `binary.BigEndian.PutUint16(b, v)`; the new contents of `b`. -/
def PutUint16 (b : List Nat) (v : Nat) : Option (List Nat) :=
  if b.length < 2 then none
  else some ((b.set 0 (byte (v >>> 8))).set 1 (byte v))

/-- Call `binary.BigEndian.Uint16(b)`. -/
def Uint16 (b : List Nat) : Option Nat := do
  let b1 ← b[1]?
  let b0 ← b[0]?
  some (b1 ||| b0 <<< 8)

/-- Function `putUint48`: writes the low 56 bits of `v` into the first seven
bytes of `b`, most significant byte first; the new contents of `b`. -/
def putUint48 (b : List Nat) (v : Nat) : Option (List Nat) :=
  if b.length ≤ 6 then none
  else some (((((((b.set 0 (byte (v >>> 48))).set 1 (byte (v >>> 40))).set 2 (byte (v >>> 32))).set 3
    (byte (v >>> 24))).set 4 (byte (v >>> 16))).set 5 (byte (v >>> 8))).set 6 (byte v))

/-- Function `getUint48`: reads seven bytes, most significant first. -/
def getUint48 (b : List Nat) : Option Nat := do
  let b6 ← b[6]?
  let b5 ← b[5]?
  let b4 ← b[4]?
  let b3 ← b[3]?
  let b2 ← b[2]?
  let b1 ← b[1]?
  let b0 ← b[0]?
  some (b6 ||| b5 <<< 8 ||| b4 <<< 16 ||| b3 <<< 24 ||| b2 <<< 32 ||| b1 <<< 40 ||| b0 <<< 48)

/-- Function `PutTimeToBytesUTC`; the new contents of `b`. The slices
`b[:2]` and `b[2:9]` share the storage of `b`, so the result is the two
written parts followed by the untouched rest of `b`. -/
def PutTimeToBytesUTC (b : List Nat) (t : Time) : Option (List Nat) :=
  if b.length < 9 then none
  else do
    let hd ← PutUint16 (b.take 2) (uint16 (t.Year + yearShift))
    let tl ← putUint48 ((b.drop 2).take 7) (uint64 (t.Sub (Date t.Year)))
    some (hd ++ tl ++ b.drop 9)

/-- Function `TimeToBytesUTC`. -/
def TimeToBytesUTC (t : Time) : Option (List Nat) :=
  PutTimeToBytesUTC (List.replicate TimeBytesLen 0) t

/-- Function `BytesToTimeUTC`. -/
def BytesToTimeUTC (b : List Nat) : Option Time :=
  if b.length < TimeBytesLen then none
  else do
    let y ← Uint16 (b.take 2)
    let y : Int := y
    let y := if y > 0 then y - 1 else y
    let y := y - 32767
    let ns ← getUint48 ((b.drop 2).take (TimeBytesLen - 2))
    some ((Date y).Add (int64 ns))

/-- Lexicographic comparison of two lists of natural numbers. On byte strings
it is the comparison done by `bytes.Compare`, by the comparison operators on
Go strings and by the key order of the store; on tuples of numbers it is the
usual lexicographic order. -/
def lexCompare : List Nat → List Nat → Ordering
  | [], [] => Ordering.eq
  | [], _ :: _ => Ordering.lt
  | _ :: _, [] => Ordering.gt
  | x :: xs, y :: ys =>
    if x < y then Ordering.lt
    else if y < x then Ordering.gt
    else lexCompare xs ys

/-- Value of a byte string read as a big-endian unsigned integer. -/
def bigEndianValue : List Nat → Nat
  | [] => 0
  | x :: xs => x * 256 ^ xs.length + bigEndianValue xs

/-- Big-endian encoding of `v` on `width` bytes, most significant first. -/
def bigEndian : Nat → Nat → List Nat
  | 0, _ => []
  | n + 1, v => v / 256 ^ n % 256 :: bigEndian n v


/-- The nine bytes of an encoded time with year field `y` and nanosecond
field `v`. -/
def timeBytes (y v : Nat) : List Nat :=
  [byte (y >>> 8), byte y, byte (v >>> 48), byte (v >>> 40), byte (v >>> 32),
   byte (v >>> 24), byte (v >>> 16), byte (v >>> 8), byte v]


/-- The raw year field of an encoded time: its first two bytes read as a
big-endian number. -/
def yearField (b : List Nat) : Nat := bigEndianValue (b.take 2)

/-- The nanosecond field of an encoded time: its bytes 2 to 8 read as a
big-endian number. -/
def nanoField (b : List Nat) : Nat := bigEndianValue ((b.drop 2).take 7)

/-- Length of the calendar year `y` in nanoseconds. -/
def yearLength (y : Int) : Int := (Date (y + 1)).ns - (Date y).ns

/-! ## Natural sort encoding (natural.go)

A Go string is its byte sequence. -/

/-- Constant `utf8.RuneError`, the rune a range loop yields for a byte that
does not start a valid UTF-8 sequence. -/
def RuneError : Nat := 0xFFFD

/-- Test of a following byte of a UTF-8 sequence: present and within
`lo..hi`. -/
def isCont (b : Option Nat) (lo hi : Nat) : Bool :=
  match b with
  | some x => decide (lo ≤ x ∧ x ≤ hi)
  | none => false

/-- Payload (low six bits) of a following byte of a UTF-8 sequence. -/
def contBits (b : Option Nat) : Nat :=
  match b with
  | some x => x % 64
  | none => 0

/-- Lowest second byte accepted after the first byte `s0` (this excludes
overlong encodings). -/
def acceptLo (s0 : Nat) : Nat :=
  if s0 = 0xE0 then 0xA0 else if s0 = 0xF0 then 0x90 else 0x80

/-- Highest second byte accepted after the first byte `s0` (this excludes
surrogates and runes above U+10FFFF). -/
def acceptHi (s0 : Nat) : Nat :=
  if s0 = 0xED then 0x9F else if s0 = 0xF4 then 0x8F else 0xBF

/-- Rune and width that a `for i, r := range` loop over a string decodes at
the front of the remaining bytes (`utf8.DecodeRuneInString`): one ASCII byte,
or a well-formed sequence of 2 to 4 bytes that is neither overlong, nor a
surrogate, nor above U+10FFFF, or else `RuneError` of width 1. -/
def decodeRune : List Nat → Nat × Nat
  | [] => (RuneError, 0)
  | s0 :: rest =>
    if s0 < 0x80 then (s0, 1)
    else if s0 < 0xC2 then (RuneError, 1)
    else if s0 < 0xE0 then
      if isCont rest[0]? 0x80 0xBF then (s0 % 32 * 64 + contBits rest[0]?, 2)
      else (RuneError, 1)
    else if s0 < 0xF0 then
      if isCont rest[0]? (acceptLo s0) (acceptHi s0) && isCont rest[1]? 0x80 0xBF then
        (s0 % 16 * 4096 + contBits rest[0]? * 64 + contBits rest[1]?, 3)
      else (RuneError, 1)
    else if s0 < 0xF5 then
      if isCont rest[0]? (acceptLo s0) (acceptHi s0) && isCont rest[1]? 0x80 0xBF
          && isCont rest[2]? 0x80 0xBF then
        (s0 % 8 * 262144 + contBits rest[0]? * 4096 + contBits rest[1]? * 64
          + contBits rest[2]?, 4)
      else (RuneError, 1)
    else (RuneError, 1)

/-- Function `unicode.IsDigit`. Up to U+00FF the digits are '0' to '9'; above,
membership in the range table `unicode.Digit`, which is not part of this
repository and is the parameter `digitTable`. -/
def IsDigit (digitTable : Nat → Bool) (r : Nat) : Bool :=
  if r ≤ 0xFF then decide (0x30 ≤ r ∧ r ≤ 0x39) else digitTable r

/-- The digit loop of `strconv.ParseUint(s, 10, 64)` with accumulator `n`;
`none` is a non-nil error (a byte that is not an ASCII digit, or a value
that does not fit 64 bits). -/
def parseUintLoop : List Nat → Nat → Option Nat
  | [], n => some n
  | c :: cs, n =>
    if 0x30 ≤ c ∧ c ≤ 0x39 then
      if n ≥ 18446744073709551615 / 10 + 1 then none
      else if n * 10 + (c - 0x30) > 18446744073709551615 then none
      else parseUintLoop cs (n * 10 + (c - 0x30))
    else none

/-- Call `strconv.ParseUint(s, 10, 64)`; `none` is a non-nil error. -/
def ParseUint (s : List Nat) : Option Nat :=
  if s = [] then none else parseUintLoop s 0

/-- Call `binary.BigEndian.PutUint64(b, v)`; the new contents of `b`. -/
def PutUint64 (b : List Nat) (v : Nat) : Option (List Nat) :=
  if b.length ≤ 7 then none
  else some ((((((((b.set 0 (byte (v >>> 56))).set 1 (byte (v >>> 48))).set 2
    (byte (v >>> 40))).set 3 (byte (v >>> 32))).set 4 (byte (v >>> 24))).set 5
    (byte (v >>> 16))).set 6 (byte (v >>> 8))).set 7 (byte v))

/-- The `for i, r := range in` loop of `getFirstNumber`, run on the bytes from
index `i` on; `skip` counts the bytes still belonging to the rune decoded
last. The result is the pair `(start, end)` when the loop is left. -/
def getFirstNumberLoop (digitTable : Nat → Bool) :
    List Nat → Nat → Nat → Int → Int → Int × Int
  | [], _, _, start, end_ => (start, end_)
  | _ :: rest, skip + 1, i, start, end_ =>
    getFirstNumberLoop digitTable rest skip (i + 1) start end_
  | s0 :: rest, 0, i, start, end_ =>
    if IsDigit digitTable (decodeRune (s0 :: rest)).1 then
      getFirstNumberLoop digitTable rest ((decodeRune (s0 :: rest)).2 - 1) (i + 1)
        (if start < 0 then (i : Int) else start) end_
    else if start ≥ 0 ∧ end_ < 0 then (start, (i : Int))
    else getFirstNumberLoop digitTable rest ((decodeRune (s0 :: rest)).2 - 1) (i + 1) start end_

/-- Function `getFirstNumber`. -/
def getFirstNumber (digitTable : Nat → Bool) (inp : List Nat) : Int × Int × Nat :=
  let r := getFirstNumberLoop digitTable inp 0 0 (-1) (-1)
  let start := r.1
  let end_ := r.2
  if start ≥ 0 then
    let end_ := if end_ < 0 then (inp.length : Int) else end_
    match ParseUint ((inp.drop start.toNat).take (end_.toNat - start.toNat)) with
    | some number => (start, end_, number)
    | none => (-1, -1, 0)
  else (-1, -1, 0)

/-- The `for` loop of `Natural` on the remaining input `inp` with the output
`out` built so far. One unit of `fuel` is used per iteration; `none` is a
runtime panic or fuel that ran out. -/
def NaturalLoop (digitTable : Nat → Bool) : Nat → List Nat → List Nat → Option (List Nat)
  | 0, _, _ => none
  | fuel + 1, inp, out =>
    let r := getFirstNumber digitTable inp
    if r.1 < 0 then some (out ++ inp)
    else
      match PutUint64 (List.replicate 8 0) r.2.2 with
      | none => none
      | some b =>
        if inp.drop r.2.1.toNat = [] then some (out ++ inp.take r.1.toNat ++ b)
        else NaturalLoop digitTable fuel (inp.drop r.2.1.toNat) (out ++ inp.take r.1.toNat ++ b)

/-- Function `Natural`. Every iteration but the last shortens the input, so
one iteration per input byte and one more are enough. -/
def Natural (digitTable : Nat → Bool) (inp : List Nat) : Option (List Nat) :=
  NaturalLoop digitTable (inp.length + 1) inp []

/-- Bytes of a string literal (ASCII). -/
def str (s : String) : List Nat := s.toList.map Char.toNat

/-- The runes that a range loop over the bytes yields, in order; `skip` as
in `getFirstNumberLoop`. -/
def runesFrom : List Nat → Nat → List Nat
  | [], _ => []
  | _ :: rest, skip + 1 => runesFrom rest skip
  | s0 :: rest, 0 => (decodeRune (s0 :: rest)).1 :: runesFrom rest ((decodeRune (s0 :: rest)).2 - 1)

/-- The runes of a string. -/
def runes (s : List Nat) : List Nat := runesFrom s 0


/-- Value of a string of ASCII decimal digits (0 for the empty string). -/
def decimalValue (d : List Nat) : Nat := d.foldl (fun n c => n * 10 + (c - 0x30)) 0

/-- A decimal digit run: a non-empty string of the ASCII digits '0' to '9'. -/
def DigitRun (d : List Nat) : Prop := d ≠ [] ∧ ∀ c ∈ d, 0x30 ≤ c ∧ c ≤ 0x39

/-- A text without digits: no rune of it is a digit for `unicode.IsDigit`. -/
def NoDigit (digitTable : Nat → Bool) (t : List Nat) : Prop :=
  ∀ r ∈ runes t, IsDigit digitTable r = false

/-- The string `t0 d1 t1 ... dk tk` made of a leading text and the pairs
`(d_i, t_i)` of a digit run and the text after it. -/
def assemble (t0 : List Nat) : List (List Nat × List Nat) → List Nat
  | [] => t0
  | (d, t) :: segs => t0 ++ d ++ assemble t segs

/-- The string `t0 d1 t1 ... dk tk` with every digit run replaced by the
8-byte big-endian encoding of its value. -/
def assembleEncoded (t0 : List Nat) : List (List Nat × List Nat) → List Nat
  | [] => t0
  | (d, t) :: segs => t0 ++ bigEndian 8 (decimalValue d) ++ assembleEncoded t segs

/-- The pieces are the maximal digit runs of the assembled string and the
texts around them: every text is without digits, every run is a non-empty
string of ASCII digits, and a text between two runs is not empty. -/
def Pieces (digitTable : Nat → Bool) (t0 : List Nat) : List (List Nat × List Nat) → Prop
  | [] => NoDigit digitTable t0
  | (d, t) :: segs =>
    NoDigit digitTable t0 ∧ DigitRun d ∧ (segs ≠ [] → t ≠ []) ∧ Pieces digitTable t segs

/-- A string that is empty or starts with an ASCII byte: no UTF-8 sequence
begun in the text before it can run into it. -/
def AsciiHead (rest : List Nat) : Prop := ∀ c ∈ rest.head?, c < 0x80

/-- A string that is empty or whose first rune is not a digit: a digit run
before it ends where it starts. -/
def StartsClean (digitTable : Nat → Bool) (rest : List Nat) : Prop :=
  rest = [] ∨ IsDigit digitTable (decodeRune rest).1 = false

/-- No non-ASCII Unicode digit: every rune of the string that is a digit for
`unicode.IsDigit` is an ASCII character. -/
def NoUnicodeDigit (digitTable : Nat → Bool) (s : List Nat) : Prop :=
  ∀ r ∈ runes s, IsDigit digitTable r = true → r < 0x80

/-- The pairs `(d_i, t_i)` and the leading text cut the assembled string at
its maximal runs of the decimal digits '0' to '9': no text holds such a
digit, every run is a non-empty string of them, and a text between two runs
is not empty. -/
def MaximalRuns (t0 : List Nat) : List (List Nat × List Nat) → Prop
  | [] => ∀ c ∈ t0, ¬ (0x30 ≤ c ∧ c ≤ 0x39)
  | (d, t) :: segs =>
    (∀ c ∈ t0, ¬ (0x30 ≤ c ∧ c ≤ 0x39)) ∧ DigitRun d ∧ (segs ≠ [] → t ≠ []) ∧ MaximalRuns t segs

/-- The values of the digit runs, in order. -/
def runValues (segs : List (List Nat × List Nat)) : List Nat :=
  segs.map (fun p => decimalValue p.1)

instance DigitRun.decidable (d : List Nat) : Decidable (DigitRun d) :=
  inferInstanceAs (Decidable (d ≠ [] ∧ ∀ c ∈ d, 0x30 ≤ c ∧ c ≤ 0x39))

instance NoDigit.decidable (digitTable : Nat → Bool) (t : List Nat) :
    Decidable (NoDigit digitTable t) :=
  inferInstanceAs (Decidable (∀ r ∈ runes t, IsDigit digitTable r = false))

instance NoUnicodeDigit.decidable (digitTable : Nat → Bool) (s : List Nat) :
    Decidable (NoUnicodeDigit digitTable s) :=
  inferInstanceAs (Decidable (∀ r ∈ runes s, IsDigit digitTable r = true → r < 0x80))

instance StartsClean.decidable (digitTable : Nat → Bool) (rest : List Nat) :
    Decidable (StartsClean digitTable rest) :=
  inferInstanceAs (Decidable (rest = [] ∨ IsDigit digitTable (decodeRune rest).1 = false))

instance Pieces.decidable (digitTable : Nat → Bool) :
    ∀ (t0 : List Nat) (segs : List (List Nat × List Nat)), Decidable (Pieces digitTable t0 segs)
  | t0, [] => inferInstanceAs (Decidable (NoDigit digitTable t0))
  | t0, (d, t) :: segs =>
    have := Pieces.decidable digitTable t segs
    inferInstanceAs (Decidable
      (NoDigit digitTable t0 ∧ DigitRun d ∧ (segs ≠ [] → t ≠ []) ∧ Pieces digitTable t segs))

instance MaximalRuns.decidable :
    ∀ (t0 : List Nat) (segs : List (List Nat × List Nat)), Decidable (MaximalRuns t0 segs)
  | t0, [] => inferInstanceAs (Decidable (∀ c ∈ t0, ¬ (0x30 ≤ c ∧ c ≤ 0x39)))
  | t0, (d, t) :: segs =>
    have := MaximalRuns.decidable t segs
    inferInstanceAs (Decidable
      ((∀ c ∈ t0, ¬ (0x30 ≤ c ∧ c ≤ 0x39)) ∧ DigitRun d ∧ (segs ≠ [] → t ≠ [])
        ∧ MaximalRuns t segs))

/-! ## Nested buckets (deep.go)

The store is bbolt, which is not part of the repository. It is modelled by
what an open transaction sees: a tree of buckets, each mapping a key either
to a value or to a nested bucket, held as the map from the paths of keys to
what they hold, together with whether the transaction is a write
transaction, with bbolt's documented result for each primitive: in a
read-only transaction every primitive that writes returns
`ErrTxNotWritable` before it looks at the key. A byte slice passed to a
function is the list of its bytes. bbolt keeps the slice it is given as a
value, so a key put with the nil slice reads back as nil until the
transaction is committed: such a key holds the entry `nilValue`; a key that
holds any other value, the empty one included, reads back as its bytes. A
call that returns `none` is a runtime panic. -/

/-- What is held under a key of a bucket: a value that is not nil, a nested
bucket, or the nil slice put as a value in this transaction. -/
inductive Entry where
  | value (v : List Nat)
  | bucket
  | nilValue
deriving DecidableEq, Repr

/-- A transaction `*bolt.Tx` and the state of the store in it: what is held
at each path of keys from the root (`none`: nothing), and whether the
transaction is a write transaction (`db.Update`) or a read-only one
(`db.View`). -/
structure Tx where
  entries : List (List Nat) → Option Entry
  writable : Bool

/-- The state with `e` held at path `p`. -/
def Tx.set (tx : Tx) (p : List (List Nat)) (e : Option Entry) : Tx :=
  ⟨fun q => if q = p then e else tx.entries q, tx.writable⟩

/-- The empty store in a write transaction. -/
def Tx.empty : Tx := ⟨fun _ => none, true⟩

/-- A `*bolt.Bucket`: the path of the bucket from the root; the root bucket of
the transaction has the empty path. -/
structure Bucket where
  path : List (List Nat)
deriving DecidableEq, Repr

/-- The errors of bbolt that the primitives used here return. -/
inductive BoltError where
  | ErrBucketNotFound
  | ErrBucketNameRequired
  | ErrKeyRequired
  | ErrKeyTooLarge
  | ErrValueTooLarge
  | ErrIncompatibleValue
  | ErrTxNotWritable
deriving DecidableEq, Repr

/-- Text of a bbolt error. -/
def BoltError.Error : BoltError → List Nat
  | ErrBucketNotFound => str "bucket not found"
  | ErrBucketNameRequired => str "bucket name required"
  | ErrKeyRequired => str "key required"
  | ErrKeyTooLarge => str "key too large"
  | ErrValueTooLarge => str "value too large"
  | ErrIncompatibleValue => str "incompatible value"
  | ErrTxNotWritable => str "tx not writable"

/-- Constant `bolt.MaxKeySize`. -/
def MaxKeySize : Nat := 32768

/-- Constant `bolt.MaxValueSize`. -/
def MaxValueSize : Nat := 2147483646

/-- Method `b.Bucket(name)`: the nested bucket, `none` (nil) when the key is
missing or holds a value. -/
def bucketBucket (tx : Tx) (b : Bucket) (name : List Nat) : Option Bucket :=
  match tx.entries (b.path ++ [name]) with
  | some Entry.bucket => some ⟨b.path ++ [name]⟩
  | _ => none

/-- Method `b.Get(key)`: the value, `none` (nil) when the key is missing,
holds a nested bucket or holds the nil value. -/
def bucketGet (tx : Tx) (b : Bucket) (key : List Nat) : Option (List Nat) :=
  match tx.entries (b.path ++ [key]) with
  | some (Entry.value v) => some v
  | _ => none

/-- Method `b.CreateBucketIfNotExists(key)`: the bucket and the new state. -/
def bucketCreateBucketIfNotExists (tx : Tx) (b : Bucket) (key : List Nat) :
    Except BoltError (Bucket × Tx) :=
  if !tx.writable then Except.error BoltError.ErrTxNotWritable
  else if key = [] then Except.error BoltError.ErrBucketNameRequired
  else
    match tx.entries (b.path ++ [key]) with
    | some Entry.bucket => Except.ok (⟨b.path ++ [key]⟩, tx)
    | some (Entry.value _) => Except.error BoltError.ErrIncompatibleValue
    | some Entry.nilValue => Except.error BoltError.ErrIncompatibleValue
    | none => Except.ok (⟨b.path ++ [key]⟩, tx.set (b.path ++ [key]) (some Entry.bucket))

/-- Method `b.Put(key, value)` with a value that is not nil: the new state. -/
def bucketPut (tx : Tx) (b : Bucket) (key value : List Nat) : Except BoltError Tx :=
  if !tx.writable then Except.error BoltError.ErrTxNotWritable
  else if key = [] then Except.error BoltError.ErrKeyRequired
  else if key.length > MaxKeySize then Except.error BoltError.ErrKeyTooLarge
  else if value.length > MaxValueSize then Except.error BoltError.ErrValueTooLarge
  else
    match tx.entries (b.path ++ [key]) with
    | some Entry.bucket => Except.error BoltError.ErrIncompatibleValue
    | _ => Except.ok (tx.set (b.path ++ [key]) (some (Entry.value value)))

/-- Method `tx.Bucket(name)`: a bucket of the root. -/
def txBucket (tx : Tx) (name : List Nat) : Option Bucket :=
  bucketBucket tx ⟨[]⟩ name

/-- Method `tx.CreateBucketIfNotExists(name)`: on the root bucket. -/
def txCreateBucketIfNotExists (tx : Tx) (name : List Nat) : Except BoltError (Bucket × Tx) :=
  bucketCreateBucketIfNotExists tx ⟨[]⟩ name

/-- A Go `error` value returned by the functions of deep.go. -/
inductive Error where
  | Errorf (msg : List Nat)
  | NotFoundError (Key : List Nat)
  | ExistsError (Key : List Nat)
deriving DecidableEq, Repr

/-- Function `IsNotFoundError`. -/
def IsNotFoundError : Option Error → Bool
  | some (Error.NotFoundError _) => true
  | _ => false

/-- Function `IsExistsError`. -/
def IsExistsError : Option Error → Bool
  | some (Error.ExistsError _) => true
  | _ => false

/-- Verb `%d` of a length. -/
def decimal (n : Nat) : List Nat := str (toString n)

/-- Join of the elements after the first, each preceded by ", ". -/
def pathTail : List (List Nat) → List Nat
  | [] => []
  | e :: es => str ", " ++ e ++ pathTail es

/-- Function `path`: the elements joined with ", "; it indexes `elements[0]`
and panics on no elements. -/
def path : List (List Nat) → Option (List Nat)
  | [] => none
  | e :: es => some (e ++ pathTail es)

/-- The `for i := 1; i < length; i++` loop of `DeepBucket`, with `n` rounds
left. -/
def DeepBucketLoop (tx : Tx) (elements : List (List Nat)) :
    Nat → Nat → Bucket → Option (Option Bucket)
  | 0, _, bucket => some (some bucket)
  | n + 1, i, bucket => do
    let e ← elements[i]?
    match bucketBucket tx bucket e with
    | none => some none
    | some bucket => DeepBucketLoop tx elements n (i + 1) bucket

/-- Function `DeepBucket`; the inner `none` is the result nil. -/
def DeepBucket (tx : Tx) (elements : List (List Nat)) : Option (Option Bucket) :=
  let length := elements.length
  if length < 1 then some none
  else do
    let e0 ← elements[0]?
    match txBucket tx e0 with
    | none => some none
    | some bucket => DeepBucketLoop tx elements (length - 1) 1 bucket

/-- Function `DeepGet`; the inner `none` is the result nil. -/
def DeepGet (tx : Tx) (elements : List (List Nat)) : Option (Option (List Nat)) :=
  let length := elements.length
  if length < 2 then some none
  else do
    let bucket ← DeepBucket tx (elements.take (length - 1))
    match bucket with
    | none => some none
    | some bucket => do
      let key ← elements[length - 1]?
      some (bucketGet tx bucket key)

/-- The `for i := 1; i < length; i++` loop of `DeepCreateBucketIfNotExists`,
with `n` rounds left: the result `(bucket, err)` and the new state. -/
def DeepCreateBucketIfNotExistsLoop (elements : List (List Nat)) :
    Nat → Nat → Bucket → Tx → Option (Except Error Bucket × Tx)
  | 0, _, bucket, tx => some (Except.ok bucket, tx)
  | n + 1, i, bucket, tx => do
    let e ← elements[i]?
    match bucketCreateBucketIfNotExists tx bucket e with
    | Except.error err => do
      let p ← path (elements.take (i + 1))
      some (Except.error (Error.Errorf (str "bucket create " ++ p ++ str ": " ++ err.Error)), tx)
    | Except.ok (bucket, tx) => DeepCreateBucketIfNotExistsLoop elements n (i + 1) bucket tx

/-- Function `DeepCreateBucketIfNotExists`: the result `(bucket, err)` and
the new state. -/
def DeepCreateBucketIfNotExists (tx : Tx) (elements : List (List Nat)) :
    Option (Except Error Bucket × Tx) :=
  let length := elements.length
  if length < 1 then
    some (Except.error (Error.Errorf
      (str "insufficient number of elements " ++ decimal length ++ str " < 1")), tx)
  else do
    let e0 ← elements[0]?
    match txCreateBucketIfNotExists tx e0 with
    | Except.error err =>
      some (Except.error (Error.Errorf (str "bucket create " ++ e0 ++ str ": " ++ err.Error)), tx)
    | Except.ok (bucket, tx) =>
      DeepCreateBucketIfNotExistsLoop elements (length - 1) 1 bucket tx

/-- Result of `DeepPut`: the two results and the state of the store after
the call. -/
structure PutResult where
  new : Bool
  err : Option Error
  tx : Tx

/-- Function `DeepPut`. -/
def DeepPut (tx : Tx) (overwrite : Bool) (elements : List (List Nat)) : Option PutResult :=
  let length := elements.length
  if length < 3 then
    some ⟨false, some (Error.Errorf
      (str "insufficient number of elements " ++ decimal length ++ str " < 3")), tx⟩
  else do
    let r ← DeepCreateBucketIfNotExists tx (elements.take (length - 2))
    match r with
    | (Except.error err, tx) => some ⟨false, some err, tx⟩
    | (Except.ok bucket, tx) => do
      let key ← elements[length - 2]?
      let new := (bucketGet tx bucket key).isNone
      if !overwrite && !new then do
        let p ← path (elements.take (length - 1))
        some ⟨false, some (Error.ExistsError p), tx⟩
      else do
        let value ← elements[length - 1]?
        match bucketPut tx bucket key value with
        | Except.error err => do
          let p ← path (elements.take (length - 2))
          some ⟨new, some (Error.Errorf
            (str "bucket " ++ p ++ str " put " ++ value ++ str ": " ++ err.Error)), tx⟩
        | Except.ok tx => some ⟨new, none, tx⟩

/-- Well-formed state of the store: what holds an entry is a bucket, no key
is empty, and a key that holds a value is not longer than `MaxKeySize`. The
empty store is well-formed and the primitives keep a state so. -/
def Tx.WF (tx : Tx) : Prop :=
  (∀ (p : List (List Nat)) (k : List Nat), p ≠ [] → tx.entries (p ++ [k]) ≠ none →
    tx.entries p = some Entry.bucket) ∧
  (∀ p : List (List Nat), tx.entries (p ++ [[]]) = none) ∧
  (∀ (p : List (List Nat)) (k v : List Nat), tx.entries (p ++ [k]) = some (Entry.value v) →
    k.length ≤ MaxKeySize)

/-- Every bucket of the chain of names exists: each non-empty prefix of the
chain is the path of a bucket. -/
def Tx.HasChain (tx : Tx) (chain : List (List Nat)) : Prop :=
  ∀ j, 1 ≤ j → j ≤ chain.length → tx.entries (chain.take j) = some Entry.bucket


/-- The state without the bucket at path `p` and everything below it. -/
def Tx.removeSubtree (tx : Tx) (p : List (List Nat)) : Tx :=
  ⟨fun q => if q.take p.length = p then none else tx.entries q, tx.writable⟩

/-- Method `b.Delete(key)`: the new state. A missing key is not an error and
changes nothing; a key that holds a nested bucket is an error. -/
def bucketDelete (tx : Tx) (b : Bucket) (key : List Nat) : Except BoltError Tx :=
  if !tx.writable then Except.error BoltError.ErrTxNotWritable
  else
    match tx.entries (b.path ++ [key]) with
    | none => Except.ok tx
    | some Entry.bucket => Except.error BoltError.ErrIncompatibleValue
    | some (Entry.value _) => Except.ok (tx.set (b.path ++ [key]) none)
    | some Entry.nilValue => Except.ok (tx.set (b.path ++ [key]) none)

/-- Method `b.DeleteBucket(key)`: the new state, without the nested bucket
and all that it holds. -/
def bucketDeleteBucket (tx : Tx) (b : Bucket) (key : List Nat) : Except BoltError Tx :=
  if !tx.writable then Except.error BoltError.ErrTxNotWritable
  else
    match tx.entries (b.path ++ [key]) with
    | none => Except.error BoltError.ErrBucketNotFound
    | some (Entry.value _) => Except.error BoltError.ErrIncompatibleValue
    | some Entry.nilValue => Except.error BoltError.ErrIncompatibleValue
    | some Entry.bucket => Except.ok (tx.removeSubtree (b.path ++ [key]))

/-- Method `tx.DeleteBucket(name)`: on the root bucket. -/
def txDeleteBucket (tx : Tx) (name : List Nat) : Except BoltError Tx :=
  bucketDeleteBucket tx ⟨[]⟩ name

/-- Result of `DeepDelete` and of `DeepDeleteBucket`: the error returned and
the state of the store after the call. -/
structure DeleteResult where
  err : Option Error
  tx : Tx

/-- The `for i := 1; i < length-1; i++` loop of `DeepDelete`, the same in
`DeepDeleteBucket`, with `n` rounds left: the bucket reached
(`Except.ok`), or the value that the function returns from inside the loop
(`Except.error`). -/
def DeepDeleteLoop (tx : Tx) (ensure : Bool) (elements : List (List Nat)) :
    Nat → Nat → Bucket → Option (Except (Option Error) Bucket)
  | 0, _, bucket => some (Except.ok bucket)
  | n + 1, i, bucket => do
    let e ← elements[i]?
    match bucketBucket tx bucket e with
    | none =>
      if ensure then do
        let p ← path (elements.take (i + 1))
        some (Except.error (some (Error.NotFoundError p)))
      else some (Except.error none)
    | some bucket => DeepDeleteLoop tx ensure elements n (i + 1) bucket

/-- Function `DeepDelete`. -/
def DeepDelete (tx : Tx) (ensure : Bool) (elements : List (List Nat)) : Option DeleteResult :=
  let length := elements.length
  if length < 2 then
    some ⟨some (Error.Errorf
      (str "insufficient number of elements " ++ decimal length ++ str " < 2")), tx⟩
  else do
    let e0 ← elements[0]?
    match txBucket tx e0 with
    | none =>
      if ensure then some ⟨some (Error.NotFoundError e0), tx⟩
      else some ⟨none, tx⟩
    | some bucket => do
      let r ← DeepDeleteLoop tx ensure elements (length - 2) 1 bucket
      match r with
      | Except.error ret => some ⟨ret, tx⟩
      | Except.ok bucket => do
        let key ← elements[length - 1]?
        if ensure && (bucketGet tx bucket key).isNone then do
          let p ← path (elements.take (length - 1))
          some ⟨some (Error.NotFoundError p), tx⟩
        else
          match bucketDelete tx bucket key with
          | Except.error err => do
            let p ← path (elements.take (length - 1))
            some ⟨some (Error.Errorf
              (str "bucket " ++ p ++ str " delete " ++ key ++ str ": " ++ err.Error)), tx⟩
          | Except.ok tx => some ⟨none, tx⟩

/-- Function `DeepDeleteBucket`. -/
def DeepDeleteBucket (tx : Tx) (ensure : Bool) (elements : List (List Nat)) :
    Option DeleteResult :=
  let length := elements.length
  if length < 1 then
    some ⟨some (Error.Errorf
      (str "insufficient number of elements " ++ decimal length ++ str " < 1")), tx⟩
  else do
    let e0 ← elements[0]?
    match txBucket tx e0 with
    | none =>
      if ensure then some ⟨some (Error.NotFoundError e0), tx⟩
      else some ⟨none, tx⟩
    | some bucket =>
      if elements.length = 1 then
        match txDeleteBucket tx e0 with
        | Except.error err =>
          if err = BoltError.ErrBucketNotFound then
            if ensure then some ⟨some (Error.NotFoundError e0), tx⟩
            else some ⟨none, tx⟩
          else
            some ⟨some (Error.Errorf (str "bucket " ++ e0 ++ str " delete: " ++ err.Error)), tx⟩
        | Except.ok tx => some ⟨none, tx⟩
      else do
        let r ← DeepDeleteLoop tx ensure elements (length - 2) 1 bucket
        match r with
        | Except.error ret => some ⟨ret, tx⟩
        | Except.ok bucket => do
          let name ← elements[length - 1]?
          match bucketDeleteBucket tx bucket name with
          | Except.error err =>
            if err = BoltError.ErrBucketNotFound then
              if ensure then do
                let p ← path (elements.take (length - 1))
                some ⟨some (Error.NotFoundError p), tx⟩
              else some ⟨none, tx⟩
            else do
              let p ← path (elements.take (length - 1))
              some ⟨some (Error.Errorf
                (str "bucket " ++ p ++ str " delete " ++ name ++ str ": " ++ err.Error)), tx⟩
          | Except.ok tx => some ⟨none, tx⟩

/-- All buckets of the chain exist, as a test: every non-empty prefix of the
chain is the path of a bucket. -/
def hasChain (tx : Tx) (chain : List (List Nat)) : Bool :=
  (List.range chain.length).all
    (fun j => decide (tx.entries (chain.take (j + 1)) = some Entry.bucket))

/-- The reference lookup of a path, in the words of the specification: absent
for a path of fewer than two elements or when a container of the chain
(the path without its last element) is missing, else the value stored under
the last element in the container that the chain addresses, absent when that
key holds no value. -/
def referenceLookup (tx : Tx) (p : List (List Nat)) : Option (List Nat) :=
  if p.length < 2 then none
  else if hasChain tx p.dropLast then
    match tx.entries p with
    | some (Entry.value v) => some v
    | _ => none
  else none


/-! ## Concrete inputs used to instantiate the theorems -/

/-- A digit table without any digit above U+00FF. -/
def asciiOnlyTable : Nat → Bool := fun _ => false

/-- The path of a first put: bucket "bucket1", key "key", value "value". -/
def putPath : List (List Nat) := [str "bucket1", str "key", str "value"]

/-- The path of a second put on the same key, with the value "second". -/
def putPathSecond : List (List Nat) := [str "bucket1", str "key", str "second"]

/-- The store after `DeepPut` of `putPath` on the empty store. -/
def txAfterPut : Tx :=
  (Tx.empty.set [str "bucket1"] (some Entry.bucket)).set [str "bucket1", str "key"]
    (some (Entry.value (str "value")))

/-- The result of `DeepPut` of `putPath` on the empty store. -/
def resultAfterPut : PutResult := ⟨true, none, txAfterPut⟩

/-- The pieces of "Go 1.11rc1 rocks" after the leading text "Go ". -/
def goRocksPieces : List (List Nat × List Nat) :=
  [(str "1", str "."), (str "11", str "rc"), (str "1", str " rocks")]

/-- The path of a key that was never written: bucket "bucket1", key "keyfake". -/
def deleteFakePath : List (List Nat) := [str "bucket1", str "keyfake"]

/-- The path of the key written by the first put: bucket "bucket1", key "key". -/
def deletePath : List (List Nat) := [str "bucket1", str "key"]

/-- The store after `DeepDelete` of `deletePath` on `txAfterPut`: the bucket
"bucket1", now empty. -/
def txAfterDelete : Tx := txAfterPut.set [str "bucket1", str "key"] none

/-- The path of the bucket "bucket1". -/
def bucketPath : List (List Nat) := [str "bucket1"]

/-- The path of a bucket that was never created inside "bucket1". -/
def bucketFakePath : List (List Nat) := [str "bucket1", str "bucket1fake"]

/-- The path of a key below a bucket that was never created inside
"bucket1". -/
def nestedFakePath : List (List Nat) := [str "bucket1", str "bucket1fake", str "key"]

/-- A path of four elements whose second bucket has the empty name, which
the store refuses to create. -/
def failedCreatePath : List (List Nat) := [str "bucket1", [], str "key", str "value"]

/-- A path of three elements whose key is empty, which the store refuses to
write. -/
def failedWritePath : List (List Nat) := [str "bucket1", [], str "value"]

/-- The store of `txAfterPut` in a read-only transaction. -/
def txReadOnly : Tx := ⟨txAfterPut.entries, false⟩

/-- The store, in a write transaction, in which the key "key" of the bucket
"bucket1" holds the nil value: the state after `DeepPut` of the elements
"bucket1", "key" and the nil slice on the empty store. -/
def txNilValue : Tx :=
  (Tx.empty.set [str "bucket1"] (some Entry.bucket)).set [str "bucket1", str "key"]
    (some Entry.nilValue)

/-- The store, in a write transaction, in which the bucket "bucket1" holds
the nested bucket "bucket2" and nothing else. -/
def txNested : Tx :=
  (Tx.empty.set [str "bucket1"] (some Entry.bucket)).set [str "bucket1", str "bucket2"]
    (some Entry.bucket)

/-- The path of a put under the name of the nested bucket: bucket "bucket1",
key "bucket2", value "value". -/
def putNestedPath : List (List Nat) := [str "bucket1", str "bucket2", str "value"]

/-- A value one byte longer than `MaxValueSize`. -/
def valueTooLarge : List Nat := List.replicate (MaxValueSize + 1) 0

/-- Nine bytes with year field 0 and nanosecond field 5. -/
def zeroYearBytes : List Nat := [0, 0, 0, 0, 0, 0, 0, 0, 5]

/-- Nine bytes with year field 1 and nanosecond field 5. -/
def oneYearBytes : List Nat := [0, 1, 0, 0, 0, 0, 0, 0, 5]

/-- The encoding of the instant one nanosecond after 2000-01-01T00:00:00Z. -/
def year2000Bytes : List Nat := [135, 208, 0, 0, 0, 0, 0, 0, 1]

/-! ## Theorems: sortable timestamp encoding -/

/-- The cycle counts of a day number `d`: it is
`146097 a + 36524 c + 1461 e + 365 m + r` with the counts and the remainder
in range, and its year is `1 + 400 a + 100 c + 4 e + m`. -/
theorem yearOfDay_cycles (d : Int) :
    ∃ a c e m r : Int, yearOfDay d = 1 + 400 * a + 100 * c + 4 * e + m ∧
      d = 146097 * a + 36524 * c + 1461 * e + 365 * m + r ∧
      0 ≤ c ∧ c ≤ 3 ∧ 0 ≤ e ∧ e ≤ 24 ∧ 0 ≤ m ∧ m ≤ 3 ∧ 0 ≤ r ∧
      (r < 365 ∨ (m = 3 ∧ r = 365 ∧ (e < 24 ∨ c = 3))) := by
  unfold yearOfDay
  simp only []
  generalize ha : d / 146097 = a
  have h1 : 0 ≤ d - 146097 * a ∧ d - 146097 * a < 146097 := by omega
  generalize hd1 : d - 146097 * a = d1 at *
  generalize hb : d1 / 36524 = b
  have hb' : 0 ≤ b ∧ b ≤ 4 := by omega
  generalize hc : b / 4 = c
  generalize hn : b - c = n100
  have hn' : 0 ≤ n100 ∧ n100 ≤ 3 := by omega
  have h2 : 0 ≤ d1 - 36524 * n100 ∧ (d1 - 36524 * n100 < 36524 ∨
      (n100 = 3 ∧ d1 - 36524 * n100 = 36524)) := by omega
  generalize hd2 : d1 - 36524 * n100 = d2 at *
  generalize he : d2 / 1461 = e
  have he' : 0 ≤ e ∧ e ≤ 24 := by omega
  generalize hd3 : d2 - 1461 * e = d3 at *
  have h3 : 0 ≤ d3 ∧ d3 < 1461 := by omega
  generalize hf : d3 / 365 = f
  have hf' : 0 ≤ f ∧ f ≤ 4 := by omega
  generalize hg : f / 4 = g
  generalize hm : f - g = n1
  have hm' : 0 ≤ n1 ∧ n1 ≤ 3 := by omega
  refine ⟨a, n100, e, n1, d3 - 365 * n1, rfl, by omega, hn'.1, hn'.2, he'.1, he'.2, hm'.1,
    hm'.2, by omega, ?_⟩
  omega

theorem yearOfDay_spec (d : Int) :
    daysBeforeYear (yearOfDay d) ≤ d ∧ d < daysBeforeYear (yearOfDay d + 1) := by
  obtain ⟨a, c, e, m, r, hy, hd, hc0, hc3, he0, he24, hm0, hm3, hr0, hr⟩ := yearOfDay_cycles d
  rw [hy, hd]
  unfold daysBeforeYear
  have e1 : (1 + 400 * a + 100 * c + 4 * e + m - 1) / 4 = 100 * a + 25 * c + e := by omega
  have e2 : (1 + 400 * a + 100 * c + 4 * e + m - 1) / 100 = 4 * a + c := by omega
  have e3 : (1 + 400 * a + 100 * c + 4 * e + m - 1) / 400 = a := by omega
  rw [e1, e2, e3]
  refine ⟨by omega, ?_⟩
  by_cases c1 : m = 3
  · by_cases c2 : e = 24
    · by_cases c3 : c = 3
      · subst c1 c2 c3
        have f1 : (1 + 400 * a + 100 * 3 + 4 * 24 + 3 + 1 - 1) / 4 = 100 * a + 100 := by omega
        have f2 : (1 + 400 * a + 100 * 3 + 4 * 24 + 3 + 1 - 1) / 100 = 4 * a + 4 := by omega
        have f3 : (1 + 400 * a + 100 * 3 + 4 * 24 + 3 + 1 - 1) / 400 = a + 1 := by omega
        rw [f1, f2, f3]; omega
      · subst c1 c2
        have f1 : (1 + 400 * a + 100 * c + 4 * 24 + 3 + 1 - 1) / 4 = 100 * a + 25 * c + 25 := by
          omega
        have f2 : (1 + 400 * a + 100 * c + 4 * 24 + 3 + 1 - 1) / 100 = 4 * a + c + 1 := by omega
        have f3 : (1 + 400 * a + 100 * c + 4 * 24 + 3 + 1 - 1) / 400 = a := by omega
        rw [f1, f2, f3]; omega
    · subst c1
      have f1 : (1 + 400 * a + 100 * c + 4 * e + 3 + 1 - 1) / 4 = 100 * a + 25 * c + e + 1 := by
        omega
      have f2 : (1 + 400 * a + 100 * c + 4 * e + 3 + 1 - 1) / 100 = 4 * a + c := by omega
      have f3 : (1 + 400 * a + 100 * c + 4 * e + 3 + 1 - 1) / 400 = a := by omega
      rw [f1, f2, f3]; omega
  · have f1 : (1 + 400 * a + 100 * c + 4 * e + m + 1 - 1) / 4 = 100 * a + 25 * c + e := by omega
    have f2 : (1 + 400 * a + 100 * c + 4 * e + m + 1 - 1) / 100 = 4 * a + c := by omega
    have f3 : (1 + 400 * a + 100 * c + 4 * e + m + 1 - 1) / 400 = a := by omega
    rw [f1, f2, f3]; omega

theorem daysBeforeYear_mono (a b : Int) (h : a ≤ b) : daysBeforeYear a ≤ daysBeforeYear b := by
  unfold daysBeforeYear
  omega

theorem daysBeforeYear_step (a : Int) : daysBeforeYear (a + 1) ≤ daysBeforeYear a + 366 := by
  unfold daysBeforeYear
  omega

/-- The start of the year of `t` is at or before `t`, and `t` is less than
366 days after it. -/
theorem year_offset_bounds (t : Time) :
    0 ≤ t.ns - (Date t.Year).ns ∧ t.ns - (Date t.Year).ns < 366 * nsPerDay := by
  have h := yearOfDay_spec (t.ns / nsPerDay)
  have hs := daysBeforeYear_step (yearOfDay (t.ns / nsPerDay))
  simp only [Date, Time.Year]
  generalize daysBeforeYear (yearOfDay (t.ns / nsPerDay)) = s at *
  generalize daysBeforeYear (yearOfDay (t.ns / nsPerDay) + 1) = s1 at *
  simp only [nsPerDay] at *
  omega

theorem sub_year_start (t : Time) : t.Sub (Date t.Year) = t.ns - (Date t.Year).ns := by
  have h := year_offset_bounds t
  simp only [nsPerDay] at h
  unfold Time.Sub
  simp only []
  split
  · omega
  · split
    · omega
    · rfl

theorem uint64_offset (t : Time) :
    ((uint64 (t.Sub (Date t.Year)) : Nat) : Int) = t.ns - (Date t.Year).ns
      ∧ uint64 (t.Sub (Date t.Year)) < 2 ^ 56 := by
  have h := year_offset_bounds t
  simp only [nsPerDay] at h
  rw [sub_year_start]
  unfold uint64
  omega

theorem or_shiftLeft (lo hi k : Nat) (h : lo < 2 ^ k) : lo ||| hi <<< k = hi * 2 ^ k + lo := by
  rw [Nat.shiftLeft_eq, Nat.or_comm, Nat.mul_comm, ← Nat.mul_add_lt_is_or h]

theorem TimeToBytesUTC_eq (t : Time) :
    TimeToBytesUTC t = some
      [byte (uint16 (t.Year + yearShift) >>> 8), byte (uint16 (t.Year + yearShift)),
       byte (uint64 (t.Sub (Date t.Year)) >>> 48), byte (uint64 (t.Sub (Date t.Year)) >>> 40),
       byte (uint64 (t.Sub (Date t.Year)) >>> 32), byte (uint64 (t.Sub (Date t.Year)) >>> 24),
       byte (uint64 (t.Sub (Date t.Year)) >>> 16), byte (uint64 (t.Sub (Date t.Year)) >>> 8),
       byte (uint64 (t.Sub (Date t.Year)))] := by
  simp [TimeToBytesUTC, PutTimeToBytesUTC, PutUint16, putUint48, TimeBytesLen, List.replicate]

theorem Uint16_bytes (y : Nat) (h : y < 65536) :
    Uint16 [byte (y >>> 8), byte y] = some y := by
  simp only [Uint16, byte, List.getElem?_cons_succ, List.getElem?_cons_zero, Option.bind_eq_bind,
    Option.some_bind, Option.some.injEq]
  rw [or_shiftLeft _ _ _ (by omega), Nat.shiftRight_eq_div_pow]
  omega

theorem getUint48_bytes (v : Nat) (h : v < 2 ^ 56) :
    getUint48 [byte (v >>> 48), byte (v >>> 40), byte (v >>> 32), byte (v >>> 24),
      byte (v >>> 16), byte (v >>> 8), byte v] = some v := by
  simp only [getUint48, byte, List.getElem?_cons_succ, List.getElem?_cons_zero,
    Option.bind_eq_bind, Option.some_bind, Option.some.injEq, Nat.shiftRight_eq_div_pow]
  rw [or_shiftLeft _ _ 8 (by omega)]
  rw [or_shiftLeft _ _ 16 (by omega)]
  rw [or_shiftLeft _ _ 24 (by omega)]
  rw [or_shiftLeft _ _ 32 (by omega)]
  rw [or_shiftLeft _ _ 40 (by omega)]
  rw [or_shiftLeft _ _ 48 (by omega)]
  omega

theorem BytesToTimeUTC_bytes (y v : Nat) (hy : y < 65536) (hv : v < 2 ^ 56) :
    BytesToTimeUTC [byte (y >>> 8), byte y, byte (v >>> 48), byte (v >>> 40), byte (v >>> 32),
      byte (v >>> 24), byte (v >>> 16), byte (v >>> 8), byte v]
    = some ((Date ((if (y : Int) > 0 then (y : Int) - 1 else (y : Int)) - 32767)).Add (int64 v)) := by
  have h1 := Uint16_bytes y hy
  have h2 := getUint48_bytes v hv
  simp only [BytesToTimeUTC, TimeBytesLen, List.length_cons, List.length_nil, List.take, List.drop]
  simp [h1, h2]

theorem year_next_start (t : Time) : t.ns < (Date (t.Year + 1)).ns := by
  have h := yearOfDay_spec (t.ns / nsPerDay)
  simp only [Date, Time.Year]
  generalize daysBeforeYear (yearOfDay (t.ns / nsPerDay)) = s at *
  generalize daysBeforeYear (yearOfDay (t.ns / nsPerDay) + 1) = s1 at *
  simp only [nsPerDay] at *
  omega

theorem Date_mono (a b : Int) (h : a ≤ b) : (Date a).ns ≤ (Date b).ns := by
  have := daysBeforeYear_mono a b h
  simp only [Date, nsPerDay]
  omega

theorem bigEndianValue_lt (a : List Nat) (ha : ∀ x ∈ a, x < 256) :
    bigEndianValue a < 256 ^ a.length := by
  induction a with
  | nil => simp [bigEndianValue]
  | cons x xs ih =>
    have hx : x < 256 := ha x (List.mem_cons_self _ _)
    have ih := ih (fun y hy => ha y (List.mem_cons_of_mem _ hy))
    simp only [bigEndianValue, List.length_cons, Nat.pow_succ]
    have : x * 256 ^ xs.length + 256 ^ xs.length ≤ 256 * 256 ^ xs.length := by
      have := Nat.mul_le_mul_right (256 ^ xs.length) (show x + 1 ≤ 256 by omega)
      rw [Nat.add_mul, Nat.one_mul] at this
      exact this
    omega

theorem lexCompare_lt_iff (a : List Nat) : ∀ b : List Nat, a.length = b.length →
    (∀ x ∈ a, x < 256) → (∀ x ∈ b, x < 256) →
    (lexCompare a b = Ordering.lt ↔ bigEndianValue a < bigEndianValue b) := by
  induction a with
  | nil =>
    intro b hl _ _
    cases b with
    | nil => simp [lexCompare, bigEndianValue]
    | cons y ys => simp at hl
  | cons x xs ih =>
    intro b hl ha hb
    cases b with
    | nil => simp at hl
    | cons y ys =>
      have hl' : xs.length = ys.length := by simpa using hl
      have ha' : ∀ z ∈ xs, z < 256 := fun z hz => ha z (List.mem_cons_of_mem _ hz)
      have hb' : ∀ z ∈ ys, z < 256 := fun z hz => hb z (List.mem_cons_of_mem _ hz)
      have bx := bigEndianValue_lt xs ha'
      have bY := bigEndianValue_lt ys hb'
      have ih := ih ys hl' ha' hb'
      simp only [lexCompare, bigEndianValue]
      rw [hl'] at bx ⊢
      generalize 256 ^ ys.length = P at *
      by_cases hxy : x < y
      · simp only [hxy, if_true, true_iff]
        have := Nat.mul_le_mul_right P (show x + 1 ≤ y by omega)
        rw [Nat.add_mul, Nat.one_mul] at this
        omega
      · by_cases hyx : y < x
        · simp only [hxy, hyx, if_false, if_true]
          have := Nat.mul_le_mul_right P (show y + 1 ≤ x by omega)
          rw [Nat.add_mul, Nat.one_mul] at this
          constructor
          · intro h; cases h
          · intro h; omega
        · have hEq : x = y := by omega
          subst hEq
          simp only [hxy, if_false, ih]
          omega

theorem bigEndianValue_inj (a : List Nat) : ∀ b : List Nat, a.length = b.length →
    (∀ x ∈ a, x < 256) → (∀ x ∈ b, x < 256) →
    bigEndianValue a = bigEndianValue b → a = b := by
  induction a with
  | nil =>
    intro b hl _ _ _
    cases b with
    | nil => rfl
    | cons y ys => simp at hl
  | cons x xs ih =>
    intro b hl ha hb hv
    cases b with
    | nil => simp at hl
    | cons y ys =>
      have hl' : xs.length = ys.length := by simpa using hl
      have ha' : ∀ z ∈ xs, z < 256 := fun z hz => ha z (List.mem_cons_of_mem _ hz)
      have hb' : ∀ z ∈ ys, z < 256 := fun z hz => hb z (List.mem_cons_of_mem _ hz)
      have bx := bigEndianValue_lt xs ha'
      have bY := bigEndianValue_lt ys hb'
      simp only [bigEndianValue] at hv
      rw [hl'] at bx hv
      generalize 256 ^ ys.length = P at *
      have hxy : x = y := by
        rcases Nat.lt_trichotomy x y with h | h | h
        · have := Nat.mul_le_mul_right P (show x + 1 ≤ y by omega)
          rw [Nat.add_mul, Nat.one_mul] at this
          omega
        · exact h
        · have := Nat.mul_le_mul_right P (show y + 1 ≤ x by omega)
          rw [Nat.add_mul, Nat.one_mul] at this
          omega
      subst hxy
      have : bigEndianValue xs = bigEndianValue ys := by omega
      rw [ih ys hl' ha' hb' this]

theorem timeBytes_value (y v : Nat) (hy : y < 65536) (hv : v < 2 ^ 56) :
    bigEndianValue (timeBytes y v) = y * 2 ^ 56 + v := by
  simp only [timeBytes, bigEndianValue, byte, Nat.shiftRight_eq_div_pow, List.length_cons,
    List.length_nil]
  omega

theorem timeBytes_lt (y v : Nat) : ∀ x ∈ timeBytes y v, x < 256 := by
  intro x hx
  simp only [timeBytes, byte, List.mem_cons, List.mem_singleton, List.not_mem_nil, or_false] at hx
  omega

theorem timeBytes_bigEndian (y v : Nat) :
    (timeBytes y v).take 2 = bigEndian 2 y ∧ (timeBytes y v).drop 2 = bigEndian 7 v := by
  simp [timeBytes, bigEndian, byte, Nat.shiftRight_eq_div_pow]

theorem timeBytes_length (y v : Nat) : (timeBytes y v).length = 9 := rfl

theorem TimeToBytesUTC_timeBytes (t : Time) :
    TimeToBytesUTC t
      = some (timeBytes (uint16 (t.Year + yearShift)) (uint64 (t.Sub (Date t.Year)))) := by
  rw [TimeToBytesUTC_eq]; rfl

theorem uint16_year (t : Time) (hlo : -32767 ≤ t.Year) (hhi : t.Year ≤ 32767) :
    ((uint16 (t.Year + yearShift) : Nat) : Int) = t.Year + 32768
      ∧ 0 < uint16 (t.Year + yearShift) ∧ uint16 (t.Year + yearShift) < 65536 := by
  unfold uint16 yearShift
  omega

/-- C2: for every UTC instant whose year lies in [-32767, 32767], encoding
with TimeToBytesUTC returns nine bytes and decoding them with BytesToTimeUTC
returns the same instant. -/
theorem TimeToBytesUTC_roundtrip (t : Time) (hlo : -32767 ≤ t.Year) (hhi : t.Year ≤ 32767) :
    ∃ b, TimeToBytesUTC t = some b ∧ BytesToTimeUTC b = some t := by
  refine ⟨_, TimeToBytesUTC_timeBytes t, ?_⟩
  obtain ⟨hy, hy0, hy1⟩ := uint16_year t hlo hhi
  obtain ⟨hv, hv1⟩ := uint64_offset t
  unfold timeBytes
  rw [BytesToTimeUTC_bytes _ _ hy1 hv1]
  have hyear : (if ((uint16 (t.Year + yearShift) : Nat) : Int) > 0
      then ((uint16 (t.Year + yearShift) : Nat) : Int) - 1
      else ((uint16 (t.Year + yearShift) : Nat) : Int)) - 32767 = t.Year := by
    split <;> omega
  rw [hyear]
  have hns : int64 (uint64 (t.Sub (Date t.Year))) = t.ns - (Date t.Year).ns := by
    unfold int64
    have : (2 : Nat) ^ 56 = 72057594037927936 := by norm_num
    split <;> omega
  rw [hns]
  cases t with
  | mk ns => simp [Time.Add]

theorem TimeToBytesUTC_roundtrip_witness :
    -32767 ≤ (Date 2000).Year ∧ (Date 2000).Year ≤ 32767 ∧
      ∃ b, TimeToBytesUTC (Date 2000) = some b ∧ BytesToTimeUTC b = some (Date 2000) :=
  ⟨by decide, by decide, TimeToBytesUTC_roundtrip (Date 2000) (by decide) (by decide)⟩

/-- The order key of an instant: year field times 2^56 plus nanosecond field. -/
theorem timeKey_lt_iff (t1 t2 : Time) (y1 y2 v1 v2 : Nat)
    (hy1 : (y1 : Int) = t1.Year + 32768) (hy2 : (y2 : Int) = t2.Year + 32768)
    (hv1 : (v1 : Int) = t1.ns - (Date t1.Year).ns) (hv2 : (v2 : Int) = t2.ns - (Date t2.Year).ns)
    (hb1 : v1 < 2 ^ 56) (hb2 : v2 < 2 ^ 56) :
    (y1 * 2 ^ 56 + v1 < y2 * 2 ^ 56 + v2 ↔ t1.ns < t2.ns)
      ∧ (y1 * 2 ^ 56 + v1 = y2 * 2 ^ 56 + v2 ↔ t1.ns = t2.ns) := by
  have n1 := year_next_start t1
  have n2 := year_next_start t2
  have hp : (2 : Nat) ^ 56 = 72057594037927936 := by norm_num
  rw [hp] at hb1 hb2 ⊢
  rcases Int.lt_trichotomy t1.Year t2.Year with h | h | h
  · have m := Date_mono (t1.Year + 1) t2.Year (by omega)
    constructor <;> constructor <;> intro _ <;> omega
  · rw [h] at hv1
    constructor <;> constructor <;> intro _ <;> omega
  · have m := Date_mono (t2.Year + 1) t1.Year (by omega)
    constructor <;> constructor <;> intro _ <;> omega

/-- C7: for two UTC instants with years in [-32767, 32767], the first is
before the second exactly when its TimeToBytesUTC encoding is byte-wise
lexicographically smaller, and the encodings are equal exactly when the
instants are. -/
theorem TimeToBytesUTC_order (t1 t2 : Time)
    (hlo1 : -32767 ≤ t1.Year) (hhi1 : t1.Year ≤ 32767)
    (hlo2 : -32767 ≤ t2.Year) (hhi2 : t2.Year ≤ 32767) :
    ∃ b1 b2, TimeToBytesUTC t1 = some b1 ∧ TimeToBytesUTC t2 = some b2 ∧
      (t1.ns < t2.ns ↔ lexCompare b1 b2 = Ordering.lt) ∧ (b1 = b2 ↔ t1 = t2) := by
  refine ⟨_, _, TimeToBytesUTC_timeBytes t1, TimeToBytesUTC_timeBytes t2, ?_⟩
  obtain ⟨hy1, -, hy1'⟩ := uint16_year t1 hlo1 hhi1
  obtain ⟨hy2, -, hy2'⟩ := uint16_year t2 hlo2 hhi2
  obtain ⟨hv1, hv1'⟩ := uint64_offset t1
  obtain ⟨hv2, hv2'⟩ := uint64_offset t2
  obtain ⟨hlt, heq⟩ := timeKey_lt_iff t1 t2 _ _ _ _ hy1 hy2 hv1 hv2 hv1' hv2'
  have hlen : (timeBytes (uint16 (t1.Year + yearShift)) (uint64 (t1.Sub (Date t1.Year)))).length
      = (timeBytes (uint16 (t2.Year + yearShift)) (uint64 (t2.Sub (Date t2.Year)))).length := by
    rw [timeBytes_length, timeBytes_length]
  constructor
  · rw [lexCompare_lt_iff _ _ hlen (timeBytes_lt _ _) (timeBytes_lt _ _),
      timeBytes_value _ _ hy1' hv1', timeBytes_value _ _ hy2' hv2']
    exact hlt.symm
  · constructor
    · intro h
      have hv := congrArg bigEndianValue h
      rw [timeBytes_value _ _ hy1' hv1', timeBytes_value _ _ hy2' hv2'] at hv
      have := heq.mp hv
      cases t1; cases t2; simp_all
    · intro h
      rw [h]

theorem TimeToBytesUTC_order_witness :
    -32767 ≤ (Date 1999).Year ∧ (Date 1999).Year ≤ 32767 ∧
    -32767 ≤ (Date 2000).Year ∧ (Date 2000).Year ≤ 32767 ∧
    ∃ b1 b2, TimeToBytesUTC (Date 1999) = some b1 ∧ TimeToBytesUTC (Date 2000) = some b2 ∧
      ((Date 1999).ns < (Date 2000).ns ↔ lexCompare b1 b2 = Ordering.lt) ∧
      (b1 = b2 ↔ Date 1999 = Date 2000) :=
  ⟨by decide, by decide, by decide, by decide,
    TimeToBytesUTC_order (Date 1999) (Date 2000) (by decide) (by decide) (by decide) (by decide)⟩

/-- C8: for every instant with year in [-32767, 32767], TimeToBytesUTC
returns exactly nine bytes; the first two are the big-endian 16-bit value
year + 32768, the last seven the big-endian 56-bit number of nanoseconds
from the start of the year to the instant; the instant one nanosecond after
2000-01-01T00:00:00Z gives [135,208,0,0,0,0,0,0,1]. -/
theorem TimeToBytesUTC_format :
    (∀ t : Time, -32767 ≤ t.Year → t.Year ≤ 32767 →
      ∃ b, TimeToBytesUTC t = some b ∧ b.length = 9 ∧
        0 ≤ t.Year + 32768 ∧ t.Year + 32768 < 2 ^ 16 ∧
        b.take 2 = bigEndian 2 (t.Year + 32768).toNat ∧
        0 ≤ t.ns - (Date t.Year).ns ∧ t.ns - (Date t.Year).ns < 2 ^ 56 ∧
        b.drop 2 = bigEndian 7 (t.ns - (Date t.Year).ns).toNat) ∧
    TimeToBytesUTC ((Date 2000).Add 1) = some [135, 208, 0, 0, 0, 0, 0, 0, 1] := by
  constructor
  · intro t hlo hhi
    refine ⟨_, TimeToBytesUTC_timeBytes t, timeBytes_length _ _, ?_⟩
    obtain ⟨hy, -, hy'⟩ := uint16_year t hlo hhi
    obtain ⟨hv, hv'⟩ := uint64_offset t
    obtain ⟨h2, h7⟩ := timeBytes_bigEndian (uint16 (t.Year + yearShift))
      (uint64 (t.Sub (Date t.Year)))
    have e1 : (t.Year + 32768).toNat = uint16 (t.Year + yearShift) := by omega
    have e2 : (t.ns - (Date t.Year).ns).toNat = uint64 (t.Sub (Date t.Year)) := by omega
    have hp : ((2 : Nat) ^ 56 : Nat) = 72057594037927936 := by norm_num
    rw [e1, e2]
    refine ⟨by omega, by norm_num; omega, h2, by omega, ?_, h7⟩
    have : ((2 : Int) ^ 56) = 72057594037927936 := by norm_num
    omega
  · decide

theorem nine_bytes (b : List Nat) (hlen : b.length = 9) :
    ∃ a0 a1 a2 a3 a4 a5 a6 a7 a8, b = [a0, a1, a2, a3, a4, a5, a6, a7, a8] := by
  match b, hlen with
  | [a0, a1, a2, a3, a4, a5, a6, a7, a8], _ => exact ⟨a0, a1, a2, a3, a4, a5, a6, a7, a8, rfl⟩

/-- Nine bytes are the encoding with their own year and nanosecond fields. -/
theorem bytes_eq_timeBytes (b : List Nat) (hlen : b.length = 9) (hb : ∀ x ∈ b, x < 256) :
    b = timeBytes (yearField b) (nanoField b) ∧ yearField b < 65536 ∧ nanoField b < 2 ^ 56 := by
  obtain ⟨a0, a1, a2, a3, a4, a5, a6, a7, a8, rfl⟩ := nine_bytes b hlen
  have h0 := hb a0 (by simp)
  have h1 := hb a1 (by simp)
  have h2 := hb a2 (by simp)
  have h3 := hb a3 (by simp)
  have h4 := hb a4 (by simp)
  have h5 := hb a5 (by simp)
  have h6 := hb a6 (by simp)
  have h7 := hb a7 (by simp)
  have h8 := hb a8 (by simp)
  simp only [yearField, nanoField, timeBytes, byte, List.take, List.drop, bigEndianValue,
    List.length_cons, List.length_nil, Nat.shiftRight_eq_div_pow, List.cons.injEq, and_true]
  refine ⟨⟨?_, ?_, ?_, ?_, ?_, ?_, ?_, ?_, ?_⟩, ?_, ?_⟩ <;> omega

theorem int64_small (v : Nat) (h : v < 2 ^ 56) : int64 v = (v : Int) := by
  unfold int64
  have : (2 : Nat) ^ 56 = 72057594037927936 := by norm_num
  split <;> omega

/-- What BytesToTimeUTC returns on nine bytes, by their two fields. -/
theorem BytesToTimeUTC_of_fields (b : List Nat) (hlen : b.length = 9) (hb : ∀ x ∈ b, x < 256) :
    BytesToTimeUTC b = some ((Date (if 1 ≤ yearField b then (yearField b : Int) - 32768
      else -32767)).Add (nanoField b)) := by
  obtain ⟨hbe, hy, hv⟩ := bytes_eq_timeBytes b hlen hb
  generalize yearField b = r at *
  generalize nanoField b = n at *
  rw [hbe]
  unfold timeBytes
  rw [BytesToTimeUTC_bytes r n hy hv, int64_small n hv]
  congr 3
  split_ifs <;> omega

theorem fields_read (b : List Nat) (hlen : b.length = 9) (hb : ∀ x ∈ b, x < 256) :
    Uint16 (b.take 2) = some (yearField b) ∧
    getUint48 ((b.drop 2).take (TimeBytesLen - 2)) = some (nanoField b) := by
  obtain ⟨hbe, hy, hv⟩ := bytes_eq_timeBytes b hlen hb
  have h1 := Uint16_bytes (yearField b) hy
  have h2 := getUint48_bytes (nanoField b) hv
  generalize yearField b = r at *
  generalize nanoField b = n at *
  rw [hbe]
  exact ⟨h1, h2⟩

theorem daysBeforeYear_strict (a : Int) : daysBeforeYear a + 365 ≤ daysBeforeYear (a + 1) := by
  unfold daysBeforeYear
  omega

/-- An instant at or after the start of year `y` and before the start of the
next year is in year `y`. -/
theorem Year_of_bounds (t : Time) (y : Int) (hlo : (Date y).ns ≤ t.ns)
    (hhi : t.ns < (Date (y + 1)).ns) : t.Year = y := by
  have h := yearOfDay_spec (t.ns / nsPerDay)
  simp only [Date] at hlo hhi
  unfold Time.Year
  generalize yearOfDay (t.ns / nsPerDay) = z at *
  have hd1 : daysBeforeYear y ≤ t.ns / nsPerDay := by
    simp only [nsPerDay] at *
    omega
  have hd2 : t.ns / nsPerDay < daysBeforeYear (y + 1) := by
    simp only [nsPerDay] at *
    omega
  by_contra hne
  rcases lt_or_gt_of_ne hne with hlt | hgt
  · have := daysBeforeYear_mono (z + 1) y (by omega)
    omega
  · have := daysBeforeYear_mono (y + 1) z (by omega)
    omega

theorem yearLength_le (y : Int) : yearLength y ≤ 366 * nsPerDay := by
  have := daysBeforeYear_step y
  simp only [yearLength, Date, nsPerDay]
  omega

/-- C21: on nine bytes with year field r and nanosecond field n,
BytesToTimeUTC reads r with Uint16 and n with getUint48 and returns the
instant n nanoseconds after the start of the year r - 32768 when r is at
least 1, of the year -32767 when r is 0; so nine bytes with year field 0
decode to the same instant as nine bytes with year field 1 and the same
nanosecond field. -/
theorem BytesToTimeUTC_year_field (b : List Nat) (hlen : b.length = 9)
    (hb : ∀ x ∈ b, x < 256) :
    Uint16 (b.take 2) = some (yearField b) ∧
    getUint48 ((b.drop 2).take (TimeBytesLen - 2)) = some (nanoField b) ∧
    yearField b < 2 ^ 16 ∧ nanoField b < 2 ^ 56 ∧
    BytesToTimeUTC b = some ((Date (if 1 ≤ yearField b then (yearField b : Int) - 32768
      else -32767)).Add (nanoField b)) ∧
    (∀ b' : List Nat, b'.length = 9 → (∀ x ∈ b', x < 256) → yearField b = 0 →
      yearField b' = 1 → nanoField b' = nanoField b → BytesToTimeUTC b' = BytesToTimeUTC b) := by
  obtain ⟨h1, h2⟩ := fields_read b hlen hb
  obtain ⟨-, hy, hv⟩ := bytes_eq_timeBytes b hlen hb
  refine ⟨h1, h2, hy, hv, BytesToTimeUTC_of_fields b hlen hb, ?_⟩
  intro b' hlen' hb' h0 h1' hn
  rw [BytesToTimeUTC_of_fields b hlen hb, BytesToTimeUTC_of_fields b' hlen' hb', h0, h1', hn]
  rfl

/-- C22: for every instant, the number of nanoseconds from the start of its
calendar year to it, which PutTimeToBytesUTC computes with Sub, is not
negative, at most 366 * 86400 * 10^9 - 1, and so below 2^56; putUint48
writes it to seven bytes from which getUint48 reads the same number, and
they are the bytes 2 to 8 that TimeToBytesUTC returns. -/
theorem year_offset_fits (t : Time) :
    t.Sub (Date t.Year) = t.ns - (Date t.Year).ns ∧
    0 ≤ t.Sub (Date t.Year) ∧ t.Sub (Date t.Year) ≤ 366 * 86400 * 10 ^ 9 - 1 ∧
    t.Sub (Date t.Year) < 2 ^ 56 ∧
    (∀ b : List Nat, b.length = 7 →
      ∃ b', putUint48 b (uint64 (t.Sub (Date t.Year))) = some b' ∧ b'.length = 7 ∧
        getUint48 b' = some (t.Sub (Date t.Year)).toNat) ∧
    (∃ out, TimeToBytesUTC t = some out ∧
      getUint48 ((out.drop 2).take 7) = some (t.Sub (Date t.Year)).toNat) := by
  have hb := year_offset_bounds t
  have hs := sub_year_start t
  obtain ⟨hu, hu56⟩ := uint64_offset t
  simp only [nsPerDay] at hb
  have e : (t.Sub (Date t.Year)).toNat = uint64 (t.Sub (Date t.Year)) := by omega
  refine ⟨hs, by omega, by norm_num; omega, by norm_num; omega, ?_, ?_⟩
  · intro b hlen7
    match b, hlen7 with
    | [a0, a1, a2, a3, a4, a5, a6], _ =>
      rw [e]
      generalize uint64 (t.Sub (Date t.Year)) = v at hu56 ⊢
      exact ⟨[byte (v >>> 48), byte (v >>> 40), byte (v >>> 32), byte (v >>> 24),
        byte (v >>> 16), byte (v >>> 8), byte v], by simp [putUint48], rfl,
        getUint48_bytes v hu56⟩
  · refine ⟨_, TimeToBytesUTC_timeBytes t, ?_⟩
    rw [e]
    simp only [timeBytes, List.drop_succ_cons, List.drop_zero, List.take_succ_cons, List.take_zero]
    exact getUint48_bytes _ hu56

/-- C23: nine bytes whose year field is at least 1 and whose nanosecond field
is smaller than the length of the decoded year decode to an instant of a
year in [-32767, 32767] whose encoding is the same nine bytes; and every
instant of a year in that range is encoded into such nine bytes, which
decode to it: TimeToBytesUTC and BytesToTimeUTC are inverse bijections
between the two sets. -/
theorem TimeToBytesUTC_bijection :
    (∀ b : List Nat, b.length = 9 → (∀ x ∈ b, x < 256) → 1 ≤ yearField b →
      (nanoField b : Int) < yearLength ((yearField b : Int) - 32768) →
      ∃ t, BytesToTimeUTC b = some t ∧ -32767 ≤ t.Year ∧ t.Year ≤ 32767 ∧
        TimeToBytesUTC t = some b) ∧
    (∀ t : Time, -32767 ≤ t.Year → t.Year ≤ 32767 →
      ∃ b, TimeToBytesUTC t = some b ∧ b.length = 9 ∧ (∀ x ∈ b, x < 256) ∧ 1 ≤ yearField b ∧
        (nanoField b : Int) < yearLength ((yearField b : Int) - 32768) ∧
        BytesToTimeUTC b = some t) := by
  constructor
  · intro b hlen hb hy1 hn
    obtain ⟨hbe, hy, hv⟩ := bytes_eq_timeBytes b hlen hb
    refine ⟨_, BytesToTimeUTC_of_fields b hlen hb, ?_⟩
    rw [if_pos hy1]
    have hyear : ((Date ((yearField b : Int) - 32768)).Add (nanoField b)).Year
        = (yearField b : Int) - 32768 := by
      apply Year_of_bounds
      · simp only [Time.Add]; omega
      · simp only [Time.Add, yearLength] at hn ⊢; omega
    refine ⟨by rw [hyear]; omega, by rw [hyear]; omega, ?_⟩
    rw [TimeToBytesUTC_timeBytes, hyear]
    have e1 : uint16 ((yearField b : Int) - 32768 + yearShift) = yearField b := by
      unfold uint16 yearShift
      omega
    have e2 : uint64 (((Date ((yearField b : Int) - 32768)).Add (nanoField b)).Sub
        (Date ((yearField b : Int) - 32768))) = nanoField b := by
      have hp : (2 : Nat) ^ 56 = 72057594037927936 := by norm_num
      simp only [Time.Add, Time.Sub, add_sub_cancel_left]
      unfold uint64
      split_ifs <;> omega
    rw [e1, e2, ← hbe]
  · intro t hlo hhi
    obtain ⟨hy, hy0, hy1⟩ := uint16_year t hlo hhi
    obtain ⟨hv, hv1⟩ := uint64_offset t
    have hnext := year_next_start t
    have hval := timeBytes_value (uint16 (t.Year + yearShift)) (uint64 (t.Sub (Date t.Year)))
      hy1 hv1
    have hlt := timeBytes_lt (uint16 (t.Year + yearShift)) (uint64 (t.Sub (Date t.Year)))
    have hlen := timeBytes_length (uint16 (t.Year + yearShift)) (uint64 (t.Sub (Date t.Year)))
    obtain ⟨hbe, hfy, hfv⟩ := bytes_eq_timeBytes _ hlen hlt
    have hfields : yearField (timeBytes (uint16 (t.Year + yearShift))
          (uint64 (t.Sub (Date t.Year)))) = uint16 (t.Year + yearShift) ∧
        nanoField (timeBytes (uint16 (t.Year + yearShift))
          (uint64 (t.Sub (Date t.Year)))) = uint64 (t.Sub (Date t.Year)) := by
      have hval2 := timeBytes_value _ _ hfy hfv
      rw [← hbe, hval] at hval2
      have hp : (2 : Nat) ^ 56 = 72057594037927936 := by norm_num
      constructor <;> omega
    refine ⟨_, TimeToBytesUTC_timeBytes t, hlen, hlt, ?_, ?_, ?_⟩
    · rw [hfields.1]; omega
    · rw [hfields.1, hfields.2, hy, hv]
      simp only [yearLength]
      have : t.Year + 32768 - 32768 = t.Year := by omega
      rw [this]
      omega
    · rw [BytesToTimeUTC_of_fields _ hlen hlt, hfields.1, hfields.2, if_pos (by omega), hy, hv]
      have : t.Year + 32768 - 32768 = t.Year := by omega
      rw [this]
      cases t with
      | mk ns => simp [Time.Add]

/-! ## Theorems: natural sort encoding -/

theorem isCont_some (b : Option Nat) (lo hi : Nat) (h : isCont b lo hi = true) :
    ∃ x, b = some x ∧ lo ≤ x ∧ x ≤ hi := by
  cases b with
  | none => simp [isCont] at h
  | some x => exact ⟨x, rfl, by simpa [isCont] using h⟩

theorem getElem?_some_lt (l : List Nat) (k x : Nat) (h : l[k]? = some x) : k < l.length := by
  by_contra hn
  rw [List.getElem?_eq_none (by omega)] at h
  cases h

theorem decodeRune_width (s0 : Nat) (rest : List Nat) :
    1 ≤ (decodeRune (s0 :: rest)).2 ∧ (decodeRune (s0 :: rest)).2 ≤ (s0 :: rest).length := by
  simp only [decodeRune, List.length_cons]
  split_ifs with h1 h2 h3 h4 h5 h6 h7 h8
  · simp
  · simp
  · obtain ⟨x, hx, -⟩ := isCont_some _ _ _ h4
    have := getElem?_some_lt _ _ _ hx
    simp only; omega
  · simp
  · simp only [Bool.and_eq_true] at h6
    obtain ⟨x, hx, -⟩ := isCont_some _ _ _ h6.2
    have := getElem?_some_lt _ _ _ hx
    simp only; omega
  · simp
  · simp only [Bool.and_eq_true] at h8
    obtain ⟨x, hx, -⟩ := isCont_some _ _ _ h8.2
    have := getElem?_some_lt _ _ _ hx
    simp only; omega
  · simp
  · simp

theorem decodeRune_ascii (s0 : Nat) (rest : List Nat) (h : s0 < 0x80) :
    decodeRune (s0 :: rest) = (s0, 1) := by
  simp [decodeRune, h]

theorem acceptLo_ge (s0 : Nat) : 0x80 ≤ acceptLo s0 := by
  unfold acceptLo; split_ifs <;> omega

theorem isCont_ascii (c lo hi : Nat) (hc : c < 0x80) (hlo : 0x80 ≤ lo) :
    isCont (some c) lo hi = false := by
  simp only [isCont, decide_eq_false_iff_not]; omega

theorem isCont_none (lo hi : Nat) : isCont none lo hi = false := rfl

theorem decodeRune_append (t rest : List Nat) (ht : t ≠ []) (hr : AsciiHead rest) :
    decodeRune (t ++ rest) = decodeRune t := by
  match t, ht with
  | s0 :: t1, _ =>
    match rest with
    | [] => simp
    | c :: rest' =>
      have hc : c < 0x80 := hr c (by simp)
      have hlo := acceptLo_ge s0
      have c1 := isCont_ascii c 0x80 0xBF hc (by omega)
      have c2 := isCont_ascii c (acceptLo s0) (acceptHi s0) hc hlo
      match t1 with
      | [] =>
        simp [decodeRune, c1, c2, isCont_none]
      | [s1] =>
        simp [decodeRune, c1, c2, isCont_none]
      | [s1, s2] =>
        simp [decodeRune, c1, c2, isCont_none]
      | s1 :: s2 :: s3 :: t4 =>
        simp [decodeRune]

theorem getFirstNumberLoop_skip (tbl : Nat → Bool) (k : Nat) :
    ∀ (s : List Nat) (i : Nat) (st en : Int), k ≤ s.length →
      getFirstNumberLoop tbl s k i st en = getFirstNumberLoop tbl (s.drop k) 0 (i + k) st en := by
  induction k with
  | zero => intro s i st en _; simp
  | succ k ih =>
    intro s i st en hk
    match s, hk with
    | x :: rest, hk =>
      have hk' : k ≤ rest.length := by simpa using hk
      simp only [getFirstNumberLoop, List.drop_succ_cons]
      rw [ih rest (i + 1) st en hk']
      have : i + 1 + k = i + (k + 1) := by omega
      rw [this]

theorem getFirstNumberLoop_cons (tbl : Nat → Bool) (s0 : Nat) (rest : List Nat) (i : Nat)
    (st en : Int) :
    getFirstNumberLoop tbl (s0 :: rest) 0 i st en =
      if IsDigit tbl (decodeRune (s0 :: rest)).1 then
        getFirstNumberLoop tbl ((s0 :: rest).drop (decodeRune (s0 :: rest)).2) 0
          (i + (decodeRune (s0 :: rest)).2) (if st < 0 then (i : Int) else st) en
      else if st ≥ 0 ∧ en < 0 then (st, (i : Int))
      else getFirstNumberLoop tbl ((s0 :: rest).drop (decodeRune (s0 :: rest)).2) 0
          (i + (decodeRune (s0 :: rest)).2) st en := by
  obtain ⟨w1, w2⟩ := decodeRune_width s0 rest
  generalize hd : decodeRune (s0 :: rest) = d at *
  obtain ⟨r, w⟩ := d
  simp only at w1 w2 ⊢
  simp only [List.length_cons] at w2
  have hw : w = (w - 1) + 1 := by omega
  have hdrop : (s0 :: rest).drop w = rest.drop (w - 1) := by
    rw [hw]; simp
  have hi : i + w = i + 1 + (w - 1) := by omega
  rw [getFirstNumberLoop, hd]
  simp only
  rw [hdrop, hi, ← getFirstNumberLoop_skip tbl (w - 1) rest (i + 1) _ en (by omega),
    ← getFirstNumberLoop_skip tbl (w - 1) rest (i + 1) _ en (by omega)]

theorem runesFrom_skip (k : Nat) :
    ∀ (s : List Nat), k ≤ s.length → runesFrom s k = runesFrom (s.drop k) 0 := by
  induction k with
  | zero => intro s _; simp
  | succ k ih =>
    intro s hk
    match s, hk with
    | x :: rest, hk =>
      have hk' : k ≤ rest.length := by simpa using hk
      simp only [runesFrom, List.drop_succ_cons]
      rw [ih rest hk']

theorem runes_cons (s0 : Nat) (rest : List Nat) :
    runes (s0 :: rest) =
      (decodeRune (s0 :: rest)).1 :: runes ((s0 :: rest).drop (decodeRune (s0 :: rest)).2) := by
  obtain ⟨w1, w2⟩ := decodeRune_width s0 rest
  generalize hd : decodeRune (s0 :: rest) = d at *
  obtain ⟨r, w⟩ := d
  simp only at w1 w2 ⊢
  simp only [List.length_cons] at w2
  have hw : w = (w - 1) + 1 := by omega
  have hdrop : (s0 :: rest).drop w = rest.drop (w - 1) := by
    rw [hw]; simp
  rw [runes, runesFrom, hd]
  simp only
  rw [hdrop, runes, ← runesFrom_skip (w - 1) rest (by omega)]

theorem runes_nil : runes [] = [] := rfl

/-- Scanning a text without digits leaves the state of the search untouched. -/
theorem getFirstNumberLoop_text (tbl : Nat → Bool) (n : Nat) :
    ∀ (t rest : List Nat) (i : Nat), t.length ≤ n → NoDigit tbl t → AsciiHead rest →
      getFirstNumberLoop tbl (t ++ rest) 0 i (-1) (-1)
        = getFirstNumberLoop tbl rest 0 (i + t.length) (-1) (-1) := by
  induction n with
  | zero =>
    intro t rest i hl _ _
    have : t = [] := List.eq_nil_of_length_eq_zero (by omega)
    subst this; simp
  | succ n ih =>
    intro t rest i hl hn hr
    match t with
    | [] => simp
    | s0 :: t1 =>
      have hdec := decodeRune_append (s0 :: t1) rest (by simp) hr
      obtain ⟨w1, w2⟩ := decodeRune_width s0 t1
      have hru := runes_cons s0 t1
      rw [List.cons_append, getFirstNumberLoop_cons, ← List.cons_append, hdec]
      generalize hd : decodeRune (s0 :: t1) = d at *
      obtain ⟨r, w⟩ := d
      simp only at w1 w2 hru ⊢
      have hr0 : IsDigit tbl r = false := hn r (by rw [hru]; exact List.mem_cons_self _ _)
      have hn' : NoDigit tbl ((s0 :: t1).drop w) := by
        intro x hx
        exact hn x (by rw [hru]; exact List.mem_cons_of_mem _ hx)
      simp only [hr0, Bool.false_eq_true, if_false]
      have hneg : ¬ ((-1 : Int) ≥ 0 ∧ (-1 : Int) < 0) := by omega
      rw [if_neg hneg, List.drop_append_of_le_length w2]
      have hlen : ((s0 :: t1).drop w).length ≤ n := by
        simp only [List.length_drop, List.length_cons] at hl w2 ⊢; omega
      rw [ih _ rest (i + w) hlen hn' hr]
      have : i + w + ((s0 :: t1).drop w).length = i + (s0 :: t1).length := by
        simp only [List.length_drop, List.length_cons] at w2 ⊢; omega
      rw [this]

theorem IsDigit_ascii (tbl : Nat → Bool) (c : Nat) (h : 0x30 ≤ c ∧ c ≤ 0x39) :
    IsDigit tbl c = true := by
  unfold IsDigit
  rw [if_pos (by omega)]
  simp only [decide_eq_true_eq]; omega

theorem getFirstNumberLoop_digit (tbl : Nat → Bool) (c : Nat) (s : List Nat) (i : Nat)
    (st en : Int) (hc : 0x30 ≤ c ∧ c ≤ 0x39) :
    getFirstNumberLoop tbl (c :: s) 0 i st en
      = getFirstNumberLoop tbl s 0 (i + 1) (if st < 0 then (i : Int) else st) en := by
  rw [getFirstNumberLoop_cons, decodeRune_ascii c s (by omega)]
  simp only [IsDigit_ascii tbl c hc, if_true, List.drop_succ_cons, List.drop_zero]

theorem getFirstNumberLoop_digits (tbl : Nat → Bool) (d : List Nat) :
    ∀ (rest : List Nat) (i : Nat) (st en : Int), (∀ c ∈ d, 0x30 ≤ c ∧ c ≤ 0x39) → 0 ≤ st →
      getFirstNumberLoop tbl (d ++ rest) 0 i st en
        = getFirstNumberLoop tbl rest 0 (i + d.length) st en := by
  induction d with
  | nil => intro rest i st en _ _; simp
  | cons c d ih =>
    intro rest i st en hd hst
    rw [List.cons_append, getFirstNumberLoop_digit tbl c _ i st en (hd c (List.mem_cons_self _ _)),
      if_neg (by omega), ih rest (i + 1) st en (fun x hx => hd x (List.mem_cons_of_mem _ hx)) hst]
    simp only [List.length_cons]
    have : i + 1 + d.length = i + (d.length + 1) := by omega
    rw [this]

theorem getFirstNumberLoop_run (tbl : Nat → Bool) (d rest : List Nat) (i : Nat)
    (hd : DigitRun d) :
    getFirstNumberLoop tbl (d ++ rest) 0 i (-1) (-1)
      = getFirstNumberLoop tbl rest 0 (i + d.length) (i : Int) (-1) := by
  obtain ⟨hne, hdig⟩ := hd
  match d, hne with
  | c :: d', _ =>
    rw [List.cons_append, getFirstNumberLoop_digit tbl c _ i _ _ (hdig c (List.mem_cons_self _ _)),
      if_pos (by omega),
      getFirstNumberLoop_digits tbl d' rest (i + 1) _ _
        (fun x hx => hdig x (List.mem_cons_of_mem _ hx)) (by omega)]
    simp only [List.length_cons]
    have : i + 1 + d'.length = i + (d'.length + 1) := by omega
    rw [this]

theorem getFirstNumberLoop_stop (tbl : Nat → Bool) (rest : List Nat) (j : Nat) (st : Int)
    (hst : 0 ≤ st) (hr : StartsClean tbl rest) :
    getFirstNumberLoop tbl rest 0 j st (-1) = (st, if rest = [] then (-1 : Int) else (j : Int)) := by
  match rest with
  | [] => simp [getFirstNumberLoop]
  | s0 :: rest' =>
    have h : IsDigit tbl (decodeRune (s0 :: rest')).1 = false := by
      rcases hr with h | h
      · cases h
      · exact h
    rw [getFirstNumberLoop_cons]
    simp only [h, Bool.false_eq_true, if_false]
    rw [if_pos (by omega)]
    simp

theorem foldl_value_ge (d : List Nat) : ∀ n : Nat,
    n ≤ d.foldl (fun n c => n * 10 + (c - 0x30)) n := by
  induction d with
  | nil => intro n; simp
  | cons c d ih =>
    intro n
    simp only [List.foldl_cons]
    have := ih (n * 10 + (c - 0x30))
    omega

theorem parseUintLoop_eq (d : List Nat) : ∀ n : Nat, (∀ c ∈ d, 0x30 ≤ c ∧ c ≤ 0x39) →
    n ≤ 18446744073709551615 →
    parseUintLoop d n =
      if d.foldl (fun n c => n * 10 + (c - 0x30)) n ≤ 18446744073709551615
      then some (d.foldl (fun n c => n * 10 + (c - 0x30)) n) else none := by
  induction d with
  | nil => intro n _ hn; simp [parseUintLoop, hn]
  | cons c d ih =>
    intro n hd hn
    have hc := hd c (List.mem_cons_self _ _)
    have hd' : ∀ x ∈ d, 0x30 ≤ x ∧ x ≤ 0x39 := fun x hx => hd x (List.mem_cons_of_mem _ hx)
    have hge := foldl_value_ge d (n * 10 + (c - 0x30))
    simp only [parseUintLoop, List.foldl_cons]
    rw [if_pos hc]
    split_ifs with h1 h2 h3 h4 h5
    · omega
    · rfl
    · omega
    · rfl
    · rw [ih _ hd' (by omega), if_pos h5]
    · rw [ih _ hd' (by omega), if_neg h5]

theorem ParseUint_eq (d : List Nat) (hd : DigitRun d) :
    ParseUint d = if decimalValue d ≤ 18446744073709551615 then some (decimalValue d) else none := by
  unfold ParseUint decimalValue
  rw [if_neg hd.1, parseUintLoop_eq d 0 hd.2 (by omega)]

theorem PutUint64_eq (v : Nat) : PutUint64 (List.replicate 8 0) v = some (bigEndian 8 v) := by
  simp [PutUint64, List.replicate, bigEndian, byte, Nat.shiftRight_eq_div_pow]

theorem DigitRun.asciiHead (d rest : List Nat) (hd : DigitRun d) : AsciiHead (d ++ rest) := by
  obtain ⟨hne, hdig⟩ := hd
  match d, hne with
  | c :: d', _ =>
    intro x hx
    simp only [List.cons_append, List.head?_cons, Option.mem_def, Option.some.injEq] at hx
    subst hx
    have := hdig c (List.mem_cons_self _ _)
    omega

theorem getFirstNumberLoop_pieces (tbl : Nat → Bool) (t d rest : List Nat)
    (ht : NoDigit tbl t) (hd : DigitRun d) (hr : StartsClean tbl rest) :
    getFirstNumberLoop tbl (t ++ d ++ rest) 0 0 (-1) (-1)
      = ((t.length : Int), if rest = [] then (-1 : Int) else ((t.length + d.length : Nat) : Int)) := by
  rw [List.append_assoc, getFirstNumberLoop_text tbl t.length t (d ++ rest) 0 (Nat.le_refl _) ht
    (DigitRun.asciiHead d rest hd), getFirstNumberLoop_run tbl d rest _ hd,
    getFirstNumberLoop_stop tbl rest _ _ (by omega) hr]
  simp

theorem getFirstNumber_pieces (tbl : Nat → Bool) (t d rest : List Nat)
    (ht : NoDigit tbl t) (hd : DigitRun d) (hr : StartsClean tbl rest) :
    getFirstNumber tbl (t ++ d ++ rest) =
      if decimalValue d ≤ 18446744073709551615
      then ((t.length : Int), ((t.length + d.length : Nat) : Int), decimalValue d)
      else (-1, -1, 0) := by
  unfold getFirstNumber
  rw [getFirstNumberLoop_pieces tbl t d rest ht hd hr]
  simp only
  rw [if_pos (by omega)]
  have hend : (if (if rest = [] then (-1 : Int) else ((t.length + d.length : Nat) : Int)) < 0
      then (((t ++ d ++ rest).length : Nat) : Int)
      else (if rest = [] then (-1 : Int) else ((t.length + d.length : Nat) : Int)))
      = ((t.length + d.length : Nat) : Int) := by
    by_cases h : rest = []
    · subst h; simp
    · rw [if_neg h, if_neg (by omega)]
  rw [hend]
  have hsub : List.take (((t.length + d.length : Nat) : Int).toNat - ((t.length : Nat) : Int).toNat)
      (List.drop ((t.length : Nat) : Int).toNat (t ++ d ++ rest)) = d := by
    have e1 : ((t.length : Nat) : Int).toNat = t.length := by omega
    have e2 : ((t.length + d.length : Nat) : Int).toNat - t.length = d.length := by omega
    rw [e1, e2, List.append_assoc, List.drop_left, List.take_left]
  rw [hsub, ParseUint_eq d hd]
  split_ifs <;> rfl

theorem getFirstNumberLoop_none (tbl : Nat → Bool) (t : List Nat) (ht : NoDigit tbl t) :
    getFirstNumberLoop tbl t 0 0 (-1) (-1) = (-1, -1) := by
  have h := getFirstNumberLoop_text tbl t.length t [] 0 (Nat.le_refl _) ht (by intro c hc; simp at hc)
  rw [List.append_nil] at h
  rw [h]; rfl

theorem getFirstNumber_none (tbl : Nat → Bool) (t : List Nat) (ht : NoDigit tbl t) :
    getFirstNumber tbl t = (-1, -1, 0) := by
  unfold getFirstNumber
  rw [getFirstNumberLoop_none tbl t ht]
  simp

theorem NoDigit.startsClean (tbl : Nat → Bool) (t rest : List Nat) (ht : NoDigit tbl t)
    (hne : t ≠ []) (hr : AsciiHead rest) : StartsClean tbl (t ++ rest) := by
  right
  rw [decodeRune_append t rest hne hr]
  match t, hne with
  | s0 :: t1, _ =>
    exact ht _ (by rw [runes_cons]; exact List.mem_cons_self _ _)

theorem Pieces.noDigit (tbl : Nat → Bool) (t0 : List Nat) (segs : List (List Nat × List Nat))
    (h : Pieces tbl t0 segs) : NoDigit tbl t0 := by
  match segs with
  | [] => exact h
  | (d, t) :: segs => exact h.1

theorem assemble_startsClean (tbl : Nat → Bool) (t : List Nat)
    (segs : List (List Nat × List Nat)) (h : Pieces tbl t segs) (hne : segs ≠ [] → t ≠ []) :
    StartsClean tbl (assemble t segs) := by
  match segs with
  | [] =>
    simp only [assemble]
    by_cases ht : t = []
    · left; exact ht
    · have := NoDigit.startsClean tbl t [] h ht (by intro c hc; simp at hc)
      rw [List.append_nil] at this
      exact this
  | (d, t') :: segs =>
    simp only [assemble, List.append_assoc]
    exact NoDigit.startsClean tbl t _ h.1 (hne (by simp)) (DigitRun.asciiHead d _ h.2.1)

theorem NaturalLoop_pieces (tbl : Nat → Bool) (segs : List (List Nat × List Nat)) :
    ∀ (t0 out : List Nat) (fuel : Nat), Pieces tbl t0 segs →
      (∀ p ∈ segs, decimalValue p.1 ≤ 18446744073709551615) →
      (assemble t0 segs).length + 1 ≤ fuel →
      NaturalLoop tbl fuel (assemble t0 segs) out = some (out ++ assembleEncoded t0 segs) := by
  induction segs with
  | nil =>
    intro t0 out fuel hp _ hf
    match fuel, hf with
    | fuel + 1, _ =>
      simp only [assemble, assembleEncoded, NaturalLoop]
      rw [getFirstNumber_none tbl t0 hp]
      simp
  | cons p segs ih =>
    intro t0 out fuel hp hfit hf
    obtain ⟨d, t⟩ := p
    obtain ⟨h0, hd, hne, hrest⟩ := hp
    have hclean := assemble_startsClean tbl t segs hrest hne
    have hv : decimalValue d ≤ 18446744073709551615 := hfit (d, t) (List.mem_cons_self _ _)
    match fuel, hf with
    | fuel + 1, hf =>
      simp only [assemble, assembleEncoded, NaturalLoop]
      rw [getFirstNumber_pieces tbl t0 d _ h0 hd hclean, if_pos hv]
      simp only [PutUint64_eq]
      rw [if_neg (by omega)]
      have hdrop : List.drop ((((t0.length + d.length : Nat) : Int)).toNat)
          (t0 ++ d ++ assemble t segs) = assemble t segs := by
        have : (((t0.length + d.length : Nat) : Int)).toNat = (t0 ++ d).length := by
          rw [List.length_append]; omega
        rw [this, List.drop_left]
      have htake : List.take (((t0.length : Nat) : Int)).toNat (t0 ++ d ++ assemble t segs) = t0 := by
        have : (((t0.length : Nat) : Int)).toNat = t0.length := by omega
        rw [this, List.append_assoc, List.take_left]
      rw [hdrop, htake]
      by_cases he : assemble t segs = []
      · rw [if_pos he]
        have hs : segs = [] := by
          match segs with
          | [] => rfl
          | (d', t') :: segs' =>
            exfalso
            simp only [assemble, List.append_eq_nil] at he
            exact hrest.2.1.1 he.1.2
        subst hs
        simp only [assemble] at he
        subst he
        simp [assembleEncoded]
      · rw [if_neg he]
        have hlen : (assemble t segs).length + 1 ≤ fuel := by
          have hpos : 0 < d.length := List.length_pos.mpr hd.1
          simp only [assemble, List.length_append] at hf
          omega
        rw [ih t _ fuel hrest (fun p hp => hfit p (List.mem_cons_of_mem _ hp)) hlen]
        simp [List.append_assoc]

theorem runes_append (n : Nat) :
    ∀ (t rest : List Nat), t.length ≤ n → AsciiHead rest →
      runes (t ++ rest) = runes t ++ runes rest := by
  induction n with
  | zero =>
    intro t rest hl _
    have : t = [] := List.eq_nil_of_length_eq_zero (by omega)
    subst this; simp [runes_nil]
  | succ n ih =>
    intro t rest hl hr
    match t with
    | [] => simp [runes_nil]
    | s0 :: t1 =>
      have hdec := decodeRune_append (s0 :: t1) rest (by simp) hr
      obtain ⟨w1, w2⟩ := decodeRune_width s0 t1
      rw [List.cons_append, runes_cons, ← List.cons_append, hdec, runes_cons s0 t1,
        List.drop_append_of_le_length w2]
      have hlen : ((s0 :: t1).drop (decodeRune (s0 :: t1)).2).length ≤ n := by
        simp only [List.length_drop, List.length_cons] at hl w2 ⊢; omega
      rw [ih _ rest hlen hr, List.cons_append]

theorem runes_digits (d : List Nat) (rest : List Nat) (hd : ∀ c ∈ d, 0x30 ≤ c ∧ c ≤ 0x39) :
    runes (d ++ rest) = d ++ runes rest := by
  induction d with
  | nil => simp
  | cons c d ih =>
    have hc := hd c (List.mem_cons_self _ _)
    rw [List.cons_append, runes_cons, decodeRune_ascii c _ (by omega)]
    simp only [List.drop_succ_cons, List.drop_zero]
    rw [ih (fun x hx => hd x (List.mem_cons_of_mem _ hx)), List.cons_append]

theorem contBits_lt (b : Option Nat) : contBits b < 64 := by
  cases b with
  | none => simp [contBits]
  | some x => simp only [contBits]; omega

theorem decodeRune_ascii_rune (s0 : Nat) (rest : List Nat)
    (h : (decodeRune (s0 :: rest)).1 < 0x80) : (decodeRune (s0 :: rest)).1 = s0 := by
  simp only [decodeRune] at h ⊢
  split_ifs at h ⊢ with h1 h2 h3 h4 h5 h6 h7 h8
  · rfl
  · simp [RuneError] at h
  · exfalso
    simp only at h
    omega
  · simp [RuneError] at h
  · exfalso
    simp only [Bool.and_eq_true] at h6
    obtain ⟨x, hx, hlo, hhi⟩ := isCont_some _ _ _ h6.1
    rw [hx] at h
    simp only [contBits] at h
    unfold acceptLo at hlo
    unfold acceptHi at hhi
    split_ifs at hlo hhi <;> omega
  · simp [RuneError] at h
  · exfalso
    simp only [Bool.and_eq_true] at h8
    obtain ⟨x, hx, hlo, hhi⟩ := isCont_some _ _ _ h8.1.1
    rw [hx] at h
    simp only [contBits] at h
    unfold acceptLo at hlo
    unfold acceptHi at hhi
    split_ifs at hlo hhi <;> omega
  · simp [RuneError] at h
  · simp [RuneError] at h

theorem runes_ascii_mem (n : Nat) :
    ∀ (t : List Nat) (r : Nat), t.length ≤ n → r ∈ runes t → r < 0x80 → r ∈ t := by
  induction n with
  | zero =>
    intro t r hl hr _
    have : t = [] := List.eq_nil_of_length_eq_zero (by omega)
    subst this; simp [runes_nil] at hr
  | succ n ih =>
    intro t r hl hr hlt
    match t with
    | [] => simp [runes_nil] at hr
    | s0 :: t1 =>
      obtain ⟨w1, w2⟩ := decodeRune_width s0 t1
      rw [runes_cons] at hr
      rcases List.mem_cons.mp hr with h | h
      · rw [h] at hlt
        rw [h, decodeRune_ascii_rune s0 t1 hlt]
        exact List.mem_cons_self _ _
      · have hlen : ((s0 :: t1).drop (decodeRune (s0 :: t1)).2).length ≤ n := by
          simp only [List.length_drop, List.length_cons] at hl w2 ⊢; omega
        exact List.mem_of_mem_drop (ih _ r hlen h hlt)

theorem noDigit_of_noUnicodeDigit (tbl : Nat → Bool) (t : List Nat)
    (hu : NoUnicodeDigit tbl t) (hb : ∀ c ∈ t, ¬ (0x30 ≤ c ∧ c ≤ 0x39)) : NoDigit tbl t := by
  intro r hr
  by_contra hd
  have hd' : IsDigit tbl r = true := by simpa using hd
  have hlt := hu r hr hd'
  have hmem := runes_ascii_mem t.length t r (Nat.le_refl _) hr hlt
  apply hb r hmem
  unfold IsDigit at hd'
  rw [if_pos (by omega)] at hd'
  simpa using hd'

theorem pieces_of_maximalRuns (tbl : Nat → Bool) (segs : List (List Nat × List Nat)) :
    ∀ t0 : List Nat, NoUnicodeDigit tbl (assemble t0 segs) → MaximalRuns t0 segs →
      Pieces tbl t0 segs := by
  induction segs with
  | nil =>
    intro t0 hu hm
    exact noDigit_of_noUnicodeDigit tbl t0 hu hm
  | cons p segs ih =>
    intro t0 hu hm
    obtain ⟨d, t⟩ := p
    obtain ⟨h0, hd, hne, hrest⟩ := hm
    have hr : runes (assemble t0 ((d, t) :: segs))
        = runes t0 ++ (d ++ runes (assemble t segs)) := by
      simp only [assemble]
      rw [List.append_assoc, runes_append t0.length t0 _ (Nat.le_refl _)
        (DigitRun.asciiHead d _ hd), runes_digits d _ hd.2]
    have hu0 : NoUnicodeDigit tbl t0 := by
      intro r hr0 hdig
      exact hu r (by rw [hr]; exact List.mem_append_left _ hr0) hdig
    have hu1 : NoUnicodeDigit tbl (assemble t segs) := by
      intro r hr1 hdig
      exact hu r (by rw [hr]; exact List.mem_append_right _ (List.mem_append_right _ hr1)) hdig
    exact ⟨noDigit_of_noUnicodeDigit tbl t0 hu0 h0, hd, hne, ih t hu1 hrest⟩

/-- Every string is cut into a leading text and pairs of a maximal digit run
and the text after it. -/
theorem exists_maximalRuns (s : List Nat) :
    ∃ t0 segs, s = assemble t0 segs ∧ MaximalRuns t0 segs := by
  induction s with
  | nil => exact ⟨[], [], rfl, by intro c hc; simp at hc⟩
  | cons c s ih =>
    obtain ⟨t0, segs, hs, hm⟩ := ih
    by_cases hc : 0x30 ≤ c ∧ c ≤ 0x39
    · match t0, segs, hs, hm with
      | [], [], hs, hm =>
        refine ⟨[], [([c], [])], by simp [assemble, hs], ?_⟩
        refine ⟨by intro x hx; simp at hx, ⟨by simp, ?_⟩, by simp, by intro x hx; simp at hx⟩
        intro x hx
        simp only [List.mem_singleton] at hx
        subst hx; exact hc
      | [], (d, t) :: segs, hs, hm =>
        refine ⟨[], (c :: d, t) :: segs, by simp [assemble, hs], ?_⟩
        refine ⟨by intro x hx; simp at hx, ⟨by simp, ?_⟩, hm.2.2.1, hm.2.2.2⟩
        intro x hx
        rcases List.mem_cons.mp hx with h | h
        · subst h; exact hc
        · exact hm.2.1.2 x h
      | a :: t0, segs, hs, hm =>
        refine ⟨[], ([c], a :: t0) :: segs, by simp [assemble, hs], ?_⟩
        refine ⟨by intro x hx; simp at hx, ⟨by simp, ?_⟩, by simp, hm⟩
        intro x hx
        simp only [List.mem_singleton] at hx
        subst hx; exact hc
    · match segs, hs, hm with
      | [], hs, hm =>
        refine ⟨c :: t0, [], by simp [assemble, hs], ?_⟩
        intro x hx
        rcases List.mem_cons.mp hx with h | h
        · subst h; exact hc
        · exact hm x h
      | (d, t) :: segs, hs, hm =>
        refine ⟨c :: t0, (d, t) :: segs, by simp [assemble, hs], ?_, hm.2⟩
        intro x hx
        rcases List.mem_cons.mp hx with h | h
        · subst h; exact hc
        · exact hm.1 x h

theorem lexCompare_self (a : List Nat) : lexCompare a a = Ordering.eq := by
  induction a with
  | nil => rfl
  | cons x xs ih => simp [lexCompare, ih]

theorem lexCompare_swap (a : List Nat) : ∀ b : List Nat,
    lexCompare b a = (lexCompare a b).swap := by
  induction a with
  | nil => intro b; cases b <;> rfl
  | cons x xs ih =>
    intro b
    cases b with
    | nil => rfl
    | cons y ys =>
      simp only [lexCompare]
      by_cases h1 : x < y
      · have : ¬ y < x := by omega
        simp only [h1, this, if_true, if_false]; rfl
      · by_cases h2 : y < x
        · simp only [h1, h2, if_true, if_false]; rfl
        · simp [h1, h2, ih ys]

theorem lexCompare_append_same (p x y : List Nat) :
    lexCompare (p ++ x) (p ++ y) = lexCompare x y := by
  induction p with
  | nil => rfl
  | cons c p ih => simp [lexCompare, ih]

theorem lexCompare_append (a : List Nat) : ∀ (b x y : List Nat), a.length = b.length →
    lexCompare (a ++ x) (b ++ y) = (lexCompare a b).then (lexCompare x y) := by
  induction a with
  | nil =>
    intro b x y hl
    cases b with
    | nil => simp [lexCompare, Ordering.then]
    | cons c b => simp at hl
  | cons c a ih =>
    intro b x y hl
    cases b with
    | nil => simp at hl
    | cons e b =>
      have hl' : a.length = b.length := by simpa using hl
      simp only [List.cons_append, lexCompare]
      by_cases h1 : c < e
      · simp [h1, Ordering.then]
      · by_cases h2 : e < c
        · simp [h1, h2, Ordering.then]
        · simp [h1, h2, ih b x y hl']

theorem bigEndian8_value (n : Nat) (h : n ≤ 18446744073709551615) :
    bigEndianValue (bigEndian 8 n) = n := by
  simp only [bigEndian, bigEndianValue, List.length_cons, List.length_nil]
  omega

theorem bigEndian8_lt (n : Nat) : ∀ x ∈ bigEndian 8 n, x < 256 := by
  intro x hx
  simp only [bigEndian, List.mem_cons, List.mem_singleton, List.not_mem_nil, or_false] at hx
  omega

theorem bigEndian8_length (n : Nat) : (bigEndian 8 n).length = 8 := rfl

theorem lexCompare_bigEndian8 (n m : Nat) (hn : n ≤ 18446744073709551615)
    (hm : m ≤ 18446744073709551615) :
    lexCompare (bigEndian 8 n) (bigEndian 8 m)
      = if n < m then Ordering.lt else if m < n then Ordering.gt else Ordering.eq := by
  have hl : (bigEndian 8 n).length = (bigEndian 8 m).length := by
    rw [bigEndian8_length, bigEndian8_length]
  have h1 := lexCompare_lt_iff _ _ hl (bigEndian8_lt n) (bigEndian8_lt m)
  have h2 := lexCompare_lt_iff _ _ hl.symm (bigEndian8_lt m) (bigEndian8_lt n)
  rw [bigEndian8_value n hn, bigEndian8_value m hm] at h1 h2
  by_cases a : n < m
  · rw [if_pos a]; exact h1.mpr a
  · by_cases b : m < n
    · rw [if_neg a, if_pos b, lexCompare_swap, h2.mpr b]; rfl
    · have : n = m := by omega
      subst this
      rw [if_neg a, if_neg b, lexCompare_self]

theorem assembleEncoded_compare (segs : List (List Nat × List Nat)) :
    ∀ (segs' : List (List Nat × List Nat)) (t0 : List Nat),
      segs.map Prod.snd = segs'.map Prod.snd →
      (∀ p ∈ segs, decimalValue p.1 ≤ 18446744073709551615) →
      (∀ p ∈ segs', decimalValue p.1 ≤ 18446744073709551615) →
      lexCompare (assembleEncoded t0 segs) (assembleEncoded t0 segs')
        = lexCompare (runValues segs) (runValues segs') := by
  induction segs with
  | nil =>
    intro segs' t0 hs _ _
    cases segs' with
    | nil => simp [assembleEncoded, runValues, lexCompare_self, lexCompare]
    | cons p segs' => simp at hs
  | cons p segs ih =>
    intro segs' t0 hs hf hf'
    cases segs' with
    | nil => simp at hs
    | cons p' segs' =>
      obtain ⟨d, t⟩ := p
      obtain ⟨d', t'⟩ := p'
      simp only [List.map_cons, List.cons.injEq] at hs
      obtain ⟨ht, hs⟩ := hs
      subst ht
      have hv := hf (d, t) (List.mem_cons_self _ _)
      have hv' := hf' (d', t) (List.mem_cons_self _ _)
      simp only [assembleEncoded, runValues, List.map_cons, List.append_assoc]
      rw [lexCompare_append_same, lexCompare_append _ _ _ _ (by rw [bigEndian8_length, bigEndian8_length]),
        lexCompare_bigEndian8 _ _ hv hv',
        ih segs' t hs (fun p hp => hf p (List.mem_cons_of_mem _ hp))
          (fun p hp => hf' p (List.mem_cons_of_mem _ hp))]
      simp only [lexCompare, runValues]
      split_ifs <;> rfl

theorem noDigit_ascii (tbl : Nat → Bool) (t : List Nat)
    (h : ∀ c ∈ t, c < 0x80 ∧ ¬ (0x30 ≤ c ∧ c ≤ 0x39)) : NoDigit tbl t := by
  induction t with
  | nil => intro r hr; simp [runes_nil] at hr
  | cons c t ih =>
    have hc := h c (List.mem_cons_self _ _)
    intro r hr
    rw [runes_cons, decodeRune_ascii c t hc.1] at hr
    simp only [List.drop_succ_cons, List.drop_zero] at hr
    rcases List.mem_cons.mp hr with e | e
    · subst e
      unfold IsDigit
      rw [if_pos (by omega)]
      simpa using hc.2
    · exact ih (fun x hx => h x (List.mem_cons_of_mem _ hx)) r e

theorem Natural_pieces (tbl : Nat → Bool) (t0 : List Nat) (segs : List (List Nat × List Nat))
    (hp : Pieces tbl t0 segs) (hfit : ∀ p ∈ segs, decimalValue p.1 ≤ 18446744073709551615) :
    Natural tbl (assemble t0 segs) = some (assembleEncoded t0 segs) := by
  unfold Natural
  rw [NaturalLoop_pieces tbl segs t0 [] _ hp hfit (Nat.le_refl _), List.nil_append]

/-- C3: two strings built from the same texts without digits (texts between
two runs non-empty) and from decimal digit runs whose values fit 64 bits are
encoded by Natural, and the byte-wise lexicographic comparison of the two
encodings equals the lexicographic comparison of the two tuples of run
values; in particular the encoding of "a2" is smaller than that of "a10". -/
theorem Natural_order (tbl : Nat → Bool) :
    (∀ (t0 : List Nat) (segs segs' : List (List Nat × List Nat)),
      segs.map Prod.snd = segs'.map Prod.snd →
      Pieces tbl t0 segs → Pieces tbl t0 segs' →
      (∀ p ∈ segs, decimalValue p.1 ≤ 2 ^ 64 - 1) →
      (∀ p ∈ segs', decimalValue p.1 ≤ 2 ^ 64 - 1) →
      ∃ o o', Natural tbl (assemble t0 segs) = some o ∧ Natural tbl (assemble t0 segs') = some o' ∧
        lexCompare o o' = lexCompare (runValues segs) (runValues segs')) ∧
    (∃ o o', Natural tbl (str "a2") = some o ∧ Natural tbl (str "a10") = some o' ∧
      lexCompare o o' = Ordering.lt) := by
  constructor
  · intro t0 segs segs' hs hp hp' hf hf'
    have hf1 : ∀ p ∈ segs, decimalValue p.1 ≤ 18446744073709551615 := fun p h => by
      have := hf p h; omega
    have hf2 : ∀ p ∈ segs', decimalValue p.1 ≤ 18446744073709551615 := fun p h => by
      have := hf' p h; omega
    exact ⟨_, _, Natural_pieces tbl t0 segs hp hf1, Natural_pieces tbl t0 segs' hp' hf2,
      assembleEncoded_compare segs segs' t0 hs hf1 hf2⟩
  · have ha : NoDigit tbl (str "a") := noDigit_ascii tbl _ (by decide)
    have he : NoDigit tbl [] := noDigit_ascii tbl _ (by decide)
    have h2 : Natural tbl (assemble (str "a") [(str "2", [])]) = _ :=
      Natural_pieces tbl (str "a") [(str "2", [])]
        ⟨ha, ⟨by decide, by decide⟩, by decide, he⟩ (by decide)
    have h10 : Natural tbl (assemble (str "a") [(str "10", [])]) = _ :=
      Natural_pieces tbl (str "a") [(str "10", [])]
        ⟨ha, ⟨by decide, by decide⟩, by decide, he⟩ (by decide)
    exact ⟨_, _, h2, h10, by decide⟩

theorem NoDigit.startsClean_self (tbl : Nat → Bool) (t : List Nat) (ht : NoDigit tbl t) :
    StartsClean tbl t := by
  by_cases h : t = []
  · left; exact h
  · have := NoDigit.startsClean tbl t [] ht h (by intro c hc; simp at hc)
    rw [List.append_nil] at this
    exact this

/-- When the first digit run does not fit 64 bits, the whole input is
returned as it is, whatever follows the run. -/
theorem Natural_overflow_first (tbl : Nat → Bool) (t0 d rest : List Nat)
    (h0 : NoDigit tbl t0) (hd : DigitRun d) (hv : 18446744073709551615 < decimalValue d)
    (hr : StartsClean tbl rest) :
    Natural tbl (t0 ++ d ++ rest) = some (t0 ++ d ++ rest) := by
  have hg : getFirstNumber tbl (t0 ++ d ++ rest) = (-1, -1, 0) := by
    rw [getFirstNumber_pieces tbl t0 d rest h0 hd hr]
    exact if_neg (by omega)
  unfold Natural
  simp only [NaturalLoop, hg]
  simp

/-- C4: an input without non-ASCII Unicode digits whose maximal runs of the
digits '0' to '9' all have a value of at most 2^64-1 is returned by Natural
with each run replaced, in place and in order, by the 8-byte big-endian
encoding of its value and every text copied unchanged; every string is cut
into such texts and runs; a string without digits, the empty string
included, is returned unchanged. -/
theorem Natural_encodes_runs (tbl : Nat → Bool) :
    (∀ (t0 : List Nat) (segs : List (List Nat × List Nat)),
      NoUnicodeDigit tbl (assemble t0 segs) → MaximalRuns t0 segs →
      (∀ p ∈ segs, decimalValue p.1 ≤ 2 ^ 64 - 1) →
      Natural tbl (assemble t0 segs) = some (assembleEncoded t0 segs)) ∧
    (∀ s : List Nat, ∃ t0 segs, s = assemble t0 segs ∧ MaximalRuns t0 segs) ∧
    (∀ t : List Nat, NoUnicodeDigit tbl t → (∀ c ∈ t, ¬ (0x30 ≤ c ∧ c ≤ 0x39)) →
      Natural tbl t = some t) ∧
    Natural tbl [] = some [] := by
  refine ⟨?_, exists_maximalRuns, ?_, rfl⟩
  · intro t0 segs hu hm hf
    exact Natural_pieces tbl t0 segs (pieces_of_maximalRuns tbl segs t0 hu hm)
      (fun p h => by have := hf p h; omega)
  · intro t hu hb
    exact Natural_pieces tbl t [] (pieces_of_maximalRuns tbl [] t hu hb)
      (fun p h => by simp at h)

/-- C5, the code at the input "18446744073709551616a1": the first run does
not fit 64 bits, Natural returns the whole input unchanged, and the later
run "1", which fits, is not encoded: the output does not end with "a"
followed by the 8-byte encoding of 1. -/
theorem Natural_overflow_then_run (tbl : Nat → Bool) :
    Natural tbl (str "18446744073709551616a1") = some (str "18446744073709551616a1") ∧
    ¬ ∃ pre, Natural tbl (str "18446744073709551616a1") = some (pre ++ str "a" ++ bigEndian 8 1) := by
  have h : Natural tbl (str "18446744073709551616a1") = some (str "18446744073709551616a1") :=
    Natural_overflow_first tbl [] (str "18446744073709551616") (str "a1")
      (noDigit_ascii tbl _ (by decide)) ⟨by decide, by decide⟩ (by decide)
      (Or.inr (by rw [show str "a1" = 97 :: [49] from rfl, decodeRune_ascii 97 _ (by omega)]; rfl))
  refine ⟨h, ?_⟩
  rintro ⟨pre, hp⟩
  rw [h] at hp
  have hl := congrArg (fun o => o.bind List.getLast?) hp
  simp [str, bigEndian] at hl

/-- C6: for texts t0 and t1 without digits and a decimal digit run d whose
value exceeds 2^64-1, Natural returns the input t0 d t1 unchanged, as it does
for "184467440737095516151" and "340282366920938463463374607431768211455". -/
theorem Natural_overflow_unchanged (tbl : Nat → Bool) :
    (∀ t0 d t1 : List Nat, NoDigit tbl t0 → DigitRun d → NoDigit tbl t1 →
      2 ^ 64 - 1 < decimalValue d →
      Natural tbl (t0 ++ d ++ t1) = some (t0 ++ d ++ t1)) ∧
    Natural tbl (str "184467440737095516151") = some (str "184467440737095516151") ∧
    Natural tbl (str "340282366920938463463374607431768211455")
      = some (str "340282366920938463463374607431768211455") := by
  have main : ∀ t0 d t1 : List Nat, NoDigit tbl t0 → DigitRun d → NoDigit tbl t1 →
      2 ^ 64 - 1 < decimalValue d →
      Natural tbl (t0 ++ d ++ t1) = some (t0 ++ d ++ t1) := by
    intro t0 d t1 h0 hd h1 hv
    exact Natural_overflow_first tbl t0 d t1 h0 hd (by omega)
      (NoDigit.startsClean_self tbl t1 h1)
  have he : NoDigit tbl [] := noDigit_ascii tbl _ (by decide)
  refine ⟨main, ?_, ?_⟩
  · have := main [] (str "184467440737095516151") [] he ⟨by decide, by decide⟩ he (by decide)
    simpa using this
  · have := main [] (str "340282366920938463463374607431768211455") [] he
      ⟨by decide, by decide⟩ he (by decide)
    simpa using this

/-- What the loop of getFirstNumber returns when entered with end = -1: the
start it was given or, when that is negative, an index of the bytes it runs
over; and end is still -1 or an index of those bytes after a start that is
not negative. -/
theorem getFirstNumberLoop_bounds (tbl : Nat → Bool) (l : List Nat) :
    ∀ (skip i : Nat) (start : Int), start < (i : Int) →
      ((getFirstNumberLoop tbl l skip i start (-1)).1 = start ∨
        (start < 0 ∧ (i : Int) ≤ (getFirstNumberLoop tbl l skip i start (-1)).1 ∧
          (getFirstNumberLoop tbl l skip i start (-1)).1 < (i : Int) + (l.length : Int))) ∧
      ((getFirstNumberLoop tbl l skip i start (-1)).2 = -1 ∨
        (0 ≤ (getFirstNumberLoop tbl l skip i start (-1)).1 ∧
          (getFirstNumberLoop tbl l skip i start (-1)).1
            < (getFirstNumberLoop tbl l skip i start (-1)).2 ∧
          (getFirstNumberLoop tbl l skip i start (-1)).2 < (i : Int) + (l.length : Int))) := by
  induction l with
  | nil =>
    intro skip i start h
    simp [getFirstNumberLoop]
  | cons s0 rest ih =>
    intro skip i start h
    cases skip with
    | succ k =>
      simp only [getFirstNumberLoop, List.length_cons]
      have := ih k (i + 1) start (by push_cast; omega)
      push_cast at this ⊢
      omega
    | zero =>
      simp only [getFirstNumberLoop, List.length_cons]
      by_cases hd : IsDigit tbl (decodeRune (s0 :: rest)).1 = true
      · rw [if_pos hd]
        by_cases hs : start < 0
        · rw [if_pos hs]
          have := ih ((decodeRune (s0 :: rest)).2 - 1) (i + 1) (i : Int) (by push_cast; omega)
          push_cast at this ⊢
          omega
        · rw [if_neg hs]
          have := ih ((decodeRune (s0 :: rest)).2 - 1) (i + 1) start (by push_cast; omega)
          push_cast at this ⊢
          omega
      · rw [if_neg hd]
        by_cases hs : start ≥ 0
        · rw [if_pos ⟨hs, by omega⟩]
          refine ⟨Or.inl rfl, Or.inr ⟨hs, h, ?_⟩⟩
          show (i : Int) < (i : Int) + ((rest.length + 1 : Nat) : Int)
          omega
        · rw [if_neg (fun h' => hs h'.1)]
          have := ih ((decodeRune (s0 :: rest)).2 - 1) (i + 1) start (by push_cast; omega)
          push_cast at this ⊢
          omega

/-- When getFirstNumber reports a run, the run is not empty and lies within
the input. -/
theorem getFirstNumber_bounds (tbl : Nat → Bool) (inp : List Nat)
    (h : 0 ≤ (getFirstNumber tbl inp).1) :
    (getFirstNumber tbl inp).1 < (getFirstNumber tbl inp).2.1 ∧
      (getFirstNumber tbl inp).2.1 ≤ (inp.length : Int) := by
  have hb := getFirstNumberLoop_bounds tbl inp 0 0 (-1) (by simp)
  unfold getFirstNumber at h ⊢
  generalize getFirstNumberLoop tbl inp 0 0 (-1) (-1) = r at *
  obtain ⟨s, e⟩ := r
  simp only at hb h ⊢
  push_cast at hb
  by_cases hs : s ≥ 0
  · rw [if_pos hs] at h ⊢
    cases hp : ParseUint ((inp.drop s.toNat).take
        ((if e < 0 then (inp.length : Int) else e).toNat - s.toNat)) with
    | none => rw [hp] at h; simp at h
    | some number =>
      simp only
      split_ifs <;> omega
  · rw [if_neg hs] at h
    simp at h

theorem NaturalLoop_total (tbl : Nat → Bool) :
    ∀ (fuel : Nat) (inp out : List Nat), inp.length + 1 ≤ fuel →
      ∃ o, NaturalLoop tbl fuel inp out = some o := by
  intro fuel
  induction fuel with
  | zero => intro inp out h; omega
  | succ fuel ih =>
    intro inp out hf
    simp only [NaturalLoop, PutUint64_eq]
    by_cases h : (getFirstNumber tbl inp).1 < 0
    · rw [if_pos h]; exact ⟨_, rfl⟩
    · rw [if_neg h]
      obtain ⟨h1, h2⟩ := getFirstNumber_bounds tbl inp (by omega)
      by_cases hd : inp.drop (getFirstNumber tbl inp).2.1.toNat = []
      · rw [if_pos hd]; exact ⟨_, rfl⟩
      · rw [if_neg hd]
        apply ih
        rw [List.length_drop]
        omega

theorem NaturalLoop_fuel (tbl : Nat → Bool) :
    ∀ (fuel fuel' : Nat) (inp out : List Nat), inp.length + 1 ≤ fuel → inp.length + 1 ≤ fuel' →
      NaturalLoop tbl fuel inp out = NaturalLoop tbl fuel' inp out := by
  intro fuel
  induction fuel with
  | zero => intro fuel' inp out h; omega
  | succ fuel ih =>
    intro fuel' inp out hf hf'
    match fuel', hf' with
    | fuel' + 1, hf' =>
      simp only [NaturalLoop, PutUint64_eq]
      by_cases h : (getFirstNumber tbl inp).1 < 0
      · rw [if_pos h, if_pos h]
      · rw [if_neg h, if_neg h]
        obtain ⟨h1, h2⟩ := getFirstNumber_bounds tbl inp (by omega)
        by_cases hd : inp.drop (getFirstNumber tbl inp).2.1.toNat = []
        · rw [if_pos hd, if_pos hd]
        · rw [if_neg hd, if_neg hd]
          apply ih <;> rw [List.length_drop] <;> omega

theorem decimalValue_snoc (d : List Nat) (c : Nat) :
    decimalValue (d ++ [c]) = decimalValue d * 10 + (c - 0x30) := by
  simp [decimalValue, List.foldl_append]

theorem decimalValue_zero_cons (d : List Nat) : decimalValue (0x30 :: d) = decimalValue d := by
  simp [decimalValue]

/-- Every number has a decimal writing. -/
theorem exists_digitRun (n : Nat) : ∃ d, DigitRun d ∧ decimalValue d = n := by
  induction n using Nat.strong_induction_on with
  | _ n ih =>
    by_cases h : n < 10
    · refine ⟨[0x30 + n], ⟨by simp, ?_⟩, ?_⟩
      · intro c hc
        simp only [List.mem_singleton] at hc
        omega
      · simp [decimalValue]
    · obtain ⟨d, hd, hv⟩ := ih (n / 10) (by omega)
      refine ⟨d ++ [0x30 + n % 10], ⟨by simp, ?_⟩, ?_⟩
      · intro c hc
        rcases List.mem_append.mp hc with h1 | h1
        · exact hd.2 c h1
        · simp only [List.mem_singleton] at h1
          omega
      · rw [decimalValue_snoc, hv]
        omega

theorem DigitRun.zero_cons (d : List Nat) (hd : DigitRun d) : DigitRun (0x30 :: d) := by
  refine ⟨by simp, ?_⟩
  intro c hc
  rcases List.mem_cons.mp hc with h | h
  · omega
  · exact hd.2 c h

/-- Natural on a text without digits followed by one digit run that fits 64
bits. -/
theorem Natural_single_run (tbl : Nat → Bool) (t d : List Nat) (ht : NoDigit tbl t)
    (hd : DigitRun d) (hv : decimalValue d ≤ 18446744073709551615) :
    Natural tbl (t ++ d) = some (t ++ bigEndian 8 (decimalValue d)) := by
  have hp : Pieces tbl t [(d, [])] :=
    ⟨ht, hd, fun h => absurd rfl h, by intro r hr; simp [runes_nil] at hr⟩
  have := Natural_pieces tbl t [(d, [])] hp (by
    intro p hp'
    simp only [List.mem_singleton] at hp'
    subst hp'
    exact hv)
  simpa [assemble, assembleEncoded] using this

/-- C24: Natural is not injective. For every text without digits and every
number up to 2^64-1 there are two different decimal writings of the number
after which the text gives two different inputs with the same output; any
two writings of the same such number give the same output; and so do "1" and
"01" after any text without digits. -/
theorem Natural_not_injective (tbl : Nat → Bool) :
    (∀ (t : List Nat) (n : Nat), NoDigit tbl t → n ≤ 18446744073709551615 →
      ∃ d d', DigitRun d ∧ DigitRun d' ∧ decimalValue d = n ∧ decimalValue d' = n ∧
        t ++ d ≠ t ++ d' ∧ Natural tbl (t ++ d) = some (t ++ bigEndian 8 n) ∧
        Natural tbl (t ++ d') = some (t ++ bigEndian 8 n)) ∧
    (∀ (t d d' : List Nat), NoDigit tbl t → DigitRun d → DigitRun d' →
      decimalValue d = decimalValue d' → decimalValue d ≤ 18446744073709551615 →
      Natural tbl (t ++ d) = Natural tbl (t ++ d') ∧ (Natural tbl (t ++ d)).isSome = true) ∧
    (∀ t : List Nat, NoDigit tbl t →
      t ++ str "1" ≠ t ++ str "01" ∧
      Natural tbl (t ++ str "1") = Natural tbl (t ++ str "01")) := by
  have same : ∀ (t d d' : List Nat), NoDigit tbl t → DigitRun d → DigitRun d' →
      decimalValue d = decimalValue d' → decimalValue d ≤ 18446744073709551615 →
      Natural tbl (t ++ d) = Natural tbl (t ++ d') ∧ (Natural tbl (t ++ d)).isSome = true := by
    intro t d d' ht hd hd' he hv
    rw [Natural_single_run tbl t d ht hd hv, Natural_single_run tbl t d' ht hd' (by omega), he]
    exact ⟨rfl, rfl⟩
  refine ⟨?_, same, ?_⟩
  · intro t n ht hn
    obtain ⟨d, hd, hv⟩ := exists_digitRun n
    refine ⟨d, 0x30 :: d, hd, DigitRun.zero_cons d hd, hv, by rw [decimalValue_zero_cons, hv],
      ?_, ?_, ?_⟩
    · intro h
      have := congrArg List.length h
      simp at this
    · rw [Natural_single_run tbl t d ht hd (by omega), hv]
    · rw [Natural_single_run tbl t _ ht (DigitRun.zero_cons d hd)
        (by rw [decimalValue_zero_cons]; omega), decimalValue_zero_cons, hv]
  · intro t ht
    refine ⟨?_, (same t (str "1") (str "01") ht (by decide) (by decide) (by decide)
      (by decide)).1⟩
    intro h
    have := congrArg List.length h
    simp [str] at this

/-- C25: Natural terminates on every input. A run that getFirstNumber reports
ends after its start, at an index of at least 1 and at most the length of
the input, so the input left for the next iteration is shorter; the loop
returns at once when no run is reported or nothing is left after the run;
and so Natural returns a result on every input, the same for every number of
iterations allowed from the length of the input plus one. -/
theorem Natural_terminates (tbl : Nat → Bool) (inp : List Nat) :
    (0 ≤ (getFirstNumber tbl inp).1 →
      (getFirstNumber tbl inp).1 < (getFirstNumber tbl inp).2.1 ∧
      1 ≤ (getFirstNumber tbl inp).2.1 ∧ (getFirstNumber tbl inp).2.1 ≤ (inp.length : Int) ∧
      (inp.drop (getFirstNumber tbl inp).2.1.toNat).length < inp.length) ∧
    ((getFirstNumber tbl inp).1 < 0 → ∀ fuel out0,
      NaturalLoop tbl (fuel + 1) inp out0 = some (out0 ++ inp)) ∧
    (0 ≤ (getFirstNumber tbl inp).1 → inp.drop (getFirstNumber tbl inp).2.1.toNat = [] →
      ∀ fuel out0, NaturalLoop tbl (fuel + 1) inp out0
        = some (out0 ++ inp.take (getFirstNumber tbl inp).1.toNat
            ++ bigEndian 8 (getFirstNumber tbl inp).2.2)) ∧
    (∃ out, Natural tbl inp = some out) ∧
    (∀ fuel out0, inp.length + 1 ≤ fuel →
      NaturalLoop tbl fuel inp out0 = NaturalLoop tbl (inp.length + 1) inp out0) := by
  refine ⟨?_, ?_, ?_, NaturalLoop_total tbl _ inp [] (le_refl _), ?_⟩
  · intro h
    obtain ⟨h1, h2⟩ := getFirstNumber_bounds tbl inp h
    refine ⟨h1, by omega, h2, ?_⟩
    rw [List.length_drop]
    omega
  · intro h fuel out0
    simp only [NaturalLoop]
    rw [if_pos h]
  · intro h hd fuel out0
    simp only [NaturalLoop, PutUint64_eq]
    rw [if_neg (by omega), if_pos hd]
  · intro fuel out0 hf
    exact NaturalLoop_fuel tbl fuel (inp.length + 1) inp out0 hf (le_refl _)

/-! ## Theorems: nested buckets -/

theorem take_succ_of_getElem? (l : List (List Nat)) (i : Nat) (e : List Nat)
    (h : l[i]? = some e) : l.take (i + 1) = l.take i ++ [e] := by
  rw [List.take_succ, h]; rfl

theorem getElem?_of_lt (l : List (List Nat)) (i : Nat) (h : i < l.length) :
    ∃ e, l[i]? = some e := ⟨l[i], List.getElem?_eq_getElem h⟩

theorem take_eq_take_iff (l : List (List Nat)) (i j : Nat) (hi : i ≤ l.length)
    (hj : j ≤ l.length) (h : l.take i = l.take j) : i = j := by
  have := congrArg List.length h
  simp only [List.length_take] at this
  omega

theorem bucketBucket_some (tx : Tx) (b : Bucket) (e : List Nat)
    (h : tx.entries (b.path ++ [e]) = some Entry.bucket) :
    bucketBucket tx b e = some ⟨b.path ++ [e]⟩ := by
  simp [bucketBucket, h]

theorem bucketBucket_none (tx : Tx) (b : Bucket) (e : List Nat)
    (h : tx.entries (b.path ++ [e]) ≠ some Entry.bucket) :
    bucketBucket tx b e = none := by
  unfold bucketBucket
  split
  · rename_i heq; exact absurd heq h
  · rfl

/-- The loop of DeepBucket over buckets that all exist ends on the last one. -/
theorem DeepBucketLoop_ok (tx : Tx) (elements : List (List Nat)) :
    ∀ (n i : Nat) (b : Bucket), i + n = elements.length → b.path = elements.take i →
      (∀ j, i < j → j ≤ elements.length → tx.entries (elements.take j) = some Entry.bucket) →
      DeepBucketLoop tx elements n i b = some (some ⟨elements⟩) := by
  intro n
  induction n with
  | zero =>
    intro i b hi hb _
    have : elements.take i = elements := List.take_of_length_le (by omega)
    rw [this] at hb
    cases b
    simp only at hb
    subst hb
    rfl
  | succ n ih =>
    intro i b hi hb hall
    obtain ⟨e, he⟩ := getElem?_of_lt elements i (by omega)
    have ht := take_succ_of_getElem? elements i e he
    have hent := hall (i + 1) (by omega) (by omega)
    rw [ht, ← hb] at hent
    simp only [DeepBucketLoop, he, Option.bind_eq_bind, Option.some_bind,
      bucketBucket_some tx b e hent]
    exact ih (i + 1) _ (by omega) (by rw [ht, hb]) (fun j hj hj' => hall j (by omega) hj')

/-- The loop of DeepBucket returns nil when a bucket is missing, and never
panics. -/
theorem DeepBucketLoop_none (tx : Tx) (elements : List (List Nat)) :
    ∀ (n i : Nat) (b : Bucket), i + n = elements.length → b.path = elements.take i →
      ¬ (∀ j, i < j → j ≤ elements.length → tx.entries (elements.take j) = some Entry.bucket) →
      DeepBucketLoop tx elements n i b = some none := by
  intro n
  induction n with
  | zero =>
    intro i b hi _ hall
    exfalso; apply hall
    intro j hj hj'; omega
  | succ n ih =>
    intro i b hi hb hall
    obtain ⟨e, he⟩ := getElem?_of_lt elements i (by omega)
    have ht := take_succ_of_getElem? elements i e he
    simp only [DeepBucketLoop, he, Option.bind_eq_bind, Option.some_bind]
    by_cases hent : tx.entries (b.path ++ [e]) = some Entry.bucket
    · rw [bucketBucket_some tx b e hent]
      simp only
      apply ih (i + 1) _ (by omega) (by rw [ht, hb])
      intro hrest
      apply hall
      intro j hj hj'
      by_cases hji : j = i + 1
      · rw [hji, ht, ← hb]; exact hent
      · exact hrest j (by omega) hj'
    · rw [bucketBucket_none tx b e hent]

theorem DeepBucket_ok (tx : Tx) (chain : List (List Nat)) (hne : chain ≠ [])
    (h : tx.HasChain chain) : DeepBucket tx chain = some (some ⟨chain⟩) := by
  match chain, hne with
  | e0 :: rest, _ =>
    have h1 := h 1 (by omega) (by simp)
    simp only [List.take_succ_cons, List.take_zero] at h1
    have hb := bucketBucket_some tx ⟨[]⟩ e0 (by simpa using h1)
    simp only [DeepBucket, List.length_cons, List.getElem?_cons_zero, Option.bind_eq_bind,
      Option.some_bind, txBucket, hb]
    rw [if_neg (by omega)]
    simp only [Nat.add_sub_cancel]
    exact DeepBucketLoop_ok tx (e0 :: rest) rest.length 1 _ (by simp; omega) (by simp)
      (fun j hj hj' => h j (by omega) hj')

theorem DeepBucket_none (tx : Tx) (chain : List (List Nat)) (h : ¬ tx.HasChain chain) :
    DeepBucket tx chain = some none := by
  match chain with
  | [] => rfl
  | e0 :: rest =>
    simp only [DeepBucket, List.length_cons, List.getElem?_cons_zero, Option.bind_eq_bind,
      Option.some_bind, txBucket]
    rw [if_neg (by omega)]
    simp only [Nat.add_sub_cancel]
    by_cases h1 : tx.entries [e0] = some Entry.bucket
    · rw [bucketBucket_some tx ⟨[]⟩ e0 (by simpa using h1)]
      simp only
      apply DeepBucketLoop_none tx (e0 :: rest) rest.length 1 _ (by simp; omega) (by simp)
      intro hrest
      apply h
      intro j hj hj'
      by_cases hj1 : j = 1
      · rw [hj1]; simpa using h1
      · exact hrest j (by omega) hj'
    · rw [bucketBucket_none tx ⟨[]⟩ e0 (by simpa using h1)]

/-- DeepGet of a chain of buckets and a key: the value under the key when
every bucket of the chain exists, nil otherwise. -/
theorem DeepGet_ok (tx : Tx) (chain : List (List Nat)) (k : List Nat) (hne : chain ≠ [])
    (h : tx.HasChain chain) :
    DeepGet tx (chain ++ [k]) = some (bucketGet tx ⟨chain⟩ k) := by
  have hl : 0 < chain.length := List.length_pos.mpr hne
  simp only [DeepGet, List.length_append, List.length_cons, List.length_nil]
  rw [if_neg (by omega)]
  have e1 : (chain ++ [k]).take (chain.length + (0 + 1) - 1) = chain := by
    rw [show chain.length + (0 + 1) - 1 = chain.length by omega, List.take_left]
  have e2 : (chain ++ [k])[chain.length + (0 + 1) - 1]? = some k := by
    rw [show chain.length + (0 + 1) - 1 = chain.length by omega]
    simp
  rw [e1, DeepBucket_ok tx chain hne h]
  simp [e2]

theorem DeepGet_none (tx : Tx) (chain : List (List Nat)) (k : List Nat)
    (h : ¬ tx.HasChain chain) : DeepGet tx (chain ++ [k]) = some none := by
  simp only [DeepGet, List.length_append, List.length_cons, List.length_nil]
  split
  · rfl
  · have e1 : (chain ++ [k]).take (chain.length + (0 + 1) - 1) = chain := by
      rw [show chain.length + (0 + 1) - 1 = chain.length by omega, List.take_left]
    rw [e1, DeepBucket_none tx chain h]
    rfl

theorem bucketCreateBucketIfNotExists_ok (tx tx' : Tx) (b b' : Bucket) (e : List Nat)
    (h : bucketCreateBucketIfNotExists tx b e = Except.ok (b', tx')) :
    b' = ⟨b.path ++ [e]⟩ ∧ e ≠ [] ∧
      ∀ q, tx'.entries q = if q = b.path ++ [e] then some Entry.bucket else tx.entries q := by
  unfold bucketCreateBucketIfNotExists at h
  split_ifs at h with hw he
  split at h
  · rename_i hent
    simp only [Except.ok.injEq, Prod.mk.injEq] at h
    obtain ⟨h1, h2⟩ := h
    subst h1 h2
    refine ⟨rfl, he, ?_⟩
    intro q
    split_ifs with hq
    · rw [hq, hent]
    · rfl
  · cases h
  · cases h
  · simp only [Except.ok.injEq, Prod.mk.injEq] at h
    obtain ⟨h1, h2⟩ := h
    subst h1 h2
    exact ⟨rfl, he, fun q => rfl⟩

/-- A bucket is only created in a write transaction, and the transaction
stays one. -/
theorem bucketCreateBucketIfNotExists_writable (tx tx' : Tx) (b b' : Bucket) (e : List Nat)
    (h : bucketCreateBucketIfNotExists tx b e = Except.ok (b', tx')) :
    tx.writable = true ∧ tx'.writable = true := by
  unfold bucketCreateBucketIfNotExists at h
  split_ifs at h with hw he
  have hw' : tx.writable = true := by simpa using hw
  split at h
  · simp only [Except.ok.injEq, Prod.mk.injEq] at h
    obtain ⟨-, h2⟩ := h
    subst h2
    exact ⟨hw', hw'⟩
  · cases h
  · cases h
  · simp only [Except.ok.injEq, Prod.mk.injEq] at h
    obtain ⟨-, h2⟩ := h
    subst h2
    exact ⟨hw', hw'⟩

theorem bucketCreateBucketIfNotExists_id (tx : Tx) (b : Bucket) (e : List Nat)
    (hw : tx.writable = true) (he : e ≠ [])
    (h : tx.entries (b.path ++ [e]) = some Entry.bucket) :
    bucketCreateBucketIfNotExists tx b e = Except.ok (⟨b.path ++ [e]⟩, tx) := by
  simp [bucketCreateBucketIfNotExists, hw, he, h]

theorem path_take_succ (elements : List (List Nat)) (i : Nat) (h : i < elements.length) :
    ∃ p, path (elements.take (i + 1)) = some p := by
  match elements, h with
  | e :: es, _ => exact ⟨_, rfl⟩

theorem DeepCreateBucketIfNotExistsLoop_total (elements : List (List Nat)) :
    ∀ (n i : Nat) (b : Bucket) (tx : Tx), i + n = elements.length →
      ∃ r, DeepCreateBucketIfNotExistsLoop elements n i b tx = some r := by
  intro n
  induction n with
  | zero => intro i b tx _; exact ⟨_, rfl⟩
  | succ n ih =>
    intro i b tx hi
    obtain ⟨e, he⟩ := getElem?_of_lt elements i (by omega)
    obtain ⟨p, hp⟩ := path_take_succ elements i (by omega)
    simp only [DeepCreateBucketIfNotExistsLoop, he, Option.bind_eq_bind, Option.some_bind]
    cases hc : bucketCreateBucketIfNotExists tx b e with
    | error err => simp only [hp, Option.some_bind]; exact ⟨_, rfl⟩
    | ok r =>
      obtain ⟨b1, tx1⟩ := r
      exact ih (i + 1) b1 tx1 (by omega)

theorem DeepCreateBucketIfNotExistsLoop_ok (elements : List (List Nat)) :
    ∀ (n i : Nat) (b b' : Bucket) (tx tx' : Tx), i + n = elements.length →
      b.path = elements.take i →
      DeepCreateBucketIfNotExistsLoop elements n i b tx = some (Except.ok b', tx') →
      b' = ⟨elements⟩ ∧
      (∀ j, i < j → j ≤ elements.length → tx'.entries (elements.take j) = some Entry.bucket) ∧
      (∀ q, (∀ j, i < j → j ≤ elements.length → q ≠ elements.take j) →
        tx'.entries q = tx.entries q) := by
  intro n
  induction n with
  | zero =>
    intro i b b' tx tx' hi hb h
    simp only [DeepCreateBucketIfNotExistsLoop, Option.some.injEq, Prod.mk.injEq,
      Except.ok.injEq] at h
    obtain ⟨h1, h2⟩ := h
    subst h1 h2
    have : elements.take i = elements := List.take_of_length_le (by omega)
    rw [this] at hb
    refine ⟨by cases b; simp only at hb; subst hb; rfl, ?_, fun q _ => rfl⟩
    intro j h1 h2
    omega
  | succ n ih =>
    intro i b b' tx tx' hi hb h
    obtain ⟨e, he⟩ := getElem?_of_lt elements i (by omega)
    have ht := take_succ_of_getElem? elements i e he
    obtain ⟨p, hp⟩ := path_take_succ elements i (by omega)
    simp only [DeepCreateBucketIfNotExistsLoop, he, Option.bind_eq_bind, Option.some_bind] at h
    cases hc : bucketCreateBucketIfNotExists tx b e with
    | error err =>
      rw [hc] at h
      simp [hp] at h
    | ok r =>
      obtain ⟨b1, tx1⟩ := r
      rw [hc] at h
      simp only at h
      obtain ⟨hb1, -, htx1⟩ := bucketCreateBucketIfNotExists_ok tx tx1 b b1 e hc
      have hb1' : b1.path = elements.take (i + 1) := by rw [hb1, ht, hb]
      obtain ⟨hres, hin, hout⟩ := ih (i + 1) b1 b' tx1 tx' (by omega) hb1' h
      have hpe : b.path ++ [e] = elements.take (i + 1) := by rw [ht, hb]
      refine ⟨hres, ?_, ?_⟩
      · intro j h1 h2
        by_cases hj : j = i + 1
        · subst hj
          rw [hout _ (fun j' h1' h2' heq => by
            have := take_eq_take_iff elements (i + 1) j' (by omega) h2' heq
            omega), htx1, if_pos hpe.symm]
        · exact hin j (by omega) h2
      · intro q hq
        rw [hout q (fun j h1 h2 => hq j (by omega) h2), htx1 q, if_neg]
        rw [hpe]
        exact hq (i + 1) (by omega) (by omega)

theorem DeepCreateBucketIfNotExistsLoop_id (elements : List (List Nat)) (tx : Tx)
    (hw : tx.writable = true) (hne : ∀ e ∈ elements, e ≠ []) :
    ∀ (n i : Nat) (b : Bucket), i + n = elements.length → b.path = elements.take i →
      (∀ j, i < j → j ≤ elements.length → tx.entries (elements.take j) = some Entry.bucket) →
      DeepCreateBucketIfNotExistsLoop elements n i b tx = some (Except.ok ⟨elements⟩, tx) := by
  intro n
  induction n with
  | zero =>
    intro i b hi hb _
    have : elements.take i = elements := List.take_of_length_le (by omega)
    rw [this] at hb
    cases b
    simp only at hb
    subst hb
    rfl
  | succ n ih =>
    intro i b hi hb hall
    obtain ⟨e, he⟩ := getElem?_of_lt elements i (by omega)
    have ht := take_succ_of_getElem? elements i e he
    have hmem : e ∈ elements := by
      obtain ⟨hlt, heq⟩ := List.getElem?_eq_some.mp he
      rw [← heq]; exact List.getElem_mem _
    have hent := hall (i + 1) (by omega) (by omega)
    rw [ht, ← hb] at hent
    simp only [DeepCreateBucketIfNotExistsLoop, he, Option.bind_eq_bind, Option.some_bind,
      bucketCreateBucketIfNotExists_id tx b e hw (hne e hmem) hent]
    exact ih (i + 1) _ (by omega) (by rw [ht, hb]) (fun j hj hj' => hall j (by omega) hj')

theorem DeepCreateBucketIfNotExists_total (tx : Tx) (chain : List (List Nat)) :
    ∃ r, DeepCreateBucketIfNotExists tx chain = some r := by
  match chain with
  | [] => exact ⟨_, rfl⟩
  | e0 :: rest =>
    simp only [DeepCreateBucketIfNotExists, List.length_cons, List.getElem?_cons_zero,
      Option.bind_eq_bind, Option.some_bind]
    rw [if_neg (by omega)]
    cases hc : txCreateBucketIfNotExists tx e0 with
    | error err => exact ⟨_, rfl⟩
    | ok r =>
      obtain ⟨b1, tx1⟩ := r
      exact DeepCreateBucketIfNotExistsLoop_total (e0 :: rest) _ 1 b1 tx1 (by simp; omega)

theorem DeepCreateBucketIfNotExists_ok (tx tx' : Tx) (chain : List (List Nat)) (b' : Bucket)
    (h : DeepCreateBucketIfNotExists tx chain = some (Except.ok b', tx')) :
    b' = ⟨chain⟩ ∧ chain ≠ [] ∧ tx'.HasChain chain ∧
      (∀ q, (∀ j, 1 ≤ j → j ≤ chain.length → q ≠ chain.take j) →
        tx'.entries q = tx.entries q) := by
  match chain with
  | [] => simp [DeepCreateBucketIfNotExists] at h
  | e0 :: rest =>
    simp only [DeepCreateBucketIfNotExists, List.length_cons, List.getElem?_cons_zero,
      Option.bind_eq_bind, Option.some_bind] at h
    rw [if_neg (by omega)] at h
    cases hc : txCreateBucketIfNotExists tx e0 with
    | error err =>
      rw [hc] at h
      simp at h
    | ok r =>
      obtain ⟨b1, tx1⟩ := r
      rw [hc] at h
      simp only [Nat.add_sub_cancel] at h
      obtain ⟨hb1, -, htx1⟩ := bucketCreateBucketIfNotExists_ok tx tx1 ⟨[]⟩ b1 e0 hc
      simp only [List.nil_append] at hb1 htx1
      obtain ⟨hres, hin, hout⟩ := DeepCreateBucketIfNotExistsLoop_ok (e0 :: rest) rest.length 1
        b1 b' tx1 tx' (by simp; omega) (by rw [hb1]; simp) h
      refine ⟨hres, by simp, ?_, ?_⟩
      · intro j h1 h2
        by_cases hj : j = 1
        · subst hj
          rw [hout _ (fun j' h1' h2' heq => by
            have := take_eq_take_iff (e0 :: rest) 1 j' (by simp) h2' heq
            omega), htx1]
          simp
        · exact hin j (by omega) h2
      · intro q hq
        rw [hout q (fun j h1 h2 => hq j (by omega) h2), htx1 q, if_neg]
        have := hq 1 (by omega) (by simp)
        simpa using this

theorem DeepCreateBucketIfNotExists_id (tx : Tx) (chain : List (List Nat)) (hne : chain ≠ [])
    (hw : tx.writable = true) (hc : tx.HasChain chain) (hk : ∀ e ∈ chain, e ≠ []) :
    DeepCreateBucketIfNotExists tx chain = some (Except.ok ⟨chain⟩, tx) := by
  match chain, hne with
  | e0 :: rest, _ =>
    have h1 := hc 1 (by omega) (by simp)
    simp only [List.take_succ_cons, List.take_zero] at h1
    have hcr := bucketCreateBucketIfNotExists_id tx ⟨[]⟩ e0 hw (hk e0 (List.mem_cons_self _ _))
      (by simpa using h1)
    simp only [DeepCreateBucketIfNotExists, List.length_cons, List.getElem?_cons_zero,
      Option.bind_eq_bind, Option.some_bind, txCreateBucketIfNotExists, hcr]
    rw [if_neg (by omega)]
    simp only [Nat.add_sub_cancel]
    exact DeepCreateBucketIfNotExistsLoop_id (e0 :: rest) tx hw hk rest.length 1 _ (by simp; omega)
      (by simp) (fun j hj hj' => hc j (by omega) hj')

theorem three_le_split (p : List (List Nat)) (h : 3 ≤ p.length) :
    ∃ chain k v, chain ≠ [] ∧ p = chain ++ [k, v] ∧ p.dropLast = chain ++ [k]
      ∧ p.getLast? = some v := by
  have hne : p ≠ [] := by intro h0; subst h0; simp at h
  have h1 := List.dropLast_append_getLast hne
  have hne2 : p.dropLast ≠ [] := by
    intro h0
    have := congrArg List.length h0
    simp only [List.length_dropLast, List.length_nil] at this
    omega
  have h2 := List.dropLast_append_getLast hne2
  refine ⟨p.dropLast.dropLast, p.dropLast.getLast hne2, p.getLast hne, ?_, ?_, h2.symm, ?_⟩
  · intro h0
    have := congrArg List.length h0
    simp only [List.length_dropLast, List.length_nil] at this
    omega
  · rw [show [p.dropLast.getLast hne2, p.getLast hne] = [p.dropLast.getLast hne2] ++ [p.getLast hne]
      from rfl, ← List.append_assoc, h2, h1]
  · exact List.getLast?_eq_getLast _ hne

/-- DeepPut on a chain of bucket names, a key and a value, in terms of the
creation of the chain and of the primitives of the store. -/
theorem DeepPut_unfold (tx : Tx) (overwrite : Bool) (chain : List (List Nat)) (k v : List Nat)
    (hne : chain ≠ []) :
    DeepPut tx overwrite (chain ++ [k, v]) =
      (DeepCreateBucketIfNotExists tx chain).bind (fun r =>
        match r with
        | (Except.error err, tx) => some ⟨false, some err, tx⟩
        | (Except.ok bucket, tx) =>
          if (!overwrite && !(bucketGet tx bucket k).isNone) = true then
            (path (chain ++ [k])).bind (fun p => some ⟨false, some (Error.ExistsError p), tx⟩)
          else
            match bucketPut tx bucket k v with
            | Except.error err =>
              (path chain).bind (fun p => some ⟨(bucketGet tx bucket k).isNone,
                some (Error.Errorf
                  (str "bucket " ++ p ++ str " put " ++ v ++ str ": " ++ err.Error)), tx⟩)
            | Except.ok tx2 => some ⟨(bucketGet tx bucket k).isNone, none, tx2⟩) := by
  have hl : 0 < chain.length := List.length_pos.mpr hne
  have e0 : (chain ++ [k, v]).length = chain.length + 2 := by simp
  have e1 : (chain ++ [k, v]).take (chain.length + 2 - 2) = chain := by
    rw [show chain.length + 2 - 2 = chain.length by omega, List.take_left]
  have e2 : (chain ++ [k, v])[chain.length + 2 - 2]? = some k := by
    rw [show chain.length + 2 - 2 = chain.length by omega]
    rw [List.getElem?_append_right (by omega)]
    simp
  have e3 : (chain ++ [k, v])[chain.length + 2 - 1]? = some v := by
    rw [show chain.length + 2 - 1 = chain.length + 1 by omega]
    rw [List.getElem?_append_right (by omega)]
    simp
  have e4 : (chain ++ [k, v]).take (chain.length + 2 - 1) = chain ++ [k] := by
    rw [show chain.length + 2 - 1 = (chain ++ [k]).length by simp,
      show chain ++ [k, v] = (chain ++ [k]) ++ [v] by simp, List.take_left]
  unfold DeepPut
  simp only [e0]
  rw [if_neg (by omega)]
  simp only [e1, e2, e3, e4, Option.bind_eq_bind, Option.some_bind]

theorem bucketPut_ok (tx tx2 : Tx) (b : Bucket) (k v : List Nat)
    (h : bucketPut tx b k v = Except.ok tx2) :
    tx2 = tx.set (b.path ++ [k]) (some (Entry.value v)) ∧ k ≠ [] ∧
      tx.entries (b.path ++ [k]) ≠ some Entry.bucket := by
  unfold bucketPut at h
  split_ifs at h with hw h1 h2 h3
  split at h
  · cases h
  · rename_i hent
    simp only [Except.ok.injEq] at h
    exact ⟨h.symm, h1, fun hb => hent hb⟩

theorem bucketPut_present (tx : Tx) (b : Bucket) (k v v0 : List Nat) (hw : tx.writable = true)
    (hk : k ≠ []) (hkl : k.length ≤ MaxKeySize) (hvl : v.length ≤ MaxValueSize)
    (h : tx.entries (b.path ++ [k]) = some (Entry.value v0)) :
    bucketPut tx b k v = Except.ok (tx.set (b.path ++ [k]) (some (Entry.value v))) := by
  unfold bucketPut
  rw [if_neg (by simp [hw]), if_neg hk, if_neg (by omega), if_neg (by omega), h]

theorem bucketGet_eq_some (tx : Tx) (b : Bucket) (k v : List Nat) :
    bucketGet tx b k = some v ↔ tx.entries (b.path ++ [k]) = some (Entry.value v) := by
  unfold bucketGet
  split
  · rename_i w hw
    rw [hw]
    simp
  · rename_i hn
    constructor
    · intro h; cases h
    · intro h; exact absurd h (hn v)

theorem bucketGet_congr (tx tx' : Tx) (b : Bucket) (k : List Nat)
    (h : tx'.entries (b.path ++ [k]) = tx.entries (b.path ++ [k])) :
    bucketGet tx' b k = bucketGet tx b k := by
  unfold bucketGet
  rw [h]

theorem append_singleton_ne_take (chain : List (List Nat)) (k : List Nat) (j : Nat)
    (hj : j ≤ chain.length) : chain ++ [k] ≠ chain.take j := by
  intro h
  have := congrArg List.length h
  simp only [List.length_append, List.length_cons, List.length_nil, List.length_take] at this
  omega

/-- In a well-formed state the buckets above an entry all exist. -/
theorem Tx.WF.hasChain (tx : Tx) (hwf : tx.WF) (chain : List (List Nat)) (k : List Nat)
    (hne : chain ≠ []) (h : tx.entries (chain ++ [k]) ≠ none) : tx.HasChain chain := by
  have hl : 0 < chain.length := List.length_pos.mpr hne
  have key : ∀ m j, j + m = chain.length → 1 ≤ j →
      tx.entries (chain.take j) = some Entry.bucket := by
    intro m
    induction m with
    | zero =>
      intro j hj _
      rw [List.take_of_length_le (by omega)]
      exact hwf.1 chain k hne h
    | succ m ih =>
      intro j hj h1
      obtain ⟨e, he⟩ := getElem?_of_lt chain j (by omega)
      have ht := take_succ_of_getElem? chain j e he
      have hnext := ih (j + 1) (by omega) (by omega)
      rw [ht] at hnext
      apply hwf.1 (chain.take j) e
      · intro h0
        have := congrArg List.length h0
        simp only [List.length_take, List.length_nil] at this
        omega
      · rw [hnext]; simp
  intro j h1 h2
  exact key (chain.length - j) j (by omega) h1

theorem Tx.WF.names_ne_nil (tx : Tx) (hwf : tx.WF) (chain : List (List Nat))
    (hc : tx.HasChain chain) : ∀ e ∈ chain, e ≠ [] := by
  intro e hmem he
  obtain ⟨i, hi, hget⟩ := List.getElem_of_mem hmem
  have hq : chain[i]? = some e := by rw [List.getElem?_eq_getElem hi, hget]
  have ht := take_succ_of_getElem? chain i e hq
  have := hc (i + 1) (by omega) (by omega)
  rw [ht, he, hwf.2.1] at this
  cases this

theorem pathTail_eq (es : List (List Nat)) (e : List Nat) :
    e ++ pathTail es = (str ", ").intercalate (e :: es) := by
  induction es generalizing e with
  | nil => simp [pathTail, List.intercalate]
  | cons x xs ih =>
    have := ih x
    simp only [List.intercalate, List.intersperse] at this ⊢
    simp only [pathTail, List.flatten_cons]
    rw [List.append_assoc, this]

theorem path_eq_intercalate (l : List (List Nat)) (h : l ≠ []) :
    path l = some ((str ", ").intercalate l) := by
  match l, h with
  | e :: es, _ => simp only [path, pathTail_eq]

/-- What a call of DeepPut that returns no error has done. -/
theorem DeepPut_success (tx : Tx) (overwrite : Bool) (chain : List (List Nat)) (k v : List Nat)
    (r : PutResult) (hne : chain ≠ []) (hput : DeepPut tx overwrite (chain ++ [k, v]) = some r)
    (herr : r.err = none) :
    ∃ tx1, DeepCreateBucketIfNotExists tx chain = some (Except.ok ⟨chain⟩, tx1) ∧
      r.new = (bucketGet tx1 ⟨chain⟩ k).isNone ∧
      (overwrite = true ∨ r.new = true) ∧
      bucketPut tx1 ⟨chain⟩ k v = Except.ok r.tx := by
  rw [DeepPut_unfold tx overwrite chain k v hne] at hput
  obtain ⟨res, hres⟩ := DeepCreateBucketIfNotExists_total tx chain
  rw [hres] at hput
  obtain ⟨res, tx1⟩ := res
  cases res with
  | error err =>
    simp only [Option.some_bind, Option.some.injEq] at hput
    rw [← hput] at herr
    cases herr
  | ok b =>
    obtain ⟨hb, -, -, -⟩ := DeepCreateBucketIfNotExists_ok tx tx1 chain b hres
    subst hb
    simp only [Option.some_bind] at hput
    split_ifs at hput with hex
    · rw [path_eq_intercalate _ (by simp)] at hput
      simp only [Option.some_bind, Option.some.injEq] at hput
      rw [← hput] at herr
      cases herr
    · cases hp : bucketPut tx1 ⟨chain⟩ k v with
      | error e =>
        rw [hp, path_eq_intercalate _ hne] at hput
        simp only [Option.some_bind, Option.some.injEq] at hput
        rw [← hput] at herr
        cases herr
      | ok tx2 =>
        rw [hp] at hput
        simp only [Option.some.injEq] at hput
        subst hput
        refine ⟨tx1, hres, rfl, ?_, hp⟩
        simp only
        cases overwrite with
        | true => left; rfl
        | false =>
          right
          simpa using hex

theorem DeepGet_present (tx : Tx) (chain : List (List Nat)) (k v0 : List Nat)
    (hne : chain ≠ []) (h : DeepGet tx (chain ++ [k]) = some (some v0)) :
    tx.HasChain chain ∧ tx.entries (chain ++ [k]) = some (Entry.value v0) := by
  by_cases hc : tx.HasChain chain
  · rw [DeepGet_ok tx chain k hne hc] at h
    simp only [Option.some.injEq] at h
    exact ⟨hc, (bucketGet_eq_some tx ⟨chain⟩ k v0).mp h⟩
  · rw [DeepGet_none tx chain k hc] at h
    simp at h

theorem DeepGet_after_put (tx1 : Tx) (chain : List (List Nat)) (k v : List Nat)
    (hne : chain ≠ []) (hc : tx1.HasChain chain) :
    DeepGet (tx1.set (chain ++ [k]) (some (Entry.value v))) (chain ++ [k]) = some (some v) := by
  have hc' : (tx1.set (chain ++ [k]) (some (Entry.value v))).HasChain chain := by
    intro j h1 h2
    simp only [Tx.set]
    rw [if_neg (fun h => append_singleton_ne_take chain k j h2 h.symm)]
    exact hc j h1 h2
  rw [DeepGet_ok _ chain k hne hc']
  simp [bucketGet, Tx.set]

/-- After a call of DeepPut that returns no error, DeepGet finds the last
element of the path under the path without it. -/
theorem DeepGet_after_DeepPut (tx : Tx) (overwrite : Bool) (p : List (List Nat))
    (r : PutResult) (hlen : 3 ≤ p.length) (hput : DeepPut tx overwrite p = some r)
    (herr : r.err = none) :
    ∃ v, p.getLast? = some v ∧ DeepGet r.tx p.dropLast = some (some v) := by
  obtain ⟨chain, k, v, hne, hp, hdl, hgl⟩ := three_le_split p hlen
  rw [hp] at hput
  obtain ⟨tx1, hcr, -, -, hpt⟩ := DeepPut_success tx overwrite chain k v r hne hput herr
  obtain ⟨-, -, hc1, -⟩ := DeepCreateBucketIfNotExists_ok tx tx1 chain _ hcr
  obtain ⟨htx, -, -⟩ := bucketPut_ok tx1 r.tx ⟨chain⟩ k v hpt
  refine ⟨v, hgl, ?_⟩
  rw [hdl, htx]
  exact DeepGet_after_put tx1 chain k v hne hc1

/-- C1: when DeepPut on a path of at least three elements returns no error
(for either value of overwrite), a following DeepGet on the path without its
last element returns exactly the last element; and when overwrite is false
and the key was absent before, the call returns new = true. -/
theorem DeepPut_then_DeepGet (tx : Tx) (overwrite : Bool) (p : List (List Nat)) (r : PutResult)
    (hlen : 3 ≤ p.length) (hput : DeepPut tx overwrite p = some r) (herr : r.err = none) :
    (∃ v, p.getLast? = some v ∧ DeepGet r.tx p.dropLast = some (some v)) ∧
    (overwrite = false → DeepGet tx p.dropLast = some none → r.new = true) := by
  obtain ⟨chain, k, v, hne, hp, -, -⟩ := three_le_split p hlen
  refine ⟨DeepGet_after_DeepPut tx overwrite p r hlen hput herr, ?_⟩
  rw [hp] at hput
  obtain ⟨tx1, -, -, hor, -⟩ := DeepPut_success tx overwrite chain k v r hne hput herr
  intro how _
  rcases hor with h | h
  · rw [how] at h; cases h
  · exact h

/-- When the key of a path of at least three elements holds a value that is
not nil, in a write transaction, DeepPut without overwrite returns
new = false and an ExistsError whose Key is the path without its last
element joined with ", ", and the store after the call is the store before
it. -/
theorem DeepPut_exists_of_value (tx : Tx) (hwf : tx.WF) (hw : tx.writable = true)
    (p : List (List Nat)) (v0 : List Nat)
    (hlen : 3 ≤ p.length) (hpresent : DeepGet tx p.dropLast = some (some v0)) :
    path p.dropLast = some ((str ", ").intercalate p.dropLast) ∧
    DeepPut tx false p
      = some ⟨false, some (Error.ExistsError ((str ", ").intercalate p.dropLast)), tx⟩ := by
  obtain ⟨chain, k, v, hne, hp, hdl, -⟩ := three_le_split p hlen
  rw [hdl] at hpresent ⊢
  obtain ⟨hc, hent⟩ := DeepGet_present tx chain k v0 hne hpresent
  have hpath := path_eq_intercalate (chain ++ [k]) (by simp)
  refine ⟨hpath, ?_⟩
  have hg : bucketGet tx ⟨chain⟩ k = some v0 := (bucketGet_eq_some tx ⟨chain⟩ k v0).mpr hent
  rw [hp, DeepPut_unfold tx false chain k v hne,
    DeepCreateBucketIfNotExists_id tx chain hne hw hc (Tx.WF.names_ne_nil tx hwf chain hc)]
  simp [hg, hpath]

/-- C9, the code on a key that is present but for which Get returns nil. In
a write transaction in which the key "key" of the bucket "bucket1" holds the
nil value, DeepPut without overwrite returns new = true and no error and
replaces the value; and on the name of a nested bucket it returns new = true
with the error of the store: neither call returns new = false with an
ExistsError. -/
theorem DeepPut_present_key_taken_as_new :
    txNilValue.entries putPathSecond.dropLast = some Entry.nilValue ∧
    DeepPut txNilValue false putPathSecond
      = some ⟨true, none, txNilValue.set putPathSecond.dropLast
          (some (Entry.value (str "second")))⟩ ∧
    txNested.entries putNestedPath.dropLast = some Entry.bucket ∧
    DeepPut txNested false putNestedPath
      = some ⟨true, some (Error.Errorf (str "bucket bucket1 put value: incompatible value")),
          txNested⟩ :=
  ⟨rfl, rfl, rfl, rfl⟩

/-- What new is after a call of DeepPut that returns no error: true when
nothing was held under the key, false when it held a value that is not
nil. -/
theorem DeepPut_new_of_entry (tx : Tx) (overwrite : Bool) (chain : List (List Nat))
    (k v : List Nat) (r : PutResult) (hne : chain ≠ [])
    (hput : DeepPut tx overwrite (chain ++ [k, v]) = some r) (herr : r.err = none) :
    (tx.entries (chain ++ [k]) = none → r.new = true) ∧
    (∀ v0, tx.entries (chain ++ [k]) = some (Entry.value v0) → r.new = false) := by
  obtain ⟨tx1, hcr, hnew, -, -⟩ := DeepPut_success tx overwrite chain k v r hne hput herr
  obtain ⟨-, -, -, hout⟩ := DeepCreateBucketIfNotExists_ok tx tx1 chain _ hcr
  have hsame : bucketGet tx1 ⟨chain⟩ k = bucketGet tx ⟨chain⟩ k :=
    bucketGet_congr tx tx1 ⟨chain⟩ k
      (hout _ (fun j _ h2 => append_singleton_ne_take chain k j h2))
  rw [hnew, hsame]
  constructor
  · intro h
    simp [bucketGet, h]
  · intro v0 h
    simp [bucketGet, h]

/-- C10, amended: when DeepPut on a path of at least three elements returns
no error, its result new is true when nothing was held under the key before
the call and false when the key held a value that is not nil; with overwrite
on a key that holds such a value it returns new = false and the stored value
becomes the last element; and in a write transaction it returns no error
there when that element is within the value size limit of the store. -/
theorem DeepPut_new_iff_absent (tx : Tx) (hwf : tx.WF) (p : List (List Nat))
    (hlen : 3 ≤ p.length) :
    (∀ (overwrite : Bool) (r : PutResult), DeepPut tx overwrite p = some r → r.err = none →
      (tx.entries p.dropLast = none → r.new = true) ∧
      (∀ v0, tx.entries p.dropLast = some (Entry.value v0) → r.new = false)) ∧
    (∀ (r : PutResult) (v0 : List Nat), DeepPut tx true p = some r → r.err = none →
      tx.entries p.dropLast = some (Entry.value v0) →
      r.new = false ∧ ∃ v, p.getLast? = some v ∧ DeepGet r.tx p.dropLast = some (some v)) ∧
    (∀ v0 v : List Nat, tx.writable = true → tx.entries p.dropLast = some (Entry.value v0) →
      p.getLast? = some v → v.length ≤ MaxValueSize →
      ∃ tx2, DeepPut tx true p = some ⟨false, none, tx2⟩ ∧
        DeepGet tx2 p.dropLast = some (some v)) := by
  obtain ⟨chain, k, v, hne, hp, hdl, hgl⟩ := three_le_split p hlen
  have hnew : ∀ (overwrite : Bool) (r : PutResult), DeepPut tx overwrite p = some r →
      r.err = none → (tx.entries p.dropLast = none → r.new = true) ∧
      (∀ v0, tx.entries p.dropLast = some (Entry.value v0) → r.new = false) := by
    intro overwrite r hput herr
    rw [hp] at hput
    rw [hdl]
    exact DeepPut_new_of_entry tx overwrite chain k v r hne hput herr
  refine ⟨hnew, ?_, ?_⟩
  · intro r v0 hput herr hpres
    exact ⟨(hnew true r hput herr).2 v0 hpres, DeepGet_after_DeepPut tx true p r hlen hput herr⟩
  · intro v0 v' hw hent hgl' hvl
    rw [hgl] at hgl'
    simp only [Option.some.injEq] at hgl'
    subst hgl'
    rw [hdl] at hent ⊢
    have hc : tx.HasChain chain :=
      Tx.WF.hasChain tx hwf chain k hne (by rw [hent]; simp)
    have hg : bucketGet tx ⟨chain⟩ k = some v0 := (bucketGet_eq_some tx ⟨chain⟩ k v0).mpr hent
    have hk : k ≠ [] := by
      intro h0
      rw [h0, hwf.2.1] at hent
      cases hent
    have hput := bucketPut_present tx ⟨chain⟩ k v v0 hw hk (hwf.2.2 chain k v0 hent) hvl hent
    refine ⟨tx.set (chain ++ [k]) (some (Entry.value v)), ?_,
      DeepGet_after_put tx chain k v hne hc⟩
    rw [hp, DeepPut_unfold tx true chain k v hne,
      DeepCreateBucketIfNotExists_id tx chain hne hw hc (Tx.WF.names_ne_nil tx hwf chain hc)]
    simp [hg, hput]

/-- DeepPut with overwrite on the key of `txAfterPut` returns the error of
the store when the value is longer than the value size limit. -/
theorem DeepPut_value_too_large (v : List Nat) (hv : MaxValueSize < v.length) :
    DeepPut txAfterPut true [str "bucket1", str "key", v]
      = some ⟨false, some (Error.Errorf (str "bucket bucket1 put " ++ v
          ++ str ": " ++ str "value too large")), txAfterPut⟩ := by
  have hc : txAfterPut.HasChain [str "bucket1"] := by
    intro j h1 h2
    have : j = 1 := by simp only [List.length_singleton] at h2; omega
    subst this
    rfl
  have hcr := DeepCreateBucketIfNotExists_id txAfterPut [str "bucket1"] (by simp) rfl hc
    (by intro e he; simp only [List.mem_singleton] at he; subst he; decide)
  have hg : bucketGet txAfterPut ⟨[str "bucket1"]⟩ (str "key") = some (str "value") := rfl
  have hput : bucketPut txAfterPut ⟨[str "bucket1"]⟩ (str "key") v
      = Except.error BoltError.ErrValueTooLarge := by
    unfold bucketPut
    rw [if_neg (by decide), if_neg (by decide), if_neg (by decide), if_pos (by omega)]
  have hmsg : str "bucket " ++ (str ", ").intercalate [str "bucket1"] ++ str " put "
      = str "bucket bucket1 put " := by decide
  rw [show [str "bucket1", str "key", v] = [str "bucket1"] ++ [str "key", v] from rfl,
    DeepPut_unfold txAfterPut true [str "bucket1"] _ _ (by simp), hcr]
  simp only [Option.some_bind, hg, hput, path_eq_intercalate [str "bucket1"] (by simp), hmsg]
  rfl

/-- C10, where the claim as stated fails: with overwrite on a present key
DeepPut returns an error when the key is the name of a nested bucket, when
the value is longer than the value size limit of the store, and in a
read-only transaction. -/
theorem DeepPut_overwrite_present_error :
    (txNested.entries putNestedPath.dropLast = some Entry.bucket ∧
      DeepPut txNested true putNestedPath
        = some ⟨true, some (Error.Errorf
            (str "bucket bucket1 put value: incompatible value")), txNested⟩) ∧
    (txAfterPut.entries [str "bucket1", str "key"] = some (Entry.value (str "value")) ∧
      DeepPut txAfterPut true [str "bucket1", str "key", valueTooLarge]
        = some ⟨false, some (Error.Errorf (str "bucket bucket1 put " ++ valueTooLarge
            ++ str ": " ++ str "value too large")), txAfterPut⟩) ∧
    (txReadOnly.entries putPathSecond.dropLast = some (Entry.value (str "value")) ∧
      DeepPut txReadOnly true putPathSecond
        = some ⟨false, some (Error.Errorf (str "bucket create bucket1: tx not writable")),
            txReadOnly⟩) :=
  ⟨⟨rfl, rfl⟩, ⟨rfl, DeepPut_value_too_large valueTooLarge
    (by rw [valueTooLarge, List.length_replicate]; omega)⟩, ⟨rfl, rfl⟩⟩

theorem Tx.empty_WF : Tx.empty.WF := by
  refine ⟨?_, fun _ => rfl, ?_⟩
  · intro p k _ h; exact absurd rfl h
  · intro p k v h; cases h

theorem append_singleton_ne_self (p : List (List Nat)) (k : List Nat) : p ++ [k] ≠ p := by
  intro h
  have := congrArg List.length h
  simp at this

theorem bucketCreateBucketIfNotExists_WF (tx tx' : Tx) (b b' : Bucket) (e : List Nat)
    (hwf : tx.WF) (hb : b.path ≠ [] → tx.entries b.path = some Entry.bucket)
    (h : bucketCreateBucketIfNotExists tx b e = Except.ok (b', tx')) :
    tx'.WF ∧ b'.path ≠ [] ∧ tx'.entries b'.path = some Entry.bucket := by
  obtain ⟨hb', he, htx⟩ := bucketCreateBucketIfNotExists_ok tx tx' b b' e h
  subst hb'
  refine ⟨⟨?_, ?_, ?_⟩, by simp, by rw [htx]; simp⟩
  · intro p k hp hent
    rw [htx] at hent ⊢
    by_cases h1 : p ++ [k] = b.path ++ [e]
    · have hpb : p = b.path := (List.append_inj' h1 rfl).1
      rw [if_neg (by rw [hpb]; exact (append_singleton_ne_self b.path e).symm), hpb]
      exact hb (by rw [← hpb]; exact hp)
    · rw [if_neg h1] at hent
      have := hwf.1 p k hp hent
      split_ifs
      · rfl
      · exact this
  · intro p
    rw [htx, if_neg, hwf.2.1]
    intro h1
    exact he (List.singleton_inj.mp (List.append_inj' h1 rfl).2).symm
  · intro p k v hent
    rw [htx] at hent
    split_ifs at hent
    · cases hent
    · exact hwf.2.2 p k v hent

theorem DeepCreateBucketIfNotExistsLoop_WF (elements : List (List Nat)) :
    ∀ (n i : Nat) (b : Bucket) (tx tx' : Tx) (res : Except Error Bucket),
      DeepCreateBucketIfNotExistsLoop elements n i b tx = some (res, tx') → tx.WF →
      b.path ≠ [] → tx.entries b.path = some Entry.bucket →
      tx'.WF ∧ ∀ b', res = Except.ok b' →
        b'.path ≠ [] ∧ tx'.entries b'.path = some Entry.bucket := by
  intro n
  induction n with
  | zero =>
    intro i b tx tx' res h hwf hb1 hb2
    simp only [DeepCreateBucketIfNotExistsLoop, Option.some.injEq, Prod.mk.injEq] at h
    obtain ⟨h1, h2⟩ := h
    subst h1 h2
    refine ⟨hwf, ?_⟩
    intro b' hb'
    simp only [Except.ok.injEq] at hb'
    subst hb'
    exact ⟨hb1, hb2⟩
  | succ n ih =>
    intro i b tx tx' res h hwf hb1 hb2
    simp only [DeepCreateBucketIfNotExistsLoop, Option.bind_eq_bind] at h
    cases he : elements[i]? with
    | none => rw [he] at h; simp at h
    | some e =>
      rw [he] at h
      simp only [Option.some_bind] at h
      cases hc : bucketCreateBucketIfNotExists tx b e with
      | error err =>
        rw [hc] at h
        simp only at h
        cases hp : path (elements.take (i + 1)) with
        | none => rw [hp] at h; simp at h
        | some pp =>
          rw [hp] at h
          simp only [Option.some_bind, Option.some.injEq, Prod.mk.injEq] at h
          obtain ⟨h1, h2⟩ := h
          subst h1 h2
          exact ⟨hwf, fun b' hb' => by cases hb'⟩
      | ok r =>
        obtain ⟨b1, tx1⟩ := r
        rw [hc] at h
        simp only at h
        obtain ⟨hwf1, hb1', hb2'⟩ :=
          bucketCreateBucketIfNotExists_WF tx tx1 b b1 e hwf (fun _ => hb2) hc
        exact ih (i + 1) b1 tx1 tx' res h hwf1 hb1' hb2'

theorem DeepCreateBucketIfNotExists_WF (tx tx' : Tx) (chain : List (List Nat))
    (res : Except Error Bucket) (hwf : tx.WF)
    (h : DeepCreateBucketIfNotExists tx chain = some (res, tx')) :
    tx'.WF ∧ ∀ b', res = Except.ok b' →
      b'.path ≠ [] ∧ tx'.entries b'.path = some Entry.bucket := by
  match chain with
  | [] =>
    simp only [DeepCreateBucketIfNotExists, List.length_nil, Nat.lt_one_iff, if_true,
      Option.some.injEq, Prod.mk.injEq] at h
    obtain ⟨h1, h2⟩ := h
    subst h1 h2
    exact ⟨hwf, fun b' hb' => by cases hb'⟩
  | e0 :: rest =>
    simp only [DeepCreateBucketIfNotExists, List.length_cons, List.getElem?_cons_zero,
      Option.bind_eq_bind, Option.some_bind] at h
    rw [if_neg (by omega)] at h
    cases hc : txCreateBucketIfNotExists tx e0 with
    | error err =>
      rw [hc] at h
      simp only [Option.some.injEq, Prod.mk.injEq] at h
      obtain ⟨h1, h2⟩ := h
      subst h1 h2
      exact ⟨hwf, fun b' hb' => by cases hb'⟩
    | ok r =>
      obtain ⟨b1, tx1⟩ := r
      rw [hc] at h
      simp only at h
      obtain ⟨hwf1, hb1, hb2⟩ := bucketCreateBucketIfNotExists_WF tx tx1 ⟨[]⟩ b1 e0 hwf
        (fun hne => absurd rfl hne) hc
      exact DeepCreateBucketIfNotExistsLoop_WF (e0 :: rest) _ 1 b1 tx1 tx' res h hwf1 hb1 hb2

theorem bucketPut_WF (tx tx2 : Tx) (b : Bucket) (k v : List Nat) (hwf : tx.WF)
    (hb2 : tx.entries b.path = some Entry.bucket)
    (h : bucketPut tx b k v = Except.ok tx2) : tx2.WF := by
  have hsize : k.length ≤ MaxKeySize := by
    unfold bucketPut at h
    split_ifs at h with hw h1 h2 h3
    omega
  obtain ⟨htx, hk, hnb⟩ := bucketPut_ok tx tx2 b k v h
  subst htx
  refine ⟨?_, ?_, ?_⟩
  · intro p k' hp hent
    simp only [Tx.set] at hent ⊢
    by_cases h1 : p ++ [k'] = b.path ++ [k]
    · have hpb : p = b.path := (List.append_inj' h1 rfl).1
      rw [if_neg (by rw [hpb]; exact (append_singleton_ne_self b.path k).symm), hpb]
      exact hb2
    · rw [if_neg h1] at hent
      have := hwf.1 p k' hp hent
      rw [if_neg]
      · exact this
      · intro hpe
        rw [hpe] at this
        exact hnb this
  · intro p
    simp only [Tx.set]
    rw [if_neg, hwf.2.1]
    intro h1
    exact hk (List.singleton_inj.mp (List.append_inj' h1 rfl).2).symm
  · intro p k' v' hent
    simp only [Tx.set] at hent
    split_ifs at hent with h1
    · have : k' = k := List.singleton_inj.mp (List.append_inj' h1 rfl).2
      rw [this]; exact hsize
    · exact hwf.2.2 p k' v' hent

/-- DeepPut keeps the store well-formed, whatever it returns. -/
theorem DeepPut_WF (tx : Tx) (overwrite : Bool) (p : List (List Nat)) (r : PutResult)
    (hwf : tx.WF) (hput : DeepPut tx overwrite p = some r) : r.tx.WF := by
  by_cases hlen : p.length < 3
  · simp only [DeepPut, hlen, if_true, Option.some.injEq] at hput
    rw [← hput]; exact hwf
  · obtain ⟨chain, k, v, hne, hp, -, -⟩ := three_le_split p (by omega)
    rw [hp, DeepPut_unfold tx overwrite chain k v hne] at hput
    obtain ⟨res, hres⟩ := DeepCreateBucketIfNotExists_total tx chain
    rw [hres] at hput
    obtain ⟨res, tx1⟩ := res
    obtain ⟨hwf1, hb⟩ := DeepCreateBucketIfNotExists_WF tx tx1 chain res hwf hres
    cases res with
    | error err =>
      simp only [Option.some_bind, Option.some.injEq] at hput
      rw [← hput]; exact hwf1
    | ok b =>
      obtain ⟨hb1, hb2⟩ := hb b rfl
      simp only [Option.some_bind] at hput
      split_ifs at hput with hex
      · rw [path_eq_intercalate _ (by simp)] at hput
        simp only [Option.some_bind, Option.some.injEq] at hput
        rw [← hput]; exact hwf1
      · cases hpt : bucketPut tx1 b k v with
        | error e =>
          rw [hpt, path_eq_intercalate _ hne] at hput
          simp only [Option.some_bind, Option.some.injEq] at hput
          rw [← hput]; exact hwf1
        | ok tx2 =>
          rw [hpt] at hput
          simp only [Option.some.injEq] at hput
          rw [← hput]
          exact bucketPut_WF tx1 tx2 b k v hwf1 hb2 hpt

/-- DeepPut returns on every input: no index leaves the path. -/
theorem DeepPut_total (tx : Tx) (overwrite : Bool) (p : List (List Nat)) :
    ∃ r, DeepPut tx overwrite p = some r := by
  by_cases hlen : p.length < 3
  · refine ⟨⟨false, some (Error.Errorf
      (str "insufficient number of elements " ++ decimal p.length ++ str " < 3")), tx⟩, ?_⟩
    simp only [DeepPut, hlen, if_true]
  · obtain ⟨chain, k, v, hne, hp, -, -⟩ := three_le_split p (by omega)
    rw [hp, DeepPut_unfold tx overwrite chain k v hne]
    obtain ⟨res, hres⟩ := DeepCreateBucketIfNotExists_total tx chain
    rw [hres]
    obtain ⟨res, tx1⟩ := res
    cases res with
    | error err => exact ⟨_, rfl⟩
    | ok b =>
      simp only [Option.some_bind]
      split_ifs
      · rw [path_eq_intercalate _ (by simp)]; exact ⟨_, rfl⟩
      · cases hpt : bucketPut tx1 b k v with
        | error e => simp only [path_eq_intercalate _ hne]; exact ⟨_, rfl⟩
        | ok tx2 => exact ⟨_, rfl⟩

theorem path_take_succ_eq (elements : List (List Nat)) (i : Nat) (h : i < elements.length) :
    path (elements.take (i + 1)) = some ((str ", ").intercalate (elements.take (i + 1))) := by
  apply path_eq_intercalate
  intro h0
  have := congrArg List.length h0
  simp only [List.length_take, List.length_nil] at this
  omega

theorem intercalate_singleton (e : List Nat) : (str ", ").intercalate [e] = e := by
  simp [List.intercalate]

/-- The descent loop of DeepDelete and DeepDeleteBucket over buckets that all
exist ends on the last of them. -/
theorem DeepDeleteLoop_ok (tx : Tx) (ensure : Bool) (elements : List (List Nat)) :
    ∀ (n i : Nat) (b : Bucket), i + n ≤ elements.length → b.path = elements.take i →
      (∀ j, i < j → j ≤ i + n → tx.entries (elements.take j) = some Entry.bucket) →
      DeepDeleteLoop tx ensure elements n i b = some (Except.ok ⟨elements.take (i + n)⟩) := by
  intro n
  induction n with
  | zero =>
    intro i b _ hb _
    cases b
    simp only at hb
    subst hb
    rfl
  | succ n ih =>
    intro i b hi hb hall
    obtain ⟨e, he⟩ := getElem?_of_lt elements i (by omega)
    have ht := take_succ_of_getElem? elements i e he
    have hent := hall (i + 1) (by omega) (by omega)
    rw [ht, ← hb] at hent
    simp only [DeepDeleteLoop, he, Option.bind_eq_bind, Option.some_bind,
      bucketBucket_some tx b e hent]
    rw [ih (i + 1) _ (by omega) (by rw [ht, hb]) (fun j hj hj' => hall j (by omega) (by omega))]
    have : i + 1 + n = i + (n + 1) := by omega
    rw [this]

/-- The descent loop of DeepDelete and DeepDeleteBucket at the first missing
bucket, element `m` of the path: with ensure the NotFoundError of the path
up to that element, without it nil. -/
theorem DeepDeleteLoop_missing (tx : Tx) (ensure : Bool) (elements : List (List Nat)) (m : Nat) :
    ∀ (n i : Nat) (b : Bucket), i + n ≤ elements.length → b.path = elements.take i →
      i ≤ m → m < i + n →
      (∀ j, i < j → j ≤ m → tx.entries (elements.take j) = some Entry.bucket) →
      tx.entries (elements.take (m + 1)) ≠ some Entry.bucket →
      DeepDeleteLoop tx ensure elements n i b = some (Except.error
        (if ensure = true then
          some (Error.NotFoundError ((str ", ").intercalate (elements.take (m + 1))))
        else none)) := by
  intro n
  induction n with
  | zero => intro i b _ _ h1 h2; omega
  | succ n ih =>
    intro i b hi hb h1 h2 hall hmiss
    obtain ⟨e, he⟩ := getElem?_of_lt elements i (by omega)
    have ht := take_succ_of_getElem? elements i e he
    simp only [DeepDeleteLoop, he, Option.bind_eq_bind, Option.some_bind]
    by_cases hm : m = i
    · subst hm
      rw [ht, ← hb] at hmiss
      rw [bucketBucket_none tx b e hmiss]
      simp only
      rw [path_take_succ_eq elements m (by omega)]
      cases ensure <;> rfl
    · have hent := hall (i + 1) (by omega) (by omega)
      rw [ht, ← hb] at hent
      rw [bucketBucket_some tx b e hent]
      simp only
      exact ih (i + 1) _ (by omega) (by rw [ht, hb]) (by omega) (by omega)
        (fun j hj hj' => hall j (by omega) hj') hmiss

theorem DeepDeleteLoop_total (tx : Tx) (ensure : Bool) (elements : List (List Nat)) :
    ∀ (n i : Nat) (b : Bucket), i + n ≤ elements.length →
      ∃ r, DeepDeleteLoop tx ensure elements n i b = some r := by
  intro n
  induction n with
  | zero => intro i b _; exact ⟨_, rfl⟩
  | succ n ih =>
    intro i b hi
    obtain ⟨e, he⟩ := getElem?_of_lt elements i (by omega)
    simp only [DeepDeleteLoop, he, Option.bind_eq_bind, Option.some_bind]
    cases hb : bucketBucket tx b e with
    | none =>
      simp only
      rw [path_take_succ_eq elements i (by omega)]
      cases ensure
      · exact ⟨_, rfl⟩
      · exact ⟨_, rfl⟩
    | some b' => exact ih (i + 1) b' (by omega)

/-- A chain that does not resolve has a first missing bucket. -/
theorem Tx.first_missing (tx : Tx) (chain : List (List Nat)) (h : ¬ tx.HasChain chain) :
    ∃ m, m < chain.length ∧
      (∀ j, 1 ≤ j → j ≤ m → tx.entries (chain.take j) = some Entry.bucket) ∧
      tx.entries (chain.take (m + 1)) ≠ some Entry.bucket := by
  have key : ∀ k, k ≤ chain.length →
      (∀ j, 1 ≤ j → j ≤ k → tx.entries (chain.take j) = some Entry.bucket) ∨
      ∃ m, m < k ∧
        (∀ j, 1 ≤ j → j ≤ m → tx.entries (chain.take j) = some Entry.bucket) ∧
        tx.entries (chain.take (m + 1)) ≠ some Entry.bucket := by
    intro k
    induction k with
    | zero => intro _; left; intro j h1 h2; omega
    | succ k ih =>
      intro hk
      rcases ih (by omega) with hall | ⟨m, hm, hp, hq⟩
      · by_cases hnext : tx.entries (chain.take (k + 1)) = some Entry.bucket
        · left
          intro j h1 h2
          by_cases hj : j = k + 1
          · rw [hj]; exact hnext
          · exact hall j h1 (by omega)
        · right
          exact ⟨k, by omega, hall, hnext⟩
      · right
        exact ⟨m, by omega, hp, hq⟩
  rcases key chain.length (Nat.le_refl _) with hall | ⟨m, hm, hp, hq⟩
  · exact absurd (fun j h1 h2 => hall j h1 h2) h
  · exact ⟨m, hm, hp, hq⟩

theorem take_append_singleton (chain : List (List Nat)) (k : List Nat) (j : Nat)
    (hj : j ≤ chain.length) : (chain ++ [k]).take j = chain.take j :=
  List.take_append_of_le_length hj

/-- DeepDelete when element `m` of the chain is the first missing bucket. -/
theorem DeepDelete_missing (tx : Tx) (ensure : Bool) (chain : List (List Nat)) (k : List Nat)
    (m : Nat) (hm : m < chain.length)
    (hall : ∀ j, 1 ≤ j → j ≤ m → tx.entries (chain.take j) = some Entry.bucket)
    (hmiss : tx.entries (chain.take (m + 1)) ≠ some Entry.bucket) :
    DeepDelete tx ensure (chain ++ [k]) = some ⟨
      if ensure = true then
        some (Error.NotFoundError ((str ", ").intercalate (chain.take (m + 1))))
      else none, tx⟩ := by
  match chain, hm with
  | e0 :: rest, hm =>
    simp only [DeepDelete, List.length_append, List.length_cons, List.length_nil,
      List.cons_append, List.getElem?_cons_zero, Option.bind_eq_bind, Option.some_bind, txBucket]
    rw [if_neg (by omega)]
    by_cases hm0 : m = 0
    · subst hm0
      have hmiss' : tx.entries ((⟨[]⟩ : Bucket).path ++ [e0]) ≠ some Entry.bucket := by
        simpa using hmiss
      rw [bucketBucket_none tx ⟨[]⟩ e0 hmiss']
      simp only [List.take_succ_cons, List.take_zero, intercalate_singleton]
      cases ensure <;> rfl
    · have h1 := hall 1 (by omega) (by omega)
      simp only [List.take_succ_cons, List.take_zero] at h1
      rw [bucketBucket_some tx ⟨[]⟩ e0 (by simpa using h1)]
      simp only
      have hloop := DeepDeleteLoop_missing tx ensure (e0 :: (rest ++ [k])) m
        (rest.length + (0 + 1) + 1 - 2) 1 ⟨[] ++ [e0]⟩
        (by simp only [List.length_cons, List.length_append, List.length_nil]; omega)
        (by simp) (by omega)
        (by simp only [List.length_cons] at hm; omega)
        (fun j hj hj' => by
          have := take_append_singleton (e0 :: rest) k j
            (by simp only [List.length_cons] at hm ⊢; omega)
          rw [List.cons_append] at this
          rw [this]; exact hall j (by omega) hj')
        (by
          have := take_append_singleton (e0 :: rest) k (m + 1)
            (by simp only [List.length_cons] at hm ⊢; omega)
          rw [List.cons_append] at this
          rw [this]; exact hmiss)
      rw [hloop]
      have := take_append_singleton (e0 :: rest) k (m + 1)
        (by simp only [List.length_cons] at hm ⊢; omega)
      rw [List.cons_append] at this
      rw [this]
      simp

/-- DeepDelete when every bucket of the chain exists. -/
theorem DeepDelete_resolved (tx : Tx) (ensure : Bool) (chain : List (List Nat)) (k : List Nat)
    (hne : chain ≠ []) (hc : tx.HasChain chain) :
    DeepDelete tx ensure (chain ++ [k]) =
      if (ensure && (bucketGet tx ⟨chain⟩ k).isNone) = true then
        some ⟨some (Error.NotFoundError ((str ", ").intercalate chain)), tx⟩
      else
        match bucketDelete tx ⟨chain⟩ k with
        | Except.error err =>
          some ⟨some (Error.Errorf
            (str "bucket " ++ (str ", ").intercalate chain ++ str " delete " ++ k ++ str ": "
              ++ err.Error)), tx⟩
        | Except.ok tx2 => some ⟨none, tx2⟩ := by
  match chain, hne with
  | e0 :: rest, _ =>
    have h1 := hc 1 (by omega) (by simp)
    simp only [List.take_succ_cons, List.take_zero] at h1
    have hloop := DeepDeleteLoop_ok tx ensure (e0 :: (rest ++ [k]))
      (rest.length + (0 + 1) + 1 - 2) 1 ⟨[] ++ [e0]⟩
      (by simp only [List.length_cons, List.length_append, List.length_nil]; omega)
      (by simp)
      (fun j hj hj' => by
        have := take_append_singleton (e0 :: rest) k j
          (by simp only [List.length_cons]; omega)
        rw [List.cons_append] at this
        rw [this]; exact hc j (by omega) (by simp only [List.length_cons]; omega))
    have htake : (e0 :: (rest ++ [k])).take (1 + (rest.length + (0 + 1) + 1 - 2)) = e0 :: rest := by
      have := List.take_left (e0 :: rest) [k]
      rw [List.cons_append] at this
      rw [show 1 + (rest.length + (0 + 1) + 1 - 2) = (e0 :: rest).length by
        simp only [List.length_cons]; omega]
      exact this
    have hkey : (e0 :: (rest ++ [k]))[rest.length + (0 + 1) + 1 - 1]? = some k := by
      rw [show rest.length + (0 + 1) + 1 - 1 = rest.length + 1 by omega]
      simp
    have htake2 : (e0 :: (rest ++ [k])).take (rest.length + (0 + 1) + 1 - 1) = e0 :: rest := by
      have := List.take_left (e0 :: rest) [k]
      rw [List.cons_append] at this
      rw [show rest.length + (0 + 1) + 1 - 1 = (e0 :: rest).length by
        simp only [List.length_cons]; omega]
      exact this
    simp only [DeepDelete, List.length_append, List.length_cons, List.length_nil,
      List.cons_append, List.getElem?_cons_zero, Option.bind_eq_bind, Option.some_bind, txBucket]
    rw [if_neg (by omega), bucketBucket_some tx ⟨[]⟩ e0 (by simpa using h1)]
    simp only [hloop, htake, Option.some_bind, hkey, htake2,
      path_eq_intercalate (e0 :: rest) (by simp)]

/-- DeepDeleteBucket on a path of at least two elements when element `m` of
the chain is the first missing bucket. -/
theorem DeepDeleteBucket_missing (tx : Tx) (ensure : Bool) (chain : List (List Nat))
    (k : List Nat) (m : Nat) (hm : m < chain.length)
    (hall : ∀ j, 1 ≤ j → j ≤ m → tx.entries (chain.take j) = some Entry.bucket)
    (hmiss : tx.entries (chain.take (m + 1)) ≠ some Entry.bucket) :
    DeepDeleteBucket tx ensure (chain ++ [k]) = some ⟨
      if ensure = true then
        some (Error.NotFoundError ((str ", ").intercalate (chain.take (m + 1))))
      else none, tx⟩ := by
  match chain, hm with
  | e0 :: rest, hm =>
    simp only [DeepDeleteBucket, List.length_append, List.length_cons, List.length_nil,
      List.cons_append, List.getElem?_cons_zero, Option.bind_eq_bind, Option.some_bind, txBucket]
    rw [if_neg (by omega)]
    by_cases hm0 : m = 0
    · subst hm0
      have hmiss' : tx.entries ((⟨[]⟩ : Bucket).path ++ [e0]) ≠ some Entry.bucket := by
        simpa using hmiss
      rw [bucketBucket_none tx ⟨[]⟩ e0 hmiss']
      simp only [List.take_succ_cons, List.take_zero, intercalate_singleton]
      cases ensure <;> rfl
    · have h1 := hall 1 (by omega) (by omega)
      simp only [List.take_succ_cons, List.take_zero] at h1
      rw [bucketBucket_some tx ⟨[]⟩ e0 (by simpa using h1)]
      simp only
      rw [if_neg (by omega)]
      have hloop := DeepDeleteLoop_missing tx ensure (e0 :: (rest ++ [k])) m
        (rest.length + (0 + 1) + 1 - 2) 1 ⟨[] ++ [e0]⟩
        (by simp only [List.length_cons, List.length_append, List.length_nil]; omega)
        (by simp) (by omega)
        (by simp only [List.length_cons] at hm; omega)
        (fun j hj hj' => by
          have := take_append_singleton (e0 :: rest) k j
            (by simp only [List.length_cons] at hm ⊢; omega)
          rw [List.cons_append] at this
          rw [this]; exact hall j (by omega) hj')
        (by
          have := take_append_singleton (e0 :: rest) k (m + 1)
            (by simp only [List.length_cons] at hm ⊢; omega)
          rw [List.cons_append] at this
          rw [this]; exact hmiss)
      rw [hloop]
      have := take_append_singleton (e0 :: rest) k (m + 1)
        (by simp only [List.length_cons] at hm ⊢; omega)
      rw [List.cons_append] at this
      rw [this]
      simp

/-- DeepDeleteBucket on a path of at least two elements when every bucket of
the chain exists. -/
theorem DeepDeleteBucket_resolved (tx : Tx) (ensure : Bool) (chain : List (List Nat))
    (k : List Nat) (hne : chain ≠ []) (hc : tx.HasChain chain) :
    DeepDeleteBucket tx ensure (chain ++ [k]) =
      match bucketDeleteBucket tx ⟨chain⟩ k with
      | Except.error err =>
        if err = BoltError.ErrBucketNotFound then
          if ensure = true then
            some ⟨some (Error.NotFoundError ((str ", ").intercalate chain)), tx⟩
          else some ⟨none, tx⟩
        else
          some ⟨some (Error.Errorf
            (str "bucket " ++ (str ", ").intercalate chain ++ str " delete " ++ k ++ str ": "
              ++ err.Error)), tx⟩
      | Except.ok tx2 => some ⟨none, tx2⟩ := by
  match chain, hne with
  | e0 :: rest, _ =>
    have h1 := hc 1 (by omega) (by simp)
    simp only [List.take_succ_cons, List.take_zero] at h1
    have hloop := DeepDeleteLoop_ok tx ensure (e0 :: (rest ++ [k]))
      (rest.length + (0 + 1) + 1 - 2) 1 ⟨[] ++ [e0]⟩
      (by simp only [List.length_cons, List.length_append, List.length_nil]; omega)
      (by simp)
      (fun j hj hj' => by
        have := take_append_singleton (e0 :: rest) k j
          (by simp only [List.length_cons]; omega)
        rw [List.cons_append] at this
        rw [this]; exact hc j (by omega) (by simp only [List.length_cons]; omega))
    have htake : (e0 :: (rest ++ [k])).take (1 + (rest.length + (0 + 1) + 1 - 2)) = e0 :: rest := by
      have := List.take_left (e0 :: rest) [k]
      rw [List.cons_append] at this
      rw [show 1 + (rest.length + (0 + 1) + 1 - 2) = (e0 :: rest).length by
        simp only [List.length_cons]; omega]
      exact this
    have hkey : (e0 :: (rest ++ [k]))[rest.length + (0 + 1) + 1 - 1]? = some k := by
      rw [show rest.length + (0 + 1) + 1 - 1 = rest.length + 1 by omega]
      simp
    have htake2 : (e0 :: (rest ++ [k])).take (rest.length + (0 + 1) + 1 - 1) = e0 :: rest := by
      have := List.take_left (e0 :: rest) [k]
      rw [List.cons_append] at this
      rw [show rest.length + (0 + 1) + 1 - 1 = (e0 :: rest).length by
        simp only [List.length_cons]; omega]
      exact this
    simp only [DeepDeleteBucket, List.length_append, List.length_cons, List.length_nil,
      List.cons_append, List.getElem?_cons_zero, Option.bind_eq_bind, Option.some_bind, txBucket]
    rw [if_neg (by omega), bucketBucket_some tx ⟨[]⟩ e0 (by simpa using h1)]
    simp only
    rw [if_neg (by omega)]
    simp only [hloop, htake, Option.some_bind, hkey, htake2,
      path_eq_intercalate (e0 :: rest) (by simp)]

/-- DeepDeleteBucket on a path of one element. -/
theorem DeepDeleteBucket_root (tx : Tx) (ensure : Bool) (e0 : List Nat) :
    DeepDeleteBucket tx ensure [e0] =
      if tx.entries [e0] = some Entry.bucket then
        if tx.writable = true then some ⟨none, tx.removeSubtree [e0]⟩
        else some ⟨some (Error.Errorf (str "bucket " ++ e0 ++ str " delete: "
          ++ BoltError.ErrTxNotWritable.Error)), tx⟩
      else some ⟨if ensure = true then some (Error.NotFoundError e0) else none, tx⟩ := by
  simp only [DeepDeleteBucket, List.length_cons, List.length_nil, List.getElem?_cons_zero,
    Option.bind_eq_bind, Option.some_bind, txBucket]
  rw [if_neg (by omega)]
  by_cases h : tx.entries [e0] = some Entry.bucket
  · rw [if_pos h, bucketBucket_some tx ⟨[]⟩ e0 (by simpa using h)]
    simp only [txDeleteBucket, bucketDeleteBucket, List.nil_append, h]
    cases hw : tx.writable <;> simp
  · rw [if_neg h, bucketBucket_none tx ⟨[]⟩ e0 (by simpa using h)]
    simp only
    cases ensure <;> rfl

theorem bucketDelete_none (tx : Tx) (b : Bucket) (k : List Nat) (hw : tx.writable = true)
    (h : tx.entries (b.path ++ [k]) = none) : bucketDelete tx b k = Except.ok tx := by
  simp [bucketDelete, hw, h]

theorem bucketDelete_readOnly (tx : Tx) (b : Bucket) (k : List Nat)
    (hw : tx.writable = false) :
    bucketDelete tx b k = Except.error BoltError.ErrTxNotWritable := by
  simp [bucketDelete, hw]

theorem bucketDeleteBucket_readOnly (tx : Tx) (b : Bucket) (k : List Nat)
    (hw : tx.writable = false) :
    bucketDeleteBucket tx b k = Except.error BoltError.ErrTxNotWritable := by
  simp [bucketDeleteBucket, hw]

theorem bucketDelete_ok (tx tx2 : Tx) (b : Bucket) (k : List Nat)
    (h : bucketDelete tx b k = Except.ok tx2) :
    tx.entries (b.path ++ [k]) ≠ some Entry.bucket ∧ tx2.entries (b.path ++ [k]) = none ∧
      ∀ q, q ≠ b.path ++ [k] → tx2.entries q = tx.entries q := by
  unfold bucketDelete at h
  split_ifs at h with hw
  split at h
  · rename_i hent
    simp only [Except.ok.injEq] at h
    subst h
    exact ⟨by rw [hent]; simp, hent, fun q _ => rfl⟩
  · cases h
  · rename_i v hent
    simp only [Except.ok.injEq] at h
    subst h
    refine ⟨by rw [hent]; simp, by simp [Tx.set], ?_⟩
    intro q hq
    simp [Tx.set, hq]
  · rename_i hent
    simp only [Except.ok.injEq] at h
    subst h
    refine ⟨by rw [hent]; simp, by simp [Tx.set], ?_⟩
    intro q hq
    simp [Tx.set, hq]

theorem bucketGet_none_of_entries (tx : Tx) (b : Bucket) (k : List Nat)
    (h : tx.entries (b.path ++ [k]) = none) : bucketGet tx b k = none := by
  simp [bucketGet, h]

theorem two_le_split (p : List (List Nat)) (h : 2 ≤ p.length) :
    ∃ chain k, chain ≠ [] ∧ p = chain ++ [k] ∧ p.dropLast = chain := by
  have hne : p ≠ [] := by intro h0; subst h0; simp at h
  refine ⟨p.dropLast, p.getLast hne, ?_, (List.dropLast_append_getLast hne).symm, rfl⟩
  intro h0
  have := congrArg List.length h0
  simp only [List.length_dropLast, List.length_nil] at this
  omega

theorem one_le_split (p : List (List Nat)) (h : 1 ≤ p.length) :
    ∃ chain k, p = chain ++ [k] ∧ p.dropLast = chain := by
  have hne : p ≠ [] := by intro h0; subst h0; simp at h
  exact ⟨p.dropLast, p.getLast hne, (List.dropLast_append_getLast hne).symm, rfl⟩

theorem hasChain_iff (tx : Tx) (chain : List (List Nat)) :
    hasChain tx chain = true ↔ tx.HasChain chain := by
  simp only [hasChain, List.all_eq_true, List.mem_range, decide_eq_true_eq, Tx.HasChain]
  constructor
  · intro h j h1 h2
    have := h (j - 1) (by omega)
    rwa [show j - 1 + 1 = j by omega] at this
  · intro h j hj
    exact h (j + 1) (by omega) (by omega)

theorem Tx.HasChain.init (tx : Tx) (chain : List (List Nat)) (k : List Nat)
    (h : tx.HasChain (chain ++ [k])) :
    tx.HasChain chain ∧ tx.entries (chain ++ [k]) = some Entry.bucket := by
  constructor
  · intro j h1 h2
    have := h j h1 (by simp only [List.length_append, List.length_cons, List.length_nil]; omega)
    rwa [take_append_singleton chain k j h2] at this
  · have := h (chain ++ [k]).length
      (by simp only [List.length_append, List.length_cons, List.length_nil]; omega) (le_refl _)
    rwa [List.take_length] at this

theorem Tx.HasChain.snoc (tx : Tx) (chain : List (List Nat)) (k : List Nat)
    (h : tx.HasChain chain) (hk : tx.entries (chain ++ [k]) = some Entry.bucket) :
    tx.HasChain (chain ++ [k]) := by
  intro j h1 h2
  simp only [List.length_append, List.length_cons, List.length_nil] at h2
  by_cases hj : j ≤ chain.length
  · rw [take_append_singleton chain k j hj]; exact h j h1 hj
  · have : j = (chain ++ [k]).length := by
      simp only [List.length_append, List.length_cons, List.length_nil]; omega
    rw [this, List.take_length]; exact hk

theorem DeepBucket_total (tx : Tx) (p : List (List Nat)) : ∃ b, DeepBucket tx p = some b := by
  by_cases hc : tx.HasChain p
  · by_cases hne : p = []
    · subst hne; exact ⟨none, rfl⟩
    · exact ⟨_, DeepBucket_ok tx p hne hc⟩
  · exact ⟨_, DeepBucket_none tx p hc⟩

theorem DeepBucket_some (tx : Tx) (p : List (List Nat)) (b : Bucket)
    (h : DeepBucket tx p = some (some b)) : p ≠ [] ∧ tx.HasChain p ∧ b = ⟨p⟩ := by
  have hc : tx.HasChain p := by
    by_contra hc
    rw [DeepBucket_none tx p hc] at h
    simp at h
  have hne : p ≠ [] := by
    intro h0
    subst h0
    simp [DeepBucket] at h
  rw [DeepBucket_ok tx p hne hc] at h
  simp only [Option.some.injEq] at h
  exact ⟨hne, hc, h.symm⟩

theorem DeepGet_short (tx : Tx) (p : List (List Nat)) (h : p.length < 2) :
    DeepGet tx p = some none := by
  simp only [DeepGet, h, if_true]

theorem DeepGet_total (tx : Tx) (p : List (List Nat)) : ∃ v, DeepGet tx p = some v := by
  by_cases hlen : p.length < 2
  · exact ⟨_, DeepGet_short tx p hlen⟩
  · obtain ⟨chain, k, hne, hp, -⟩ := two_le_split p (by omega)
    rw [hp]
    by_cases hc : tx.HasChain chain
    · exact ⟨_, DeepGet_ok tx chain k hne hc⟩
    · exact ⟨_, DeepGet_none tx chain k hc⟩

theorem DeepDelete_short (tx : Tx) (ensure : Bool) (p : List (List Nat)) (h : p.length < 2) :
    DeepDelete tx ensure p = some ⟨some (Error.Errorf
      (str "insufficient number of elements " ++ decimal p.length ++ str " < 2")), tx⟩ := by
  simp only [DeepDelete, h, if_true]

theorem DeepDeleteBucket_short (tx : Tx) (ensure : Bool) :
    DeepDeleteBucket tx ensure [] = some ⟨some (Error.Errorf
      (str "insufficient number of elements " ++ decimal 0 ++ str " < 1")), tx⟩ := rfl

theorem DeepDelete_total (tx : Tx) (ensure : Bool) (p : List (List Nat)) :
    ∃ r, DeepDelete tx ensure p = some r := by
  by_cases hlen : p.length < 2
  · exact ⟨_, DeepDelete_short tx ensure p hlen⟩
  · obtain ⟨chain, k, hne, hp, -⟩ := two_le_split p (by omega)
    rw [hp]
    by_cases hc : tx.HasChain chain
    · rw [DeepDelete_resolved tx ensure chain k hne hc]
      split_ifs
      · exact ⟨_, rfl⟩
      · cases bucketDelete tx ⟨chain⟩ k <;> exact ⟨_, rfl⟩
    · obtain ⟨m, hm, hall, hmiss⟩ := Tx.first_missing tx chain hc
      exact ⟨_, DeepDelete_missing tx ensure chain k m hm hall hmiss⟩

theorem DeepDeleteBucket_total (tx : Tx) (ensure : Bool) (p : List (List Nat)) :
    ∃ r, DeepDeleteBucket tx ensure p = some r := by
  by_cases hlen : p.length < 1
  · have : p = [] := List.length_eq_zero.mp (by omega)
    subst this
    exact ⟨_, DeepDeleteBucket_short tx ensure⟩
  · obtain ⟨chain, k, hp, -⟩ := one_le_split p (by omega)
    rw [hp]
    by_cases hne : chain = []
    · subst hne
      rw [List.nil_append, DeepDeleteBucket_root]
      split_ifs <;> exact ⟨_, rfl⟩
    · by_cases hc : tx.HasChain chain
      · rw [DeepDeleteBucket_resolved tx ensure chain k hne hc]
        cases bucketDeleteBucket tx ⟨chain⟩ k with
        | error err =>
          simp only
          split_ifs <;> exact ⟨_, rfl⟩
        | ok tx2 => exact ⟨_, rfl⟩
      · obtain ⟨m, hm, hall, hmiss⟩ := Tx.first_missing tx chain hc
        exact ⟨_, DeepDeleteBucket_missing tx ensure chain k m hm hall hmiss⟩

/-- A call of DeepDelete that returns no error either found a bucket of the
chain missing and left the store as it was, or deleted the key from the
bucket at the end of the chain. -/
theorem DeepDelete_success (tx : Tx) (ensure : Bool) (chain : List (List Nat)) (k : List Nat)
    (r : DeleteResult) (hne : chain ≠ []) (h : DeepDelete tx ensure (chain ++ [k]) = some r)
    (herr : r.err = none) :
    (¬ tx.HasChain chain ∧ r.tx = tx) ∨
      (tx.HasChain chain ∧ bucketDelete tx ⟨chain⟩ k = Except.ok r.tx) := by
  by_cases hc : tx.HasChain chain
  · right
    refine ⟨hc, ?_⟩
    rw [DeepDelete_resolved tx ensure chain k hne hc] at h
    split_ifs at h
    · simp only [Option.some.injEq] at h
      subst h
      simp at herr
    · cases hbd : bucketDelete tx ⟨chain⟩ k with
      | error err =>
        rw [hbd] at h
        simp only [Option.some.injEq] at h
        subst h
        simp at herr
      | ok tx2 =>
        rw [hbd] at h
        simp only [Option.some.injEq] at h
        subst h
        rfl
  · left
    refine ⟨hc, ?_⟩
    obtain ⟨m, hm, hall, hmiss⟩ := Tx.first_missing tx chain hc
    rw [DeepDelete_missing tx ensure chain k m hm hall hmiss] at h
    simp only [Option.some.injEq] at h
    subst h
    rfl

theorem removeSubtree_under (tx : Tx) (p t : List (List Nat)) :
    (tx.removeSubtree p).entries (p ++ t) = none := by
  simp [Tx.removeSubtree]

theorem removeSubtree_outside (tx : Tx) (p q : List (List Nat)) (h : ∀ t, q ≠ p ++ t) :
    (tx.removeSubtree p).entries q = tx.entries q := by
  simp only [Tx.removeSubtree]
  rw [if_neg]
  intro heq
  apply h (q.drop p.length)
  conv_lhs => rw [← List.take_append_drop p.length q]
  rw [heq]

/-- DeepDeleteBucket on the path of an existing bucket removes the bucket and
everything below it. -/
theorem DeepDeleteBucket_existing (tx : Tx) (ensure : Bool) (p : List (List Nat)) (hne : p ≠ [])
    (hw : tx.writable = true) (hc : tx.HasChain p) :
    DeepDeleteBucket tx ensure p = some ⟨none, tx.removeSubtree p⟩ := by
  obtain ⟨chain, k, hp, -⟩ := one_le_split p (List.length_pos.mpr hne)
  subst hp
  obtain ⟨hc1, hk⟩ := Tx.HasChain.init tx chain k hc
  by_cases hch : chain = []
  · subst hch
    rw [List.nil_append] at hk ⊢
    rw [DeepDeleteBucket_root, if_pos hk, if_pos hw]
  · rw [DeepDeleteBucket_resolved tx ensure chain k hch hc1]
    simp [bucketDeleteBucket, hw, hk]

theorem DeepGet_removed (tx : Tx) (p t : List (List Nat)) (hne : p ≠ []) (ht : t ≠ []) :
    DeepGet (tx.removeSubtree p) (p ++ t) = some none := by
  have h1 := List.dropLast_append_getLast ht
  rw [← h1, ← List.append_assoc]
  apply DeepGet_none
  intro hc
  have := hc p.length (List.length_pos.mpr hne)
    (by simp only [List.length_append]; omega)
  rw [List.take_left] at this
  have h2 := removeSubtree_under tx p []
  rw [List.append_nil] at h2
  rw [h2] at this
  simp at this

theorem bucketCreateBucketIfNotExists_mono (tx tx' : Tx) (b b' : Bucket) (e : List Nat)
    (h : bucketCreateBucketIfNotExists tx b e = Except.ok (b', tx')) :
    ∀ q, tx'.entries q = tx.entries q ∨
      (tx.entries q = none ∧ tx'.entries q = some Entry.bucket) := by
  unfold bucketCreateBucketIfNotExists at h
  split_ifs at h with hw he
  split at h
  · simp only [Except.ok.injEq, Prod.mk.injEq] at h
    obtain ⟨-, h2⟩ := h
    subst h2
    exact fun q => Or.inl rfl
  · cases h
  · cases h
  · rename_i hent
    simp only [Except.ok.injEq, Prod.mk.injEq] at h
    obtain ⟨-, h2⟩ := h
    subst h2
    intro q
    by_cases hq : q = b.path ++ [e]
    · right
      subst hq
      exact ⟨hent, by simp [Tx.set]⟩
    · left
      simp [Tx.set, hq]

theorem DeepCreateBucketIfNotExistsLoop_mono (elements : List (List Nat)) :
    ∀ (n i : Nat) (b b' : Bucket) (tx tx' : Tx),
      DeepCreateBucketIfNotExistsLoop elements n i b tx = some (Except.ok b', tx') →
      ∀ q, tx'.entries q = tx.entries q ∨
        (tx.entries q = none ∧ tx'.entries q = some Entry.bucket) := by
  intro n
  induction n with
  | zero =>
    intro i b b' tx tx' h q
    simp only [DeepCreateBucketIfNotExistsLoop, Option.some.injEq, Prod.mk.injEq,
      Except.ok.injEq] at h
    obtain ⟨-, h2⟩ := h
    subst h2
    exact Or.inl rfl
  | succ n ih =>
    intro i b b' tx tx' h q
    simp only [DeepCreateBucketIfNotExistsLoop, Option.bind_eq_bind] at h
    cases he : elements[i]? with
    | none => rw [he] at h; simp at h
    | some e =>
      rw [he] at h
      simp only [Option.some_bind] at h
      cases hc : bucketCreateBucketIfNotExists tx b e with
      | error err =>
        rw [hc] at h
        cases hp : path (elements.take (i + 1)) <;> rw [hp] at h <;> simp at h
      | ok r =>
        obtain ⟨b1, tx1⟩ := r
        rw [hc] at h
        simp only at h
        have h1 := bucketCreateBucketIfNotExists_mono tx tx1 b b1 e hc q
        have h2 := ih (i + 1) b1 b' tx1 tx' h q
        rcases h1 with h1 | ⟨h1, h1'⟩
        · rcases h2 with h2 | ⟨h2, h2'⟩
          · left; rw [h2, h1]
          · right; exact ⟨by rw [← h1]; exact h2, h2'⟩
        · rcases h2 with h2 | ⟨h2, h2'⟩
          · right; exact ⟨h1, by rw [h2]; exact h1'⟩
          · rw [h1'] at h2; cases h2

theorem DeepCreateBucketIfNotExists_mono (tx tx' : Tx) (chain : List (List Nat)) (b' : Bucket)
    (h : DeepCreateBucketIfNotExists tx chain = some (Except.ok b', tx')) :
    ∀ q, tx'.entries q = tx.entries q ∨
      (tx.entries q = none ∧ tx'.entries q = some Entry.bucket) := by
  intro q
  match chain with
  | [] => simp [DeepCreateBucketIfNotExists] at h
  | e0 :: rest =>
    simp only [DeepCreateBucketIfNotExists, List.length_cons, List.getElem?_cons_zero,
      Option.bind_eq_bind, Option.some_bind] at h
    rw [if_neg (by omega)] at h
    cases hc : txCreateBucketIfNotExists tx e0 with
    | error err =>
      rw [hc] at h
      simp at h
    | ok r =>
      obtain ⟨b1, tx1⟩ := r
      rw [hc] at h
      simp only [Nat.add_sub_cancel] at h
      have h1 := bucketCreateBucketIfNotExists_mono tx tx1 ⟨[]⟩ b1 e0 hc q
      have h2 := DeepCreateBucketIfNotExistsLoop_mono (e0 :: rest) rest.length 1 b1 b' tx1 tx' h q
      rcases h1 with h1 | ⟨h1, h1'⟩
      · rcases h2 with h2 | ⟨h2, h2'⟩
        · left; rw [h2, h1]
        · right; exact ⟨by rw [← h1]; exact h2, h2'⟩
      · rcases h2 with h2 | ⟨h2, h2'⟩
        · right; exact ⟨h1, by rw [h2]; exact h1'⟩
        · rw [h1'] at h2; cases h2

/-- C11, amended: when a bucket of the chain of a path of at least two
elements is missing, or the last element is not a key of the bucket at the
end of the chain, DeepDelete with ensure returns a NotFoundError; DeepDelete
without ensure returns nil when a bucket of the chain is missing or the
transaction is a write transaction, and in a read-only transaction with the
whole chain present it returns the error of the store, "tx not writable";
every one of these calls leaves the store as it was. -/
theorem DeepDelete_absent (tx : Tx) (p : List (List Nat)) (hlen : 2 ≤ p.length)
    (habs : ¬ tx.HasChain p.dropLast ∨ tx.entries p = none) :
    (∃ key, DeepDelete tx true p = some ⟨some (Error.NotFoundError key), tx⟩) ∧
    (¬ tx.HasChain p.dropLast ∨ tx.writable = true → DeepDelete tx false p = some ⟨none, tx⟩) ∧
    (tx.HasChain p.dropLast → tx.writable = false →
      ∃ k, p.getLast? = some k ∧ DeepDelete tx false p = some ⟨some (Error.Errorf
        (str "bucket " ++ (str ", ").intercalate p.dropLast ++ str " delete " ++ k
          ++ str ": tx not writable")), tx⟩) := by
  obtain ⟨chain, k, hne, hp, hdl⟩ := two_le_split p hlen
  rw [hdl] at habs ⊢
  subst hp
  by_cases hc : tx.HasChain chain
  · have hent : tx.entries (chain ++ [k]) = none := habs.resolve_left (not_not.mpr hc)
    have hg := bucketGet_none_of_entries tx ⟨chain⟩ k hent
    rw [DeepDelete_resolved tx true chain k hne hc, DeepDelete_resolved tx false chain k hne hc]
    refine ⟨by simp [hg], ?_, ?_⟩
    · intro hw
      have hw' : tx.writable = true := hw.resolve_left (not_not.mpr hc)
      simp [bucketDelete_none tx ⟨chain⟩ k hw' hent]
    · intro _ hw
      refine ⟨k, by simp, ?_⟩
      simp [bucketDelete_readOnly tx ⟨chain⟩ k hw, BoltError.Error, str]
  · obtain ⟨m, hm, hall, hmiss⟩ := Tx.first_missing tx chain hc
    rw [DeepDelete_missing tx true chain k m hm hall hmiss,
      DeepDelete_missing tx false chain k m hm hall hmiss]
    exact ⟨⟨_, rfl⟩, fun _ => rfl, fun h => absurd h hc⟩

/-- C11, where the claim as stated fails: in a read-only transaction on the
store that holds only the key "key" in the bucket "bucket1", the chain of
the path "bucket1", "keyfake" is present and its key is absent, and
DeepDelete without ensure returns the error "tx not writable" of the store,
not nil. -/
theorem DeepDelete_absent_read_only :
    txReadOnly.entries deleteFakePath.dropLast = some Entry.bucket ∧
    txReadOnly.entries deleteFakePath = none ∧
    DeepDelete txReadOnly false deleteFakePath = some ⟨some (Error.Errorf
      (str "bucket bucket1 delete keyfake: tx not writable")), txReadOnly⟩ ∧
    DeepDelete txReadOnly false deleteFakePath ≠ some ⟨none, txReadOnly⟩ := by
  refine ⟨rfl, rfl, rfl, ?_⟩
  rw [show DeepDelete txReadOnly false deleteFakePath = some ⟨some (Error.Errorf
      (str "bucket bucket1 delete keyfake: tx not writable")), txReadOnly⟩ from rfl]
  intro h
  have := congrArg (fun o => o.map DeleteResult.err) h
  simp at this

/-- C12: on the store that holds only the key "key" in the bucket "bucket1",
DeepDelete with ensure of the key "keyfake" of that bucket returns a
NotFoundError whose Key is "bucket1", the chain without the key, and not the
full path "bucket1, keyfake". -/
theorem DeepDelete_ensure_key_is_chain :
    DeepDelete txAfterPut true deleteFakePath
      = some ⟨some (Error.NotFoundError (str "bucket1")), txAfterPut⟩ ∧
    (str ", ").intercalate deleteFakePath = str "bucket1, keyfake" ∧
    str "bucket1" ≠ (str ", ").intercalate deleteFakePath :=
  ⟨rfl, by decide, by decide⟩

/-- C13: when DeepDelete on a path of at least two elements returns nil,
DeepGet on the path returns nil afterwards, what is held at every other path
is what was held before, and the buckets are the same as before the call. -/
theorem DeepDelete_frame (tx : Tx) (ensure : Bool) (p : List (List Nat)) (r : DeleteResult)
    (hlen : 2 ≤ p.length) (hdel : DeepDelete tx ensure p = some r) (herr : r.err = none) :
    DeepGet r.tx p = some none ∧
    (∀ q, q ≠ p → r.tx.entries q = tx.entries q) ∧
    (∀ q, r.tx.entries q = some Entry.bucket ↔ tx.entries q = some Entry.bucket) := by
  obtain ⟨chain, k, hne, hp, -⟩ := two_le_split p hlen
  subst hp
  rcases DeepDelete_success tx ensure chain k r hne hdel herr with ⟨hc, htx⟩ | ⟨hc, hbd⟩
  · rw [htx]
    exact ⟨DeepGet_none tx chain k hc, fun q _ => rfl, fun q => Iff.rfl⟩
  · obtain ⟨hnb, hnone, hsame⟩ := bucketDelete_ok tx r.tx ⟨chain⟩ k hbd
    simp only at hnb hnone hsame
    have hc' : r.tx.HasChain chain := fun j h1 h2 => by
      rw [hsame _ (fun h => append_singleton_ne_take chain k j h2 h.symm)]
      exact hc j h1 h2
    refine ⟨?_, hsame, ?_⟩
    · rw [DeepGet_ok r.tx chain k hne hc', bucketGet_none_of_entries r.tx ⟨chain⟩ k hnone]
    · intro q
      by_cases hq : q = chain ++ [k]
      · subst hq
        rw [hnone]
        constructor
        · intro h; cases h
        · intro h; exact absurd h hnb
      · rw [hsame q hq]

/-- C14: when a path addresses an existing bucket, DeepDeleteBucket in a
write transaction returns nil and removes the bucket with all below it: afterwards DeepBucket on the
path returns nil, DeepGet returns nil on every longer path that starts with
the path, nothing is held at or below the path, and what is held at every
path that does not start with the path is what was held before. -/
theorem DeepDeleteBucket_removes_subtree (tx : Tx) (ensure : Bool) (p : List (List Nat))
    (b : Bucket) (hw : tx.writable = true) (hex : DeepBucket tx p = some (some b)) :
    ∃ tx', DeepDeleteBucket tx ensure p = some ⟨none, tx'⟩ ∧
      DeepBucket tx' p = some none ∧
      (∀ t, t ≠ [] → DeepGet tx' (p ++ t) = some none) ∧
      (∀ t, tx'.entries (p ++ t) = none) ∧
      (∀ q, (∀ t, q ≠ p ++ t) → tx'.entries q = tx.entries q) := by
  obtain ⟨hne, hc, -⟩ := DeepBucket_some tx p b hex
  refine ⟨tx.removeSubtree p, DeepDeleteBucket_existing tx ensure p hne hw hc, ?_,
    fun t ht => DeepGet_removed tx p t hne ht, removeSubtree_under tx p,
    removeSubtree_outside tx p⟩
  apply DeepBucket_none
  intro hc'
  have h1 := hc' p.length (List.length_pos.mpr hne) (le_refl _)
  rw [List.take_length] at h1
  have h2 := removeSubtree_under tx p []
  rw [List.append_nil] at h2
  rw [h2] at h1
  cases h1

/-- When a bucket of the chain of a path of at least one element is missing,
or nothing is held under the last element in the bucket at the end of the
chain (the root for a path of one element), DeepDeleteBucket in a write
transaction returns a NotFoundError with ensure and nil without, and both
leave the store as it was. -/
theorem DeepDeleteBucket_nothing_held (tx : Tx) (p : List (List Nat)) (hlen : 1 ≤ p.length)
    (hw : tx.writable = true)
    (habs : ¬ tx.HasChain p.dropLast ∨ tx.entries p = none) :
    (∃ key, DeepDeleteBucket tx true p = some ⟨some (Error.NotFoundError key), tx⟩) ∧
    DeepDeleteBucket tx false p = some ⟨none, tx⟩ := by
  obtain ⟨chain, k, hp, hdl⟩ := one_le_split p hlen
  rw [hdl] at habs
  subst hp
  by_cases hch : chain = []
  · subst hch
    have hent : tx.entries [k] = none := by
      rcases habs with h | h
      · exact absurd (fun j h1 h2 => by simp only [List.length_nil] at h2; omega) h
      · simpa using h
    rw [List.nil_append, DeepDeleteBucket_root, DeepDeleteBucket_root, hent]
    simp
  · by_cases hc : tx.HasChain chain
    · have hent : tx.entries (chain ++ [k]) = none := habs.resolve_left (not_not.mpr hc)
      rw [DeepDeleteBucket_resolved tx true chain k hch hc,
        DeepDeleteBucket_resolved tx false chain k hch hc]
      simp [bucketDeleteBucket, hw, hent]
    · obtain ⟨m, hm, hall, hmiss⟩ := Tx.first_missing tx chain hc
      rw [DeepDeleteBucket_missing tx true chain k m hm hall hmiss,
        DeepDeleteBucket_missing tx false chain k m hm hall hmiss]
      exact ⟨⟨_, rfl⟩, rfl⟩

/-- C15, the code on a target name that holds a plain value. On the store
that holds only the key "key", with the value "value", in the bucket
"bucket1", the path "bucket1", "key" addresses no bucket, and
DeepDeleteBucket returns, with ensure and without, the error
"incompatible value" of the store: not a NotFoundError with ensure, not nil
without. -/
theorem DeepDeleteBucket_value_under_target :
    txAfterPut.entries deletePath = some (Entry.value (str "value")) ∧
    DeepBucket txAfterPut deletePath = some none ∧
    DeepDeleteBucket txAfterPut true deletePath = some ⟨some (Error.Errorf
      (str "bucket bucket1 delete key: incompatible value")), txAfterPut⟩ ∧
    DeepDeleteBucket txAfterPut false deletePath = some ⟨some (Error.Errorf
      (str "bucket bucket1 delete key: incompatible value")), txAfterPut⟩ ∧
    IsNotFoundError (some (Error.Errorf
      (str "bucket bucket1 delete key: incompatible value"))) = false :=
  ⟨rfl, rfl, rfl, rfl, rfl⟩

/-- C16: on a path shorter than its minimum (three elements for DeepPut, two
for DeepDelete, one for DeepDeleteBucket and DeepCreateBucketIfNotExists)
each function returns the error "insufficient number of elements N < M",
which is neither a NotFoundError nor an ExistsError, and the store as it
was; and on every path, of any length, each function of deep.go returns: no
call indexes outside the path. -/
theorem insufficient_elements (tx : Tx) (p : List (List Nat)) :
    (∀ overwrite, p.length < 3 → DeepPut tx overwrite p = some ⟨false, some (Error.Errorf
      (str "insufficient number of elements " ++ decimal p.length ++ str " < 3")), tx⟩) ∧
    (∀ ensure, p.length < 2 → DeepDelete tx ensure p = some ⟨some (Error.Errorf
      (str "insufficient number of elements " ++ decimal p.length ++ str " < 2")), tx⟩) ∧
    (∀ ensure, p.length < 1 → DeepDeleteBucket tx ensure p = some ⟨some (Error.Errorf
      (str "insufficient number of elements " ++ decimal p.length ++ str " < 1")), tx⟩) ∧
    (p.length < 1 → DeepCreateBucketIfNotExists tx p = some (Except.error (Error.Errorf
      (str "insufficient number of elements " ++ decimal p.length ++ str " < 1")), tx)) ∧
    (∀ msg, IsNotFoundError (some (Error.Errorf msg)) = false ∧
      IsExistsError (some (Error.Errorf msg)) = false) ∧
    (∀ overwrite ensure, (DeepBucket tx p).isSome = true ∧ (DeepGet tx p).isSome = true ∧
      (DeepCreateBucketIfNotExists tx p).isSome = true ∧
      (DeepPut tx overwrite p).isSome = true ∧ (DeepDelete tx ensure p).isSome = true ∧
      (DeepDeleteBucket tx ensure p).isSome = true) := by
  refine ⟨?_, fun ensure h => DeepDelete_short tx ensure p h, ?_, ?_, fun msg => ⟨rfl, rfl⟩, ?_⟩
  · intro overwrite h
    simp only [DeepPut, h, if_true]
  · intro ensure h
    simp only [DeepDeleteBucket, h, if_true]
  · intro h
    simp only [DeepCreateBucketIfNotExists, h, if_true]
  · intro overwrite ensure
    obtain ⟨r1, h1⟩ := DeepBucket_total tx p
    obtain ⟨r2, h2⟩ := DeepGet_total tx p
    obtain ⟨r3, h3⟩ := DeepCreateBucketIfNotExists_total tx p
    obtain ⟨r4, h4⟩ := DeepPut_total tx overwrite p
    obtain ⟨r5, h5⟩ := DeepDelete_total tx ensure p
    obtain ⟨r6, h6⟩ := DeepDeleteBucket_total tx ensure p
    rw [h1, h2, h3, h4, h5, h6]
    simp

/-- C17: DeepGet returns, on every store and every path, the reference
lookup of the path: nil for a path of fewer than two elements or when a
bucket of the chain is missing (so for a key of a bucket that was never
created), else the value under the last element in the bucket at the end of
the chain, nil when none is held there; it has no error to report. -/
theorem DeepGet_eq_referenceLookup (tx : Tx) (p : List (List Nat)) :
    DeepGet tx p = some (referenceLookup tx p) ∧
    (∀ bX k, p = [bX, k] → tx.entries [bX] = none → DeepGet tx p = some none) := by
  have main : ∀ p : List (List Nat), DeepGet tx p = some (referenceLookup tx p) := by
    intro p
    by_cases hlen : p.length < 2
    · rw [DeepGet_short tx p hlen]
      simp only [referenceLookup, hlen, if_true]
    · obtain ⟨chain, k, hne, hp, hdl⟩ := two_le_split p (by omega)
      simp only [referenceLookup]
      rw [if_neg hlen, hdl]
      subst hp
      by_cases hc : tx.HasChain chain
      · rw [if_pos ((hasChain_iff tx chain).mpr hc), DeepGet_ok tx chain k hne hc]
        rfl
      · rw [if_neg (fun h => hc ((hasChain_iff tx chain).mp h)), DeepGet_none tx chain k hc]
  refine ⟨main p, ?_⟩
  intro bX k hp hent
  subst hp
  have hc : ¬ tx.HasChain [bX] := by
    intro hc
    have := hc 1 (le_refl _) (by simp)
    simp only [List.take_succ_cons, List.take_zero] at this
    rw [hent] at this
    cases this
  exact DeepGet_none tx [bX] k hc

/-- C18: when element i of a path, with i at most the length less two, is
the first whose bucket is missing, DeepDelete and DeepDeleteBucket with
ensure both return a NotFoundError whose Key is the elements up to and with
element i joined with ", " (the first element alone when i is 0), and the
store as it was. -/
theorem NotFoundError_key_of_first_missing (tx : Tx) (p : List (List Nat)) (i : Nat)
    (hi : i + 2 ≤ p.length)
    (hall : ∀ j, 1 ≤ j → j ≤ i → tx.entries (p.take j) = some Entry.bucket)
    (hmiss : tx.entries (p.take (i + 1)) ≠ some Entry.bucket) :
    path (p.take (i + 1)) = some ((str ", ").intercalate (p.take (i + 1))) ∧
    (i = 0 → p.head? = some ((str ", ").intercalate (p.take (i + 1)))) ∧
    DeepDelete tx true p
      = some ⟨some (Error.NotFoundError ((str ", ").intercalate (p.take (i + 1)))), tx⟩ ∧
    DeepDeleteBucket tx true p
      = some ⟨some (Error.NotFoundError ((str ", ").intercalate (p.take (i + 1)))), tx⟩ := by
  obtain ⟨chain, k, hne, hp, -⟩ := two_le_split p (by omega)
  subst hp
  have hm : i < chain.length := by
    simp only [List.length_append, List.length_cons, List.length_nil] at hi
    omega
  have hall' : ∀ j, 1 ≤ j → j ≤ i → tx.entries (chain.take j) = some Entry.bucket := by
    intro j h1 h2
    rw [← take_append_singleton chain k j (by omega)]
    exact hall j h1 h2
  rw [take_append_singleton chain k (i + 1) (by omega)] at hmiss ⊢
  refine ⟨path_eq_intercalate _ ?_, ?_, ?_, ?_⟩
  · intro h0
    have := congrArg List.length h0
    simp only [List.length_take, List.length_nil] at this
    omega
  · intro h0
    subst h0
    match chain, hne with
    | e0 :: rest, _ => simp [intercalate_singleton]
  · rw [DeepDelete_missing tx true chain k i hm hall' hmiss]
    rfl
  · rw [DeepDeleteBucket_missing tx true chain k i hm hall' hmiss]
    rfl

/-- C19: DeepPut is not atomic on failure. On the empty store, DeepPut of a
path whose second bucket has the empty name fails while creating it, and
DeepPut of a path whose key is empty fails while writing it; both return an
error, and the store they leave holds the bucket "bucket1" of the chain,
which did not exist before. -/
theorem DeepPut_not_atomic :
    (∃ r msg, 3 ≤ failedCreatePath.length ∧
      DeepPut Tx.empty false failedCreatePath = some r ∧ r.err = some (Error.Errorf msg) ∧
      Tx.empty.entries (failedCreatePath.take 1) = none ∧
      r.tx.entries (failedCreatePath.take 1) = some Entry.bucket) ∧
    (∃ r msg, 3 ≤ failedWritePath.length ∧
      DeepPut Tx.empty false failedWritePath = some r ∧ r.err = some (Error.Errorf msg) ∧
      Tx.empty.entries (failedWritePath.take 1) = none ∧
      r.tx.entries (failedWritePath.take 1) = some Entry.bucket) :=
  ⟨⟨⟨false, some (Error.Errorf (str "bucket create bucket1, : bucket name required")),
      Tx.empty.set [str "bucket1"] (some Entry.bucket)⟩, _, by decide, rfl, rfl, rfl, rfl⟩,
    ⟨⟨true, some (Error.Errorf (str "bucket bucket1 put value: key required")),
      Tx.empty.set [str "bucket1"] (some Entry.bucket)⟩, _, by decide, rfl, rfl, rfl, rfl⟩⟩

/-- C20: when DeepPut on a path of at least three elements returns no error,
afterwards every prefix of the chain (the path without its last two
elements) is the path of a bucket, each of them was the path of a bucket or
held nothing before, the key holds the last element, and what is held at
every path other than the key and the prefixes of the chain is what was held
before. -/
theorem DeepPut_frame (tx : Tx) (overwrite : Bool) (p : List (List Nat)) (r : PutResult)
    (hlen : 3 ≤ p.length) (hput : DeepPut tx overwrite p = some r) (herr : r.err = none) :
    r.tx.HasChain p.dropLast.dropLast ∧
    (∀ j, 1 ≤ j → j ≤ p.length - 2 →
      tx.entries (p.take j) = none ∨ tx.entries (p.take j) = some Entry.bucket) ∧
    (∃ v, p.getLast? = some v ∧ r.tx.entries p.dropLast = some (Entry.value v)) ∧
    (∀ q, q ≠ p.dropLast → (∀ j, 1 ≤ j → j ≤ p.length - 2 → q ≠ p.take j) →
      r.tx.entries q = tx.entries q) := by
  obtain ⟨chain, k, v, hne, hp, hdl, hgl⟩ := three_le_split p hlen
  have hdd : p.dropLast.dropLast = chain := by rw [hdl]; simp
  have hlen2 : p.length - 2 = chain.length := by rw [hp]; simp
  have htake : ∀ j, j ≤ chain.length → p.take j = chain.take j := by
    intro j hj
    rw [hp]
    exact List.take_append_of_le_length hj
  rw [hp] at hput
  obtain ⟨tx1, hcr, -, -, hpt⟩ := DeepPut_success tx overwrite chain k v r hne hput herr
  obtain ⟨-, -, hc1, hout⟩ := DeepCreateBucketIfNotExists_ok tx tx1 chain _ hcr
  have hmono := DeepCreateBucketIfNotExists_mono tx tx1 chain _ hcr
  obtain ⟨htx, -, -⟩ := bucketPut_ok tx1 r.tx ⟨chain⟩ k v hpt
  simp only at htx
  rw [hdd, hdl, hlen2, htx]
  refine ⟨?_, ?_, ⟨v, hgl, by simp [Tx.set]⟩, ?_⟩
  · intro j h1 h2
    simp only [Tx.set]
    rw [if_neg (fun h => append_singleton_ne_take chain k j h2 h.symm)]
    exact hc1 j h1 h2
  · intro j h1 h2
    rw [htake j h2]
    rcases hmono (chain.take j) with h | ⟨h, -⟩
    · right; rw [← h]; exact hc1 j h1 h2
    · left; exact h
  · intro q hq hq'
    simp only [Tx.set]
    rw [if_neg hq]
    exact hout q (fun j h1 h2 => by rw [← htake j h2]; exact hq' j h1 h2)

/-! ## The theorems at concrete inputs -/

theorem TimeToBytesUTC_format_witness :
    -32767 ≤ (Date 2000).Year ∧ (Date 2000).Year ≤ 32767 ∧
    ∃ b, TimeToBytesUTC (Date 2000) = some b ∧ b.length = 9 ∧
      0 ≤ (Date 2000).Year + 32768 ∧ (Date 2000).Year + 32768 < 2 ^ 16 ∧
      b.take 2 = bigEndian 2 ((Date 2000).Year + 32768).toNat ∧
      0 ≤ (Date 2000).ns - (Date (Date 2000).Year).ns ∧
      (Date 2000).ns - (Date (Date 2000).Year).ns < 2 ^ 56 ∧
      b.drop 2 = bigEndian 7 ((Date 2000).ns - (Date (Date 2000).Year).ns).toNat :=
  ⟨by decide, by decide, TimeToBytesUTC_format.1 (Date 2000) (by decide) (by decide)⟩

theorem Natural_order_witness :
    [(str "2", ([] : List Nat))].map Prod.snd = [(str "10", ([] : List Nat))].map Prod.snd ∧
    Pieces asciiOnlyTable (str "a") [(str "2", [])] ∧
    Pieces asciiOnlyTable (str "a") [(str "10", [])] ∧
    (∀ p ∈ [(str "2", ([] : List Nat))], decimalValue p.1 ≤ 2 ^ 64 - 1) ∧
    (∀ p ∈ [(str "10", ([] : List Nat))], decimalValue p.1 ≤ 2 ^ 64 - 1) ∧
    ∃ o o', Natural asciiOnlyTable (assemble (str "a") [(str "2", [])]) = some o ∧
      Natural asciiOnlyTable (assemble (str "a") [(str "10", [])]) = some o' ∧
      lexCompare o o' = lexCompare (runValues [(str "2", [])]) (runValues [(str "10", [])]) :=
  ⟨by decide, by decide, by decide, by decide, by decide,
    (Natural_order asciiOnlyTable).1 (str "a") [(str "2", [])] [(str "10", [])] (by decide)
      (by decide) (by decide) (by decide) (by decide)⟩

theorem Natural_encodes_runs_witness :
    NoUnicodeDigit asciiOnlyTable (assemble (str "Go ") goRocksPieces) ∧
    MaximalRuns (str "Go ") goRocksPieces ∧
    (∀ p ∈ goRocksPieces, decimalValue p.1 ≤ 2 ^ 64 - 1) ∧
    Natural asciiOnlyTable (assemble (str "Go ") goRocksPieces)
      = some (assembleEncoded (str "Go ") goRocksPieces) :=
  ⟨by decide, by decide, by decide,
    (Natural_encodes_runs asciiOnlyTable).1 (str "Go ") goRocksPieces (by decide) (by decide)
      (by decide)⟩

theorem Natural_overflow_unchanged_witness :
    NoDigit asciiOnlyTable (str "x") ∧ DigitRun (str "18446744073709551616") ∧
    NoDigit asciiOnlyTable (str "y") ∧ 2 ^ 64 - 1 < decimalValue (str "18446744073709551616") ∧
    Natural asciiOnlyTable (str "x" ++ str "18446744073709551616" ++ str "y")
      = some (str "x" ++ str "18446744073709551616" ++ str "y") :=
  ⟨by decide, by decide, by decide, by decide,
    (Natural_overflow_unchanged asciiOnlyTable).1 (str "x") (str "18446744073709551616")
      (str "y") (by decide) (by decide) (by decide) (by decide)⟩

theorem DeepPut_putPath : DeepPut Tx.empty false putPath = some resultAfterPut := rfl

theorem txAfterPut_WF : txAfterPut.WF :=
  DeepPut_WF Tx.empty false putPath resultAfterPut Tx.empty_WF DeepPut_putPath

theorem DeepPut_then_DeepGet_witness :
    3 ≤ putPath.length ∧ DeepPut Tx.empty false putPath = some resultAfterPut ∧
    resultAfterPut.err = none ∧
    (∃ v, putPath.getLast? = some v ∧ DeepGet resultAfterPut.tx putPath.dropLast = some (some v)) ∧
    (false = false → DeepGet Tx.empty putPath.dropLast = some none → resultAfterPut.new = true) :=
  ⟨by decide, DeepPut_putPath, rfl,
    DeepPut_then_DeepGet Tx.empty false putPath resultAfterPut (by decide) DeepPut_putPath rfl⟩

theorem DeepPut_new_iff_absent_witness :
    txAfterPut.WF ∧ 3 ≤ putPathSecond.length ∧
    ((∀ (overwrite : Bool) (r : PutResult), DeepPut txAfterPut overwrite putPathSecond = some r →
      r.err = none →
      (txAfterPut.entries putPathSecond.dropLast = none → r.new = true) ∧
      (∀ v0, txAfterPut.entries putPathSecond.dropLast = some (Entry.value v0) →
        r.new = false)) ∧
    (∀ (r : PutResult) (v0 : List Nat), DeepPut txAfterPut true putPathSecond = some r →
      r.err = none → txAfterPut.entries putPathSecond.dropLast = some (Entry.value v0) →
      r.new = false ∧
        ∃ v, putPathSecond.getLast? = some v ∧
          DeepGet r.tx putPathSecond.dropLast = some (some v)) ∧
    (∀ v0 v : List Nat, txAfterPut.writable = true →
      txAfterPut.entries putPathSecond.dropLast = some (Entry.value v0) →
      putPathSecond.getLast? = some v → v.length ≤ MaxValueSize →
      ∃ tx2, DeepPut txAfterPut true putPathSecond = some ⟨false, none, tx2⟩ ∧
        DeepGet tx2 putPathSecond.dropLast = some (some v))) :=
  ⟨txAfterPut_WF, by decide,
    DeepPut_new_iff_absent txAfterPut txAfterPut_WF putPathSecond (by decide)⟩

theorem DeepDelete_deletePath :
    DeepDelete txAfterPut true deletePath = some ⟨none, txAfterDelete⟩ := rfl

theorem DeepDelete_absent_witness :
    2 ≤ deleteFakePath.length ∧
    (¬ txAfterPut.HasChain deleteFakePath.dropLast ∨ txAfterPut.entries deleteFakePath = none) ∧
    (∃ key, DeepDelete txAfterPut true deleteFakePath
      = some ⟨some (Error.NotFoundError key), txAfterPut⟩) ∧
    (¬ txAfterPut.HasChain deleteFakePath.dropLast ∨ txAfterPut.writable = true →
      DeepDelete txAfterPut false deleteFakePath = some ⟨none, txAfterPut⟩) ∧
    (txAfterPut.HasChain deleteFakePath.dropLast → txAfterPut.writable = false →
      ∃ k, deleteFakePath.getLast? = some k ∧
        DeepDelete txAfterPut false deleteFakePath = some ⟨some (Error.Errorf
          (str "bucket " ++ (str ", ").intercalate deleteFakePath.dropLast ++ str " delete " ++ k
            ++ str ": tx not writable")), txAfterPut⟩) :=
  ⟨by decide, Or.inr (by decide),
    DeepDelete_absent txAfterPut deleteFakePath (by decide) (Or.inr (by decide))⟩

theorem DeepDelete_frame_witness :
    2 ≤ deletePath.length ∧ DeepDelete txAfterPut true deletePath = some ⟨none, txAfterDelete⟩ ∧
    DeepGet txAfterDelete deletePath = some none ∧
    (∀ q, q ≠ deletePath → txAfterDelete.entries q = txAfterPut.entries q) ∧
    (∀ q, txAfterDelete.entries q = some Entry.bucket ↔
      txAfterPut.entries q = some Entry.bucket) :=
  ⟨by decide, DeepDelete_deletePath,
    DeepDelete_frame txAfterPut true deletePath ⟨none, txAfterDelete⟩ (by decide)
      DeepDelete_deletePath rfl⟩

theorem DeepDeleteBucket_removes_subtree_witness :
    txAfterPut.writable = true ∧ DeepBucket txAfterPut bucketPath = some (some ⟨bucketPath⟩) ∧
    ∃ tx', DeepDeleteBucket txAfterPut true bucketPath = some ⟨none, tx'⟩ ∧
      DeepBucket tx' bucketPath = some none ∧
      (∀ t, t ≠ [] → DeepGet tx' (bucketPath ++ t) = some none) ∧
      (∀ t, tx'.entries (bucketPath ++ t) = none) ∧
      (∀ q, (∀ t, q ≠ bucketPath ++ t) → tx'.entries q = txAfterPut.entries q) :=
  ⟨rfl, by decide,
    DeepDeleteBucket_removes_subtree txAfterPut true bucketPath ⟨bucketPath⟩ rfl (by decide)⟩

theorem insufficient_elements_witness :
    deletePath.length < 3 ∧ bucketPath.length < 2 ∧
    DeepPut txAfterPut false deletePath = some ⟨false, some (Error.Errorf
      (str "insufficient number of elements 2 < 3")), txAfterPut⟩ ∧
    DeepDelete txAfterPut true bucketPath = some ⟨some (Error.Errorf
      (str "insufficient number of elements 1 < 2")), txAfterPut⟩ :=
  ⟨by decide, by decide,
    (insufficient_elements txAfterPut deletePath).1 false (by decide),
    (insufficient_elements txAfterPut bucketPath).2.1 true (by decide)⟩

theorem DeepGet_eq_referenceLookup_witness :
    bucketFakePath = [str "bucket1", str "bucket1fake"] ∧
    Tx.empty.entries [str "bucket1"] = none ∧
    DeepGet Tx.empty bucketFakePath = some none :=
  ⟨rfl, rfl,
    (DeepGet_eq_referenceLookup Tx.empty bucketFakePath).2 (str "bucket1") (str "bucket1fake")
      rfl rfl⟩

theorem NotFoundError_key_of_first_missing_witness :
    1 + 2 ≤ nestedFakePath.length ∧
    (∀ j, 1 ≤ j → j ≤ 1 → txAfterPut.entries (nestedFakePath.take j) = some Entry.bucket) ∧
    txAfterPut.entries (nestedFakePath.take (1 + 1)) ≠ some Entry.bucket ∧
    (str ", ").intercalate (nestedFakePath.take (1 + 1)) = str "bucket1, bucket1fake" ∧
    DeepDelete txAfterPut true nestedFakePath
      = some ⟨some (Error.NotFoundError ((str ", ").intercalate (nestedFakePath.take (1 + 1)))),
          txAfterPut⟩ ∧
    DeepDeleteBucket txAfterPut true nestedFakePath
      = some ⟨some (Error.NotFoundError ((str ", ").intercalate (nestedFakePath.take (1 + 1)))),
          txAfterPut⟩ :=
  ⟨by decide, by decide, by decide, by decide,
    (NotFoundError_key_of_first_missing txAfterPut nestedFakePath 1 (by decide) (by decide)
      (by decide)).2.2⟩

theorem DeepPut_frame_witness :
    3 ≤ putPath.length ∧ DeepPut Tx.empty false putPath = some resultAfterPut ∧
    resultAfterPut.err = none ∧
    resultAfterPut.tx.HasChain putPath.dropLast.dropLast ∧
    (∀ j, 1 ≤ j → j ≤ putPath.length - 2 →
      Tx.empty.entries (putPath.take j) = none ∨
        Tx.empty.entries (putPath.take j) = some Entry.bucket) ∧
    (∃ v, putPath.getLast? = some v ∧
      resultAfterPut.tx.entries putPath.dropLast = some (Entry.value v)) ∧
    (∀ q, q ≠ putPath.dropLast → (∀ j, 1 ≤ j → j ≤ putPath.length - 2 → q ≠ putPath.take j) →
      resultAfterPut.tx.entries q = Tx.empty.entries q) :=
  ⟨by decide, DeepPut_putPath, rfl,
    DeepPut_frame Tx.empty false putPath resultAfterPut (by decide) DeepPut_putPath rfl⟩

theorem BytesToTimeUTC_year_field_witness :
    zeroYearBytes.length = 9 ∧ (∀ x ∈ zeroYearBytes, x < 256) ∧
    oneYearBytes.length = 9 ∧ (∀ x ∈ oneYearBytes, x < 256) ∧
    yearField zeroYearBytes = 0 ∧ yearField oneYearBytes = 1 ∧
    nanoField oneYearBytes = nanoField zeroYearBytes ∧
    BytesToTimeUTC oneYearBytes = BytesToTimeUTC zeroYearBytes :=
  ⟨by decide, by decide, by decide, by decide, by decide, by decide, by decide,
    (BytesToTimeUTC_year_field zeroYearBytes (by decide) (by decide)).2.2.2.2.2 oneYearBytes
      (by decide) (by decide) (by decide) (by decide) (by decide)⟩

theorem year_offset_fits_witness :
    (List.replicate 7 0).length = 7 ∧
    ∃ b', putUint48 (List.replicate 7 0) (uint64 (((Date 2000).Add 1).Sub
        (Date ((Date 2000).Add 1).Year))) = some b' ∧ b'.length = 7 ∧
      getUint48 b' = some (((Date 2000).Add 1).Sub (Date ((Date 2000).Add 1).Year)).toNat :=
  ⟨by decide, (year_offset_fits ((Date 2000).Add 1)).2.2.2.2.1 (List.replicate 7 0) (by decide)⟩

theorem TimeToBytesUTC_bijection_witness :
    year2000Bytes.length = 9 ∧ (∀ x ∈ year2000Bytes, x < 256) ∧ 1 ≤ yearField year2000Bytes ∧
    (nanoField year2000Bytes : Int) < yearLength ((yearField year2000Bytes : Int) - 32768) ∧
    ∃ t, BytesToTimeUTC year2000Bytes = some t ∧ -32767 ≤ t.Year ∧ t.Year ≤ 32767 ∧
      TimeToBytesUTC t = some year2000Bytes :=
  ⟨by decide, by decide, by decide, by decide,
    TimeToBytesUTC_bijection.1 year2000Bytes (by decide) (by decide) (by decide) (by decide)⟩

theorem Natural_not_injective_witness :
    NoDigit asciiOnlyTable (str "a") ∧ str "a" ++ str "1" ≠ str "a" ++ str "01" ∧
    Natural asciiOnlyTable (str "a" ++ str "1") = Natural asciiOnlyTable (str "a" ++ str "01") :=
  ⟨by decide, (Natural_not_injective asciiOnlyTable).2.2 (str "a") (by decide)⟩

theorem Natural_terminates_witness :
    0 ≤ (getFirstNumber asciiOnlyTable (str "a1b")).1 ∧
    (getFirstNumber asciiOnlyTable (str "a1b")).1 < (getFirstNumber asciiOnlyTable (str "a1b")).2.1 ∧
    1 ≤ (getFirstNumber asciiOnlyTable (str "a1b")).2.1 ∧
    (getFirstNumber asciiOnlyTable (str "a1b")).2.1 ≤ ((str "a1b").length : Int) ∧
    ((str "a1b").drop (getFirstNumber asciiOnlyTable (str "a1b")).2.1.toNat).length
      < (str "a1b").length :=
  ⟨by decide, (Natural_terminates asciiOnlyTable (str "a1b")).1 (by decide)⟩

end Boltutils
